import Mathlib

/-! BigIntHomework: a shallow embedding of `BigInt.cpp`.

The C++ class `BigInt` stores a magnitude as a little-endian `unsigned char`
array (`number`, `byteLen` allocated bytes, `numLen` significant bytes) and a
sign flag (`isNegative`).

Modelling conventions
* a byte buffer is a `List Nat`; a pointer `p + i` is `p.drop i`;
  a read `p[i]` is `p.getD i 0`, a write `p[i] = v` is `p.set i v`;
* `unsigned char` results are reduced `% 256`, `unsigned short` results
  `% 65536`; `castPtr<unsigned char>(&cache)` is the low byte of `cache`
  (the layout the source comments assume: "Pointing to the lower byte");
* lengths and indices (`int` in the source) are `Nat`: they are never
  negative on the paths embedded here and stay far below `2^31`;
* the `...NoCopy` primitives read index `i` of their operands before they
  write index `i` of `ret` and never read a lower index afterwards, so when
  `ret` aliases an operand the result is the one computed from the operand's
  contents on entry; the embedding passes those contents explicitly;
* `new unsigned char[n]` is modelled as `n` zero bytes (every byte of such a
  buffer is written before it is read on the paths embedded here);
* the deliberate crash of `divisionUtil` on a zero divisor is `none`.
-/

namespace BigIntHomework

/-! ## Data model -/

/-- The four private fields of `class BigInt`. -/
structure BigInt where
  /-- Length of the content char array which stores the value. -/
  byteLen : Nat
  /-- Length of the char array part without the leading zero(s). -/
  numLen : Nat
  /-- The content (value), little-endian. -/
  number : List Nat
  /-- Negative. -/
  isNegative : Bool
  deriving DecidableEq

/-- Little-endian value of the first `n` bytes of a buffer. -/
def valN (buf : List Nat) : Nat → Nat
  | 0 => 0
  | n + 1 => valN buf n + buf.getD n 0 * 256 ^ n

/-- Magnitude of a `BigInt`: the value of its `numLen` significant bytes. -/
def BigInt.mag (a : BigInt) : Nat := valN a.number a.numLen

/-- The signed integer a `BigInt` denotes: the sign flag applied to the
magnitude (a zero magnitude denotes 0 whatever the flag). -/
def BigInt.toInt (a : BigInt) : Int :=
  if a.isNegative then -(a.mag : Int) else (a.mag : Int)

/-- Every element of a buffer is an `unsigned char`. -/
def Bytes (buf : List Nat) : Prop := ∀ x ∈ buf, x < 256

instance (buf : List Nat) : Decidable (Bytes buf) := by
  unfold Bytes; infer_instance

/-- Well-formedness of a `BigInt`: `number` is an array of `byteLen` bytes,
`numLen <= byteLen`, and the top significant byte is non-zero. -/
def BigInt.WF (a : BigInt) : Prop :=
  a.number.length = a.byteLen ∧ Bytes a.number ∧ a.numLen ≤ a.byteLen ∧
    (0 < a.numLen → a.number.getD (a.numLen - 1) 0 ≠ 0)

instance (a : BigInt) : Decidable a.WF := by
  unfold BigInt.WF; infer_instance

/-! ## Constructors -/

/-- `BigInt::allocZerosMem`. -/
def allocZerosMem (len : Nat) : List Nat := List.replicate len 0

/-- `memcpy(dst, src, n)`: the first `n` bytes of `dst` become those of `src`. -/
def memcpy (dst src : List Nat) (n : Nat) : List Nat :=
  src.take n ++ dst.drop n

/-- `BigInt::BigInt()`. -/
def BigInt.zero : BigInt :=
  { byteLen := 0, numLen := 0, number := [], isNegative := false }

/-- The trimming loop of the buffer constructor: starting from `len`, drop
one from the length for every zero byte met from the top down. -/
def trimLen (num : List Nat) : Nat → Nat
  | 0 => 0
  | n + 1 => if num.getD n 0 ≠ 0 then n + 1 else trimLen num n

/-- `BigInt::BigInt(unsigned char* _num, bool _isNeg, int _len, void*)`:
takes the buffer as it is; `byteLen = _len`, `numLen` trimmed. -/
def BigInt.ofBuffer (num : List Nat) (isNeg : Bool) (len : Nat) : BigInt :=
  { byteLen := len, numLen := trimLen num len, number := num, isNegative := isNeg }

/-- `BigInt::BigInt(const BigInt& copyFrom)`: copies the `numLen` significant
bytes; used by every `return *this;` / `return addi;` of a by-value operator. -/
def BigInt.copy (copyFrom : BigInt) : BigInt :=
  { byteLen := copyFrom.numLen, numLen := copyFrom.numLen,
    number := memcpy (allocZerosMem copyFrom.numLen) copyFrom.number copyFrom.numLen,
    isNegative := copyFrom.isNegative }

/-! ## Arithmetic core -/

/-- First loop of `byteWiseAdditionNoCopy` (`k` iterations left, index `i`). -/
def addLoop2 (cand1 cand2 : List Nat) : Nat → Nat → Nat → List Nat → Nat × List Nat
  | 0, _, cache, ret => (cache, ret)
  | k + 1, i, cache, ret =>
    let c1 := (cache + cand1.getD i 0) % 65536
    let c2 := (c1 + cand2.getD i 0) % 65536
    addLoop2 cand1 cand2 k (i + 1) (c2 / 256) (ret.set i (c2 % 256))

/-- Second loop of `byteWiseAdditionNoCopy` (carry propagation over `cand1`). -/
def addLoop1 (cand1 : List Nat) : Nat → Nat → Nat → List Nat → Nat × List Nat
  | 0, _, cache, ret => (cache, ret)
  | k + 1, i, cache, ret =>
    let c1 := (cache + cand1.getD i 0) % 65536
    addLoop1 cand1 k (i + 1) (c1 / 256) (ret.set i (c1 % 256))

/-- `BigInt::byteWiseAdditionNoCopy`; returns the contents of `ret`. -/
def byteWiseAdditionNoCopy (cand1 : List Nat) (len1 : Nat) (cand2 : List Nat) (len2 : Nat)
    (ret : List Nat) (bLenOut : Nat) : List Nat :=
  let s1 := addLoop2 cand1 cand2 len2 0 0 ret
  let s2 := addLoop1 cand1 (len1 - len2) len2 s1.1 s1.2
  if bLenOut > len1 then s2.2.set len1 (s2.1 % 256) else s2.2

/-- `BigInt::byteWiseAddition`; returns `(ret, bLenOut)`. -/
def byteWiseAddition (cand1 : List Nat) (len1 : Nat) (cand2 : List Nat) (len2 : Nat) :
    List Nat × Nat :=
  let lenComp := decide (len1 > len2)
  let bLenOut := (if lenComp then len1 else len2) + 1
  let ret := allocZerosMem bLenOut
  if lenComp then (byteWiseAdditionNoCopy cand1 len1 cand2 len2 ret bLenOut, bLenOut)
  else (byteWiseAdditionNoCopy cand2 len2 cand1 len1 ret bLenOut, bLenOut)

/-- The borrow update `*cPtr = 0x100 - (cache >>= 8)`: `cache` becomes its
high byte, then its low byte is overwritten with `0x100 - cache`. -/
def borrowOf (cache : Nat) : Nat := (0x100 - cache / 256) % 256

/-- First loop of `byteWiseNegationNoCopy`. -/
def negLoop2 (cand1 cand2 : List Nat) : Nat → Nat → Nat → List Nat → Nat × List Nat
  | 0, _, cache, ret => (cache, ret)
  | k + 1, i, cache, ret =>
    let c1 := (cand1.getD i 0 + 65536 - cache) % 65536
    let c2 := (c1 + 65536 - cand2.getD i 0) % 65536
    negLoop2 cand1 cand2 k (i + 1) (borrowOf c2) (ret.set i (c2 % 256))

/-- Second loop of `byteWiseNegationNoCopy` (borrow propagation over `cand1`). -/
def negLoop1 (cand1 : List Nat) : Nat → Nat → Nat → List Nat → Nat × List Nat
  | 0, _, cache, ret => (cache, ret)
  | k + 1, i, cache, ret =>
    let c1 := (cand1.getD i 0 + 65536 - cache) % 65536
    negLoop1 cand1 k (i + 1) (borrowOf c1) (ret.set i (c1 % 256))

/-- `BigInt::byteWiseNegationNoCopy`; returns the contents of `ret`
(`bLenOut` is not used by the source). -/
def byteWiseNegationNoCopy (cand1 : List Nat) (len1 : Nat) (cand2 : List Nat) (len2 : Nat)
    (ret : List Nat) (_bLenOut : Nat) : List Nat :=
  let s1 := negLoop2 cand1 cand2 len2 0 0 ret
  (negLoop1 cand1 (len1 - len2) len2 s1.1 s1.2).2

/-- `BigInt::byteWiseNegation`; returns `(ret, bLenOut)`. -/
def byteWiseNegation (cand1 : List Nat) (len1 : Nat) (cand2 : List Nat) (len2 : Nat) :
    List Nat × Nat :=
  let bLenOut := len1
  (byteWiseNegationNoCopy cand1 len1 cand2 len2 (allocZerosMem bLenOut) bLenOut, bLenOut)

/-- `BigInt::byteWiseGreater`: compares `len` bytes from the top down. -/
def byteWiseGreater (cand1 cand2 : List Nat) : Nat → Bool → Bool
  | 0, equal => equal
  | n + 1, equal =>
    if cand1.getD n 0 > cand2.getD n 0 then true
    else if cand1.getD n 0 < cand2.getD n 0 then false
    else byteWiseGreater cand1 cand2 n equal

/-- `BigInt::absGreater`. -/
def BigInt.absGreater (self comp : BigInt) : Bool :=
  if self.numLen = comp.numLen then
    byteWiseGreater self.number comp.number self.numLen false
  else decide (self.numLen > comp.numLen)

/-- Loop of the left branch of `shiftBits`. -/
def shlLoop (cand1 : List Nat) (offBytes offBits : Nat) : Nat → Nat → List Nat → List Nat
  | 0, _, ret => ret
  | k + 1, i, ret =>
    let r1 := ret.set (i + offBytes) ((ret.getD (i + offBytes) 0 + cand1.getD i 0 * 2 ^ offBits) % 256)
    let r2 := r1.set (i + offBytes + 1) ((cand1.getD i 0 / 2 ^ (8 - offBits)) % 256)
    shlLoop cand1 offBytes offBits k (i + 1) r2

/-- Loop of the right branch of `shiftBits`. -/
def shrLoop (cand1 : List Nat) (offBytes offBits : Nat) : Nat → Nat → List Nat → List Nat
  | 0, _, ret => ret
  | k + 1, i, ret =>
    shrLoop cand1 offBytes offBits k (i + 1)
      (ret.set (i - offBytes)
        ((cand1.getD i 0 / 2 ^ offBits + cand1.getD (i + 1) 0 * 2 ^ (8 - offBits)) % 256))

/-- `BigInt::shiftBits`; returns `(ret, bLenOut)`. `bLenOut` is an `Int`
because the right branch computes `len1 - offBytes`, which the source does
not guard; the buffer then has `bLenOut.toNat` bytes and a write outside it
is dropped. -/
def shiftBits (offset : Int) (cand1 : List Nat) (len1 : Nat) : List Nat × Int :=
  if offset > 0 then
    let offBytes := offset.toNat / 8
    let offBits := offset.toNat % 8
    let bLenOut := len1 + offBytes + 1
    (shlLoop cand1 offBytes offBits len1 0 (allocZerosMem bLenOut), (bLenOut : Int))
  else if offset < 0 then
    let offset := (-offset).toNat
    let offBytes := offset / 8
    let offBits := offset % 8
    let bLenOut : Int := (len1 : Int) - (offBytes : Int)
    let ret := shrLoop cand1 offBytes offBits (len1 - 1 - offBytes) offBytes
      (allocZerosMem bLenOut.toNat)
    (if offBytes + 1 ≤ len1 then
        ret.set (len1 - offBytes - 1) ((cand1.getD (len1 - 1) 0 / 2 ^ offBits) % 256)
      else ret, bLenOut)
  else
    (memcpy ((allocZerosMem (len1 + 1)).set len1 0) cand1 len1, ((len1 + 1 : Nat) : Int))

/-- `memset(buf + off, v, n)`. -/
def memset (buf : List Nat) (off v : Nat) : Nat → List Nat
  | 0 => buf
  | n + 1 => (memset buf off v n).set (off + n) v

/-- Inner loop of `multiplicationUtil`: byte `space = cand1[i]` times `cand2`,
written into `cacheVal` from index `i` on. -/
def mulInner (space : Nat) (cand2 : List Nat) (i : Nat) : Nat → Nat → Nat → List Nat → Nat × List Nat
  | 0, _, cache, cacheVal => (cache, cacheVal)
  | k + 1, j, cache, cacheVal =>
    let c := (cache + space * cand2.getD j 0) % 65536
    mulInner space cand2 i k (j + 1) (c / 256) (cacheVal.set (i + j) (c % 256))

/-- Outer loop of `multiplicationUtil`; the state is `(retVal, cacheVal)`. -/
def mulOuter (cand1 : List Nat) (cand2 : List Nat) (len2 newLen : Nat) :
    Nat → Nat → List Nat × List Nat → List Nat × List Nat
  | 0, _, s => s
  | k + 1, i, (retVal, cacheVal) =>
    let s := mulInner (cand1.getD i 0 % 65536) cand2 i len2 0 0 cacheVal
    let cacheVal1 := s.2.set (i + len2) (s.1 % 256)
    let retVal1 := byteWiseAdditionNoCopy cacheVal1 newLen retVal newLen retVal (newLen + 1)
    mulOuter cand1 cand2 len2 newLen k (i + 1) (retVal1, memset cacheVal1 i 0 (len2 + 1))

/-- `BigInt::multiplicationUtil`; returns `(retVal, newBLen)`. -/
def multiplicationUtil (cand1 : List Nat) (len1 : Nat) (cand2 : List Nat) (len2 : Nat) :
    List Nat × Nat :=
  let newLen := len1 + len2
  let retVal := allocZerosMem (newLen + 1)
  let cacheVal := allocZerosMem newLen
  ((mulOuter cand1 cand2 len2 newLen len1 0 (retVal, cacheVal)).1, newLen + 1)

/-- The eight shifted copies of the divisor built by the static `divisionUtil`:
`dividersCache[j]` and `dividersCacheLen[j]`. -/
def dividersCache (divi : List Nat) (diviLen : Nat) (j : Nat) : List Nat × Nat :=
  let r := shiftBits (j : Int) divi diviLen
  (r.1, r.2.toNat)

/-- Body of the bit loop of the static `divisionUtil` for quotient byte `i`
and bit `j`; the state is `(quotient, remain)`. -/
def divStep (divi : List Nat) (diviLen : Nat) (i j : Nat) (s : List Nat × List Nat) :
    List Nat × List Nat :=
  let dc := dividersCache divi diviLen j
  if byteWiseGreater (s.2.drop i) dc.1 dc.2 true then
    (s.1.set i ((s.1.getD i 0 + 2 ^ j) % 256),
     s.2.take i ++ byteWiseNegationNoCopy (s.2.drop i) dc.2 dc.1 dc.2 (s.2.drop i) dc.2)
  else s

/-- Bit loop of the static `divisionUtil`: `j` runs from `n - 1` down to 0. -/
def divBits (divi : List Nat) (diviLen : Nat) (i : Nat) :
    Nat → List Nat × List Nat → List Nat × List Nat
  | 0, s => s
  | j + 1, s => divBits divi diviLen i j (divStep divi diviLen i j s)

/-- Byte loop of the static `divisionUtil`: `i` runs from `n - 1` down to 0. -/
def divBytes (divi : List Nat) (diviLen : Nat) :
    Nat → List Nat × List Nat → List Nat × List Nat
  | 0, s => s
  | i + 1, s => divBytes divi diviLen i (divBits divi diviLen i 8 s)

/-- The static `BigInt::divisionUtil(divi, diviLen, quotient, qLen, remain)`;
returns the final contents of `(quotient, remain)`. -/
def divisionUtil (divi : List Nat) (diviLen : Nat) (quotient : List Nat) (qLen : Nat)
    (remain : List Nat) : List Nat × List Nat :=
  divBytes divi diviLen qLen (quotient, remain)

/-! ## Signed operators -/

/-- `BigInt::BigInt(const int& copyFrom)` for a 32-bit `int` (`n` is taken
modulo `2^32`, and so is the negation of the minimum value). -/
def BigInt.ofInt32 (copyFrom : Int) : BigInt :=
  let v : Int := (copyFrom + 2 ^ 31) % 2 ^ 32 - 2 ^ 31
  let neg := decide (v < 0)
  let w : Nat := ((if neg then -v else v) % 2 ^ 32).toNat
  let number := [w % 256, w / 256 % 256, w / 65536 % 256, w / 16777216 % 256]
  { byteLen := 4, numLen := trimLen number 4, number := number, isNegative := neg }

/-- `BigInt::operator+(const BigInt&)`. -/
def BigInt.add (self addi : BigInt) : BigInt :=
  if self.numLen = 0 then addi.copy
  else if addi.numLen = 0 then self.copy
  else if xor self.isNegative addi.isNegative then
    if self.absGreater addi then
      let r := byteWiseNegation self.number self.numLen addi.number addi.numLen
      BigInt.ofBuffer r.1 self.isNegative r.2
    else
      let r := byteWiseNegation addi.number addi.numLen self.number self.numLen
      BigInt.ofBuffer r.1 addi.isNegative r.2
  else
    let r := byteWiseAddition self.number self.numLen addi.number addi.numLen
    BigInt.ofBuffer r.1 self.isNegative r.2

/-- `BigInt::operator-(const BigInt&)`. -/
def BigInt.sub (self nega : BigInt) : BigInt :=
  if self.numLen = 0 then
    let ret := nega.copy
    { ret with isNegative := !ret.isNegative }
  else if nega.numLen = 0 then self.copy
  else if xor self.isNegative nega.isNegative then
    let r := byteWiseAddition self.number self.numLen nega.number nega.numLen
    BigInt.ofBuffer r.1 self.isNegative r.2
  else
    if self.absGreater nega then
      let r := byteWiseNegation self.number self.numLen nega.number nega.numLen
      BigInt.ofBuffer r.1 self.isNegative r.2
    else
      let r := byteWiseNegation nega.number nega.numLen self.number self.numLen
      BigInt.ofBuffer r.1 (!self.isNegative) r.2

/-- `BigInt::operator*(const BigInt&)`. -/
def BigInt.mul (self mult : BigInt) : BigInt :=
  if self.numLen = 0 ∨ mult.numLen = 0 then BigInt.zero
  else
    let r := multiplicationUtil self.number self.numLen mult.number mult.numLen
    BigInt.ofBuffer r.1 (xor self.isNegative mult.isNegative) r.2

/-- The member `BigInt::divisionUtil(divi, bOutLen, q_than_r)`; returns
`(buffer, bOutLen)`, or `none` where the source crashes on a zero divisor. -/
def BigInt.divisionUtil (self divi : BigInt) (q_than_r : Bool) : Option (List Nat × Nat) :=
  if divi.absGreater self then
    if q_than_r then some ([], 0)
    else some (memcpy (allocZerosMem self.numLen) self.number self.numLen, self.numLen)
  else if divi.numLen = 0 then none
  else
    let cache := memcpy ((allocZerosMem (self.numLen + 1)).set self.numLen 0)
      self.number self.numLen
    let qLen := self.numLen - divi.numLen + 1
    let quotient := allocZerosMem qLen
    let r := BigIntHomework.divisionUtil divi.number divi.numLen quotient qLen cache
    if q_than_r then some (r.1, qLen) else some (r.2, self.numLen + 1)

/-- `BigInt::operator/(const BigInt&)`. -/
def BigInt.div (self divi : BigInt) : Option BigInt :=
  (self.divisionUtil divi true).map fun r =>
    BigInt.ofBuffer r.1 (xor self.isNegative divi.isNegative) r.2

/-- `BigInt::operator%(const BigInt&)`. -/
def BigInt.mod (self divi : BigInt) : Option BigInt :=
  (self.divisionUtil divi false).map fun r =>
    BigInt.ofBuffer r.1 self.isNegative r.2

/-- Byte comparison loop of `operator==`. -/
def eqLoop (a b : List Nat) : Nat → Nat → Bool
  | 0, _ => true
  | k + 1, i => if a.getD i 0 ≠ b.getD i 0 then false else eqLoop a b k (i + 1)

/-- `BigInt::operator==`. -/
def BigInt.eq (self comp : BigInt) : Bool :=
  if self.numLen = comp.numLen ∧ self.isNegative = comp.isNegative then
    if self.numLen = 0 then true
    else eqLoop self.number comp.number self.numLen 0
  else false

/-- `BigInt::operator>=`. -/
def BigInt.ge (self comp : BigInt) : Bool :=
  if xor self.isNegative comp.isNegative then comp.isNegative
  else if self.numLen ≠ comp.numLen then
    xor self.isNegative (decide (self.numLen > comp.numLen))
  else byteWiseGreater self.number comp.number self.numLen true

/-- `BigInt::operator<=`. -/
def BigInt.le (self comp : BigInt) : Bool := comp.ge self

/-- `BigInt::operator>`. -/
def BigInt.gt (self comp : BigInt) : Bool :=
  if xor self.isNegative comp.isNegative then comp.isNegative
  else if self.numLen ≠ comp.numLen then
    xor self.isNegative (decide (self.numLen > comp.numLen))
  else byteWiseGreater self.number comp.number self.numLen false

/-- `BigInt::operator<`. -/
def BigInt.lt (self comp : BigInt) : Bool := comp.gt self

/-! ## Assignment -/

/-- `BigInt::operator=(const BigInt& copyFrom)` for two distinct objects (on
self-assignment the source returns at once and nothing changes). The buffer
is reallocated, and `numLen` set, only when `byteLen` differs from
`copyFrom.numLen`. -/
def BigInt.assign (self copyFrom : BigInt) : BigInt :=
  let s : BigInt :=
    if self.byteLen ≠ copyFrom.numLen then
      { self with byteLen := copyFrom.numLen, numLen := copyFrom.numLen,
                  number := allocZerosMem copyFrom.numLen }
    else self
  { s with number := memcpy s.number copyFrom.number s.byteLen,
           isNegative := copyFrom.isNegative }

/-! ## Square root and primality

A byte that the source reads outside an allocation is not determined by the
program; such reads return the parameter `junk`. Writes outside an allocation
are dropped. -/

/-- State of the trial loop of `sqrt`: `copy`, `sqrtCache`, `multCache`, `retVal`. -/
structure SqrtState where
  copy : List Nat
  sqrtCache : List Nat
  multCache : List Nat
  retVal : List Nat
  deriving DecidableEq

/-- The multiplication loop of `sqrt`: `j` runs from `byteIndex` to
`sqrtHexLen + 1`, so its last read `sqrtCache[sqrtHexLen + 1]` is one byte
past the `sqrtHexLen + 1` bytes of `sqrtCache`. -/
def sqrtMul (sqrtCache : List Nat) (byteVal byteIndex junk : Nat) :
    Nat → Nat → Nat → List Nat → List Nat
  | 0, _, _, multCache => multCache
  | k + 1, j, cache, multCache =>
    let space := sqrtCache.getD j junk % 65536
    let c := (cache + space * byteVal) % 65536
    sqrtMul sqrtCache byteVal byteIndex junk k (j + 1) (c / 256)
      (multCache.set (byteIndex + j) (c % 256))

/-- Body of the inner `while` of `sqrt` for one trial bit. -/
def sqrtTrial (numLen sqrtHexLen junk byteIndex bitOffset : Nat) (s : SqrtState) : SqrtState :=
  let byteVal := 2 ^ bitOffset % 256
  let sqrtCache1 := s.sqrtCache.set byteIndex ((s.sqrtCache.getD byteIndex junk + byteVal) % 256)
  let multCache1 := sqrtMul sqrtCache1 byteVal byteIndex junk (sqrtHexLen + 2 - byteIndex)
    byteIndex 0 s.multCache
  let cacheLen := numLen - 2 * byteIndex
  let cacheShift := 2 * byteIndex
  if byteWiseGreater (s.copy.drop cacheShift) (multCache1.drop cacheShift) cacheLen true then
    { copy := s.copy.take cacheShift ++
        byteWiseNegationNoCopy (s.copy.drop cacheShift) cacheLen (multCache1.drop cacheShift)
          cacheLen (s.copy.drop cacheShift) cacheLen,
      sqrtCache := sqrtCache1.take byteIndex ++
        byteWiseAdditionNoCopy (sqrtCache1.drop byteIndex) 2 [byteVal] 1
          (sqrtCache1.drop byteIndex) 2,
      multCache := multCache1,
      retVal := s.retVal.set byteIndex ((s.retVal.getD byteIndex junk + byteVal) % 256) }
  else
    { s with sqrtCache :=
               sqrtCache1.set byteIndex ((sqrtCache1.getD byteIndex junk + 256 - byteVal) % 256),
             multCache := multCache1 }

/-- Inner `while(bitOffset >= 0)` of `sqrt`: `bitOffset` runs from `n - 1` down to 0. -/
def sqrtBits (numLen sqrtHexLen junk byteIndex : Nat) : Nat → SqrtState → SqrtState
  | 0, s => s
  | n + 1, s =>
    sqrtBits numLen sqrtHexLen junk byteIndex n (sqrtTrial numLen sqrtHexLen junk byteIndex n s)

/-- Outer `while(byteIndex >= 0)` of `sqrt`: `byteIndex` runs from `n - 1` down
to 0; the inner loop starts at `bitOffset` (it does not run when that is
negative), leaves it at `-1` or below, and the outer loop adds 8. -/
def sqrtBytes (numLen sqrtHexLen junk : Nat) : Nat → Int → SqrtState → SqrtState
  | 0, _, s => s
  | n + 1, bitOffset, s =>
    let s1 := sqrtBits numLen sqrtHexLen junk n (bitOffset + 1).toNat s
    let bitOffset1 := (if bitOffset ≥ 0 then -1 else bitOffset) + 8
    sqrtBytes numLen sqrtHexLen junk n bitOffset1 s1

/-- `BigInt::sqrt(bool ignoreNegative)`. With `numLen = 0` the probe
`copy[numLen - 1]` reads `copy[-1]`, outside the buffer. -/
def BigInt.sqrt (self : BigInt) (ignoreNegative : Bool) (junk : Nat) : BigInt :=
  if !ignoreNegative && self.isNegative then BigInt.zero
  else
    let copy := memcpy ((allocZerosMem (self.numLen + 1)).set self.numLen 0)
      self.number self.numLen
    let top := if self.numLen = 0 then junk else copy.getD (self.numLen - 1) junk
    let leadingSqrtBit : Nat :=
      if top ≥ 64 then 3 else if top ≥ 16 then 2 else if top ≥ 4 then 1 else 0
    let sqrtBinLen : Int := ((self.numLen : Int) - 1) * 4 + leadingSqrtBit
    let sqrtHexLen := (self.numLen + 1) / 2
    let s0 : SqrtState :=
      { copy := copy, sqrtCache := allocZerosMem (sqrtHexLen + 1),
        multCache := allocZerosMem (self.numLen + 2), retVal := allocZerosMem sqrtHexLen }
    let byteIndex := Int.tdiv sqrtBinLen 8
    let bitOffset := Int.tmod sqrtBinLen 8
    let s := sqrtBytes self.numLen sqrtHexLen junk (byteIndex + 1).toNat bitOffset s0
    BigInt.ofBuffer s.retVal false sqrtHexLen

/-- The `fullyDivided` scan of `isPrime`: true when `copy[i] = 0` for all
`i` in `[i, i + k)`. -/
def allZero (copy : List Nat) : Nat → Nat → Bool
  | 0, _ => true
  | k + 1, i => if copy.getD i 0 ≠ 0 then false else allZero copy k (i + 1)

/-- The `while` loop of `isPrime`; `fuel` bounds the number of iterations and
`none` means it ran out. The source adds 2 to the candidate with
`bLenOut = cacheLen + 1` and then tests `cache[cacheLen]`; once `cacheLen`
has reached the `bi.numLen + 1` bytes of `cache` both accesses are outside
the buffer. -/
def isPrimeLoop (self bi : BigInt) (junk : Nat) :
    Nat → List Nat → Nat → Int → List Nat → Option Bool
  | 0, _, _, _, _ => none
  | fuel + 1, cache, cacheLen, qLen, ignored =>
    if byteWiseGreater bi.number cache bi.numLen true then
      let copy := memcpy ((allocZerosMem (self.numLen + 1)).set self.numLen 0)
        self.number self.numLen
      let r := divisionUtil cache cacheLen ignored qLen.toNat copy
      if allZero r.2 cacheLen 0 then some false
      else
        let cache1 := byteWiseAdditionNoCopy cache cacheLen [2] 1 cache (cacheLen + 1)
        if cache1.getD cacheLen junk ≠ 0 then
          isPrimeLoop self bi junk fuel cache1 (cacheLen + 1) (qLen - 1) r.1
        else
          isPrimeLoop self bi junk fuel cache1 cacheLen qLen r.1
    else some true

/-- `BigInt::isPrime()`, with a bound `fuel` on the iterations of its loop. -/
def BigInt.isPrime (self : BigInt) (junk fuel : Nat) : Option Bool :=
  if self.numLen = 0 then some false
  else if self.numLen = 1 ∧ self.number.getD 0 0 = 1 then some false
  else if self.numLen = 1 ∧ self.number.getD 0 0 = 2 then some true
  else if self.number.getD 0 0 % 2 = 0 then some false
  else
    let bi := self.sqrt true junk
    let cache := (allocZerosMem (bi.numLen + 1)).set 0 3
    let cacheLen : Nat := 1
    let qLen : Int := (self.numLen : Int) - (cacheLen : Int) + 1
    isPrimeLoop self bi junk fuel cache cacheLen qLen (allocZerosMem self.numLen)

/-! ## Text codec

A C string is modelled by the list of its characters (their codes, below
256), without the terminating NUL; reading the position just after the last
character yields that NUL, 0. -/

/-- `strlen`. -/
def strlen (s : List Nat) : Nat := (s.takeWhile (· ≠ 0)).length

/-- The multiply-by-10 loop of `createFromDecimal`. -/
def mul10Loop : Nat → Nat → Nat → List Nat → List Nat
  | 0, _, _, retVal => retVal
  | k + 1, j, cache, retVal =>
    let space := retVal.getD j 0 % 65536
    let c := (cache + space * 10) % 65536
    mul10Loop k (j + 1) (c / 256) (retVal.set j (c % 256))

/-- The character loop of the private `createFromDecimal`; `none` is the
`return nullptr` of the invalid-character branch. -/
def parseLoop (decimalString : List Nat) (retLen : Nat) : Nat → Nat → List Nat → Option (List Nat)
  | 0, _, retVal => some retVal
  | k + 1, i, retVal =>
    let retVal1 := mul10Loop retLen 0 0 retVal
    let digit := (decimalString.getD i 0 + 256 - 48) % 256
    if digit ≥ 10 then none
    else parseLoop decimalString retLen k (i + 1)
      (byteWiseAdditionNoCopy retVal1 retLen [digit] 1 retVal1 retLen)

/-- The private `createFromDecimal(decimalString, len, isNeg, retLen)`; returns
`(retVal, isNeg, retLen)`, where `retVal = none` is `nullptr`. -/
def createFromDecimalRaw (decimalString : List Nat) (len : Nat) :
    Option (List Nat) × Bool × Nat :=
  let isNeg := decide (decimalString.getD 0 0 = 45)
  let retLen := (len + (if isNeg then 0 else 1)) / 2
  let retVal := allocZerosMem retLen
  let start := if isNeg then 1 else 0
  match parseLoop decimalString retLen (len - start) start retVal with
  | none => (none, false, 0)
  | some r => (some r, isNeg, retLen)

/-- `BigInt::createFromDecimal(const char* decimalString, int len)`; a null
`retVal` becomes the empty buffer of a `BigInt` with `byteLen = 0`. -/
def BigInt.createFromDecimalLen (decimalString : List Nat) (len : Nat) : BigInt :=
  let r := createFromDecimalRaw decimalString len
  BigInt.ofBuffer (r.1.getD []) r.2.1 r.2.2

/-- `BigInt::createFromDecimal(const char* decimalString)`. -/
def BigInt.createFromDecimal (decimalString : List Nat) : BigInt :=
  BigInt.createFromDecimalLen decimalString (strlen decimalString)

/-- `TENS[j]` of `CREATE_TENS`: the `unsigned short` `10 << j` stored in two
bytes, low byte first. -/
def TENS (j : Nat) : List Nat := [10 * 2 ^ j % 65536 % 256, 10 * 2 ^ j % 65536 / 256]

/-- State of the division by ten inside `getDecimalString`:
`quotient`, `cache`, `leadingZero`. -/
structure DecState where
  quotient : List Nat
  cache : List Nat
  leadingZero : Bool
  deriving DecidableEq

/-- Body of the bit loop of `getDecimalString` for byte `i` and bit `j`. -/
def decStep (i j : Nat) (s : DecState) : DecState :=
  if byteWiseGreater (s.cache.drop i) (TENS j) 2 true then
    { quotient := s.quotient.set i ((s.quotient.getD i 0 + 2 ^ j) % 256),
      cache := s.cache.take i ++
        byteWiseNegationNoCopy (s.cache.drop i) 2 (TENS j) 2 (s.cache.drop i) 2,
      leadingZero := false }
  else s

/-- Bit loop of `getDecimalString`: `j` runs from `n - 1` down to 0. -/
def decBits (i : Nat) : Nat → DecState → DecState
  | 0, s => s
  | j + 1, s => decBits i j (decStep i j s)

/-- Byte loop of `getDecimalString`: `i` runs from `n - 1` down to 0 and `qLen`
drops by one for every byte met while `leadingZero` still holds. -/
def decBytes : Nat → DecState × Nat → DecState × Nat
  | 0, s => s
  | i + 1, (s, qLen) =>
    let s1 := decBits i 8 s
    decBytes i (s1, if s1.leadingZero then qLen - 1 else qLen)

/-- The `while(qLen > 0)` loop of `getDecimalString`: one decimal digit per
round, written at `outIndex`, then the two buffers are swapped. Returns
`(_ret, outIndex)`, or `none` when `fuel` rounds were not enough. -/
def decWhile : Nat → List Nat → List Nat → Nat → List Nat → Int → Option (List Nat × Int)
  | 0, _, _, qLen, ret, outIndex => if qLen > 0 then none else some (ret, outIndex)
  | fuel + 1, quotient, cache, qLen, ret, outIndex =>
    if qLen > 0 then
      let r := decBytes qLen ({ quotient := quotient, cache := cache, leadingZero := true }, qLen)
      let ret1 := if 0 ≤ outIndex then ret.set outIndex.toNat ((r.1.cache.getD 0 0 + 48) % 256)
        else ret
      decWhile fuel (r.1.cache.set 0 0) r.1.quotient r.2 ret1 (outIndex - 1)
    else some (ret, outIndex)

/-- The integer part of `(numLen + 1) * 2.40824`. The source computes the
product in `double`; it truncates to this value whenever `numLen + 1` is not a
multiple of 12500 (the exact product is then at least `1/12500` away from
the integer above its floor), and at the multiples of 12500 within the range
of `int` the product of the two doubles is the exact integer. -/
def decLenBound (numLen : Nat) : Nat := (numLen + 1) * 240824 / 100000

/-- `BigInt::getDecimalString()`; the returned list holds the characters
before the terminating NUL. The loop is run with `outLen` rounds of fuel. -/
def BigInt.getDecimalString (self : BigInt) : Option (List Nat) :=
  if self.numLen = 0 then some [48]
  else
    let outLen := decLenBound self.numLen + (if self.isNegative then 2 else 1)
    let outIndex : Int := (outLen : Int) - 2
    let ret := (allocZerosMem outLen).set (outLen - 1) 0
    let quotient := allocZerosMem (self.numLen + 1)
    let cache := memcpy ((allocZerosMem (self.numLen + 1)).set self.numLen 0)
      self.number self.numLen
    (decWhile outLen quotient cache self.numLen ret outIndex).map fun r =>
      let ret1 := if self.isNegative then
          (if 0 ≤ r.2 then r.1.set r.2.toNat 45 else r.1)
        else r.1
      let outIndex1 := if self.isNegative then r.2 - 1 else r.2
      let shift := outIndex1 + 1
      let outLen1 := (outLen : Int) - shift
      ((ret1.drop shift.toNat).take (outLen1.toNat - 1))

/-! ## Reference notions for the text codec -/

/-- The canonical base-10 numeral of an integer, as character codes: the
digits of its absolute value, most significant first and without a leading
zero, behind a `-` (45) when it is negative; the single digit `0` (48) for
zero. -/
def decimalNumeral (z : Int) : List Nat :=
  if z = 0 then [48]
  else (if z < 0 then [45] else []) ++ (Nat.digits 10 z.natAbs).reverse.map (· + 48)

/-- The digit characters of a signed decimal literal: what follows the
optional leading `-`. -/
def literalDigits (s : List Nat) : List Nat :=
  if s.head? = some 45 then s.tail else s

/-- A valid signed decimal literal: an optional leading `-` followed by one or
more decimal digits. -/
def ValidLiteral (s : List Nat) : Prop :=
  literalDigits s ≠ [] ∧ ∀ c ∈ literalDigits s, 48 ≤ c ∧ c ≤ 57

instance (s : List Nat) : Decidable (ValidLiteral s) := by
  unfold ValidLiteral; infer_instance

/-- The `normalize` of the round-trip property: strip the leading zeros and
keep the `-` only when the value is non-zero. -/
def normalize (s : List Nat) : List Nat :=
  let stripped := (literalDigits s).dropWhile (· = 48)
  if stripped = [] then [48]
  else if s.head? = some 45 then 45 :: stripped else stripped

/-! ## Shift operators -/

/-- `BigInt::operator<<(const int offset)`. -/
def BigInt.shl (self : BigInt) (offset : Int) : BigInt :=
  if offset ≤ 0 ∨ self.numLen = 0 then self.copy
  else
    let r := shiftBits offset self.number self.numLen
    BigInt.ofBuffer r.1 self.isNegative r.2.toNat

/-- `BigInt::operator>>(const int offset)`. `none` when `shiftBits` computes a
negative `bLenOut`, for which `new unsigned char[bLenOut]` yields no buffer. -/
def BigInt.shr (self : BigInt) (offset : Int) : Option BigInt :=
  if offset ≤ 0 ∨ self.numLen = 0 then some self.copy
  else
    let r := shiftBits (-offset) self.number self.numLen
    if r.2 < 0 then none else some (BigInt.ofBuffer r.1 self.isNegative r.2.toNat)

/-! ## Compound assignment, increment and decrement

A mutating member function is modelled by the function from the object
before the call to the object after it; `return *this` returns that object.
`operator++` and `operator--` call the addition and subtraction primitives
with `ret` aliasing `cand1`; both primitives read byte `i` of `cand1` before
they write byte `i` of `ret` and never go back, so the call is modelled on
the contents `cand1` had before it. -/

/-- `BigInt::setValues(newNumber, newByteLen, newNegative)`: takes the buffer
as it is and scans from the top for the first non-zero byte. -/
def BigInt.setValues (self : BigInt) (newNumber : List Nat) (newByteLen : Nat)
    (newNegative : Bool) : BigInt :=
  { self with number := newNumber, byteLen := newByteLen, isNegative := newNegative,
              numLen := trimLen newNumber newByteLen }

/-- `BigInt::operator+=(const BigInt&)`. -/
def BigInt.addAssign (self addi : BigInt) : BigInt :=
  if self.numLen = 0 then
    { byteLen := addi.numLen, numLen := addi.numLen,
      number := memcpy (allocZerosMem addi.numLen) addi.number addi.numLen,
      isNegative := addi.isNegative }
  else if addi.numLen = 0 then self
  else if xor self.isNegative addi.isNegative then
    if self.absGreater addi then
      let r := byteWiseNegation self.number self.numLen addi.number addi.numLen
      self.setValues r.1 r.2 self.isNegative
    else
      let r := byteWiseNegation addi.number addi.numLen self.number self.numLen
      self.setValues r.1 r.2 addi.isNegative
  else
    let r := byteWiseAddition self.number self.numLen addi.number addi.numLen
    self.setValues r.1 r.2 self.isNegative

/-- `BigInt::operator-=(const BigInt&)`. -/
def BigInt.subAssign (self nega : BigInt) : BigInt :=
  if self.numLen = 0 then
    { byteLen := nega.numLen, numLen := nega.numLen,
      number := memcpy (allocZerosMem nega.numLen) nega.number nega.numLen,
      isNegative := !nega.isNegative }
  else if nega.numLen = 0 then self
  else if xor self.isNegative nega.isNegative then
    let r := byteWiseAddition self.number self.numLen nega.number nega.numLen
    self.setValues r.1 r.2 self.isNegative
  else
    if self.absGreater nega then
      let r := byteWiseNegation self.number self.numLen nega.number nega.numLen
      self.setValues r.1 r.2 self.isNegative
    else
      let r := byteWiseNegation nega.number nega.numLen self.number self.numLen
      self.setValues r.1 r.2 (!self.isNegative)

/-- `BigInt::operator*=(const BigInt&)`. -/
def BigInt.mulAssign (self mult : BigInt) : BigInt :=
  if self.numLen = 0 then self
  else if mult.numLen = 0 then { self with byteLen := 0, numLen := 0, number := [] }
  else
    let r := multiplicationUtil self.number self.numLen mult.number mult.numLen
    self.setValues r.1 r.2 (xor self.isNegative mult.isNegative)

/-- `BigInt::operator/=(const BigInt&)`; `none` where `divisionUtil` crashes. -/
def BigInt.divAssign (self divi : BigInt) : Option BigInt :=
  (self.divisionUtil divi true).map fun r =>
    self.setValues r.1 r.2 (xor self.isNegative divi.isNegative)

/-- `BigInt::operator%=(const BigInt&)`; `none` where `divisionUtil` crashes. -/
def BigInt.modAssign (self divi : BigInt) : Option BigInt :=
  (self.divisionUtil divi false).map fun r =>
    self.setValues r.1 r.2 self.isNegative

/-- The overflow handling shared by `operator++` and `operator--` after the
in-place addition of `ONE` has left `number`: when the top byte has become
zero the carry is stored in the next byte, in place if `byteLen > numLen` and
in a new buffer of `numLen + 1` bytes otherwise. -/
def BigInt.carryOut (self : BigInt) (number : List Nat) : BigInt :=
  if number.getD (self.numLen - 1) 0 = 0 then
    if self.byteLen > self.numLen then
      { self with number := number.set self.numLen 1, numLen := self.numLen + 1 }
    else
      { self with byteLen := self.numLen + 1, numLen := self.numLen + 1,
                  number := (memcpy (allocZerosMem (self.numLen + 1)) number self.numLen).set
                    self.numLen 1 }
  else { self with number := number }

/-- The borrow handling shared by `operator++` and `operator--` after the
in-place subtraction of `ONE` has left `number`: `numLen` drops by one when
the top byte has become zero. -/
def BigInt.borrowOut (self : BigInt) (number : List Nat) : BigInt :=
  if number.getD (self.numLen - 1) 0 = 0 then
    { self with number := number, numLen := self.numLen - 1 }
  else { self with number := number }

/-- `BigInt::operator++()` (prefix). -/
def BigInt.preInc (self : BigInt) : BigInt :=
  if self.numLen = 0 then
    { byteLen := 1, numLen := 1, number := [1], isNegative := false }
  else if self.isNegative then
    self.borrowOut
      (byteWiseNegationNoCopy self.number self.numLen [1] 1 self.number self.numLen)
  else
    self.carryOut
      (byteWiseAdditionNoCopy self.number self.numLen [1] 1 self.number self.numLen)

/-- `BigInt::operator--()` (prefix). -/
def BigInt.preDec (self : BigInt) : BigInt :=
  if self.numLen = 0 then
    { byteLen := 1, numLen := 1, number := [1], isNegative := true }
  else if self.isNegative then
    self.carryOut
      (byteWiseAdditionNoCopy self.number self.numLen [1] 1 self.number self.numLen)
  else
    self.borrowOut
      (byteWiseNegationNoCopy self.number self.numLen [1] 1 self.number self.numLen)

/-! ## Hexadecimal string and indexed decimal digit -/

/-- The table `digits[] = "0123456789ABCDEF"` of `getHexString`. -/
def digits : List Nat := [48, 49, 50, 51, 52, 53, 54, 55, 56, 57, 65, 66, 67, 68, 69, 70]

/-- The loop of `getHexString`: two characters per byte, `k` bytes left from
index `i`. -/
def hexLoop (number : List Nat) (retLen : Nat) : Nat → Nat → List Nat → List Nat
  | 0, _, ret => ret
  | k + 1, i, ret =>
    let r1 := ret.set (retLen - 2 * i - 2) (digits.getD (number.getD i 0 % 16) 0)
    let r2 := r1.set (retLen - 2 * i - 3) (digits.getD (number.getD i 0 / 16) 0)
    hexLoop number retLen k (i + 1) r2

/-- `BigInt::getHexString()`; the returned list holds the characters before
the terminating NUL. -/
def BigInt.getHexString (self : BigInt) : List Nat :=
  if self.numLen = 0 then [48, 48]
  else
    let retLen := self.numLen * 2 + (if self.isNegative then 1 else 0) + 1
    let ret := (allocZerosMem retLen).set (retLen - 1) 0
    let ret1 := hexLoop self.number retLen self.numLen 0 ret
    let ret2 := if self.isNegative then ret1.set 0 45 else ret1
    ret2.take (retLen - 1)

/-- The `while(qLen > 0)` loop of `operator[]`: one division by ten per round;
the round whose count equals `index` returns the remainder `cache[0]`.
`none` when `fuel` rounds were not enough. -/
def indexWhile (index : Int) : Nat → List Nat → List Nat → Nat → Int → Option Int
  | 0, _, _, qLen, _ => if qLen > 0 then none else some (-1)
  | fuel + 1, quotient, cache, qLen, indexCount =>
    if qLen > 0 then
      let r := decBytes qLen ({ quotient := quotient, cache := cache, leadingZero := true }, qLen)
      if indexCount = index then some (r.1.cache.getD 0 0 : Nat)
      else indexWhile index fuel (r.1.cache.set 0 0) r.1.quotient r.2 (indexCount + 1)
    else some (-1)

/-- `BigInt::operator[](const int index)`. The loop is run with `decLen + 1`
rounds of fuel. -/
def BigInt.index (self : BigInt) (index : Int) : Option Int :=
  let decLen : Int := ((decLenBound self.numLen + 1 : Nat) : Int)
  if index > decLen ∨ index < 0 then some (-1)
  else
    let quotient := allocZerosMem (self.numLen + 1)
    let cache := memcpy ((allocZerosMem (self.numLen + 1)).set self.numLen 0)
      self.number self.numLen
    indexWhile index (decLenBound self.numLen + 2) quotient cache self.numLen 0

/-! ## Reference notions for normal form and the hexadecimal string -/

/-- The exact normal form of a value: the significant length is one more than
the index of the highest non-zero byte of the buffer, 0 if there is none. -/
def BigInt.Trimmed (a : BigInt) : Prop := a.numLen = trimLen a.number a.byteLen

instance (a : BigInt) : Decidable a.Trimmed := by
  unfold BigInt.Trimmed; infer_instance

/-- The uppercase hexadecimal digit character of a value below 16. -/
def hexChar (d : Nat) : Nat := if d < 10 then 48 + d else 55 + d

/-! ## The final store of a right shift -/

/-- The index `len1 - offBytes - 1` of the store
`ret[len1 - offBytes - 1] = (cand1[len1 - 1] >> offBits)` that ends the right
branch of `shiftBits` (`offset < 0`); the source performs it without a test. -/
def shiftBitsLastStore (offset : Int) (len1 : Nat) : Int :=
  (len1 : Int) - (((-offset).toNat / 8 : Nat) : Int) - 1

/-! ## Buffer lemmas -/

theorem getD_ge (l : List Nat) (j : Nat) (h : l.length ≤ j) : l.getD j 0 = 0 := by
  simp [List.getD_eq_getElem?_getD, List.getElem?_eq_none h]

theorem getD_set_eq (l : List Nat) (i v : Nat) (h : i < l.length) :
    (l.set i v).getD i 0 = v := by
  simp [List.getD_eq_getElem?_getD, List.getElem?_set, h]

theorem getD_set_ne (l : List Nat) (i j v : Nat) (h : i ≠ j) :
    (l.set i v).getD j 0 = l.getD j 0 := by
  simp [List.getD_eq_getElem?_getD, List.getElem?_set, h]

theorem getD_drop (l : List Nat) (i j : Nat) : (l.drop i).getD j 0 = l.getD (i + j) 0 := by
  simp [List.getD_eq_getElem?_getD, List.getElem?_drop]

theorem getD_take (l : List Nat) (n j : Nat) (h : j < n) :
    (l.take n).getD j 0 = l.getD j 0 := by
  simp [List.getD_eq_getElem?_getD, List.getElem?_take, h]

theorem getD_append_left (l1 l2 : List Nat) (j : Nat) (h : j < l1.length) :
    (l1 ++ l2).getD j 0 = l1.getD j 0 := by
  simp [List.getD_eq_getElem?_getD, List.getElem?_append_left h]

theorem getD_append_right (l1 l2 : List Nat) (j : Nat) (h : l1.length ≤ j) :
    (l1 ++ l2).getD j 0 = l2.getD (j - l1.length) 0 := by
  simp [List.getD_eq_getElem?_getD, List.getElem?_append_right h]

theorem getD_replicate (n j : Nat) : (List.replicate n 0).getD j 0 = 0 := by
  by_cases h : j < n
  · simp [List.getD_eq_getElem?_getD, List.getElem?_replicate, h]
  · exact getD_ge _ _ (by simpa using h)

theorem Bytes.getD_lt {l : List Nat} (h : Bytes l) (j : Nat) : l.getD j 0 < 256 := by
  by_cases hj : j < l.length
  · rw [List.getD_eq_getElem _ _ hj]; exact h _ (List.getElem_mem hj)
  · rw [getD_ge _ _ (by omega)]; decide

theorem Bytes.set {l : List Nat} (h : Bytes l) (i : Nat) {v : Nat} (hv : v < 256) :
    Bytes (l.set i v) := by
  intro x hx
  rcases List.mem_or_eq_of_mem_set hx with hx | hx
  · exact h x hx
  · exact hx ▸ hv

theorem Bytes.take {l : List Nat} (h : Bytes l) (n : Nat) : Bytes (l.take n) :=
  fun x hx => h x (List.mem_of_mem_take hx)

theorem Bytes.drop {l : List Nat} (h : Bytes l) (n : Nat) : Bytes (l.drop n) :=
  fun x hx => h x (List.mem_of_mem_drop hx)

theorem Bytes.append {l1 l2 : List Nat} (h1 : Bytes l1) (h2 : Bytes l2) : Bytes (l1 ++ l2) := by
  intro x hx
  rcases List.mem_append.mp hx with hx | hx
  · exact h1 x hx
  · exact h2 x hx

theorem Bytes.replicate (n : Nat) : Bytes (List.replicate n 0) := by
  intro x hx
  rw [(List.mem_replicate.mp hx).2]; decide

/-! ## Little-endian value -/

theorem valN_congr {a b : List Nat} {n : Nat} (h : ∀ j, j < n → a.getD j 0 = b.getD j 0) :
    valN a n = valN b n := by
  induction n with
  | zero => rfl
  | succ n ih =>
    simp only [valN]
    rw [ih (fun j hj => h j (by omega)), h n (by omega)]

theorem valN_lt {a : List Nat} (h : Bytes a) (n : Nat) : valN a n < 256 ^ n := by
  induction n with
  | zero => simp [valN]
  | succ n ih =>
    simp only [valN, pow_succ]
    have := h.getD_lt n
    nlinarith

theorem valN_set_ge (a : List Nat) (i v n : Nat) (h : n ≤ i) :
    valN (a.set i v) n = valN a n :=
  valN_congr fun j hj => getD_set_ne _ _ _ _ (by omega)

theorem valN_take (a : List Nat) (m n : Nat) (h : n ≤ m) : valN (a.take m) n = valN a n :=
  valN_congr fun j hj => getD_take _ _ _ (by omega)

theorem valN_add (a : List Nat) (i n : Nat) :
    valN a (i + n) = valN a i + 256 ^ i * valN (a.drop i) n := by
  induction n with
  | zero => simp [valN]
  | succ n ih =>
    rw [← Nat.add_assoc]
    simp only [valN, ih, getD_drop, pow_add]
    ring

theorem valN_append_left (a b : List Nat) (n : Nat) (h : n ≤ a.length) :
    valN (a ++ b) n = valN a n :=
  valN_congr fun j hj => getD_append_left _ _ _ (by omega)

theorem valN_replicate (m n : Nat) : valN (List.replicate m 0) n = 0 := by
  induction n with
  | zero => rfl
  | succ n ih => simp [valN, ih, getD_replicate]

theorem valN_of_length_le (a : List Nat) (n : Nat) (h : a.length ≤ n) :
    valN a n = valN a a.length := by
  induction n with
  | zero => simp at h; simp [h]
  | succ n ih =>
    by_cases h' : a.length = n + 1
    · rw [h']
    · simp only [valN]
      rw [getD_ge _ _ (by omega), ih (by omega)]; simp

/-! ## Addition primitive -/

theorem addLoop1_eq_addLoop2 (cand1 : List Nat) (k i c : Nat) (ret : List Nat) :
    addLoop1 cand1 k i c ret = addLoop2 cand1 [] k i c ret := by
  induction k generalizing i c ret with
  | zero => rfl
  | succ k ih => simp [addLoop1, addLoop2, ih]

theorem addLoop2_spec {cand1 cand2 : List Nat} (h1 : Bytes cand1) (h2 : Bytes cand2)
    (k i c : Nat) (ret : List Nat) (hc : c ≤ 1) (hlen : i + k ≤ ret.length) :
    (addLoop2 cand1 cand2 k i c ret).1 ≤ 1 ∧
    (addLoop2 cand1 cand2 k i c ret).2.length = ret.length ∧
    (Bytes ret → Bytes (addLoop2 cand1 cand2 k i c ret).2) ∧
    (∀ j, j < i ∨ i + k ≤ j → (addLoop2 cand1 cand2 k i c ret).2.getD j 0 = ret.getD j 0) ∧
    valN (addLoop2 cand1 cand2 k i c ret).2 (i + k)
        + (addLoop2 cand1 cand2 k i c ret).1 * 256 ^ (i + k)
        + valN cand1 i + valN cand2 i
      = valN ret i + c * 256 ^ i + valN cand1 (i + k) + valN cand2 (i + k) := by
  induction k generalizing i c ret with
  | zero => simp [addLoop2, hc]
  | succ k ih =>
    have ha1 := h1.getD_lt i
    have ha2 := h2.getD_lt i
    simp only [addLoop2]
    have e1 : (c + cand1.getD i 0) % 65536 = c + cand1.getD i 0 := Nat.mod_eq_of_lt (by omega)
    have e2 : (c + cand1.getD i 0 + cand2.getD i 0) % 65536 = c + cand1.getD i 0 + cand2.getD i 0 :=
      Nat.mod_eq_of_lt (by omega)
    rw [e1, e2]
    set t := c + cand1.getD i 0 + cand2.getD i 0 with ht
    have hlen' : i + 1 + k ≤ (ret.set i (t % 256)).length := by simp; omega
    obtain ⟨ihc, ihl, ihb, ihu, ihv⟩ := ih (i + 1) (t / 256) (ret.set i (t % 256)) (by omega) hlen'
    refine ⟨ihc, by simpa using ihl, ?_, ?_, ?_⟩
    · intro hb
      exact ihb (hb.set i (Nat.mod_lt _ (by decide)))
    · intro j hj
      rw [ihu j (by omega), getD_set_ne _ _ _ _ (by omega)]
    · have hv : valN (ret.set i (t % 256)) (i + 1) = valN ret i + (t % 256) * 256 ^ i := by
        simp only [valN]
        rw [valN_set_ge _ _ _ _ (le_refl _), getD_set_eq _ _ _ (by omega)]
      have hdm : (t % 256) * 256 ^ i + (t / 256) * 256 ^ (i + 1)
          = (c + cand1.getD i 0 + cand2.getD i 0) * 256 ^ i := by
        rw [← ht, pow_succ]
        have := Nat.mod_add_div t 256
        calc t % 256 * 256 ^ i + t / 256 * (256 ^ i * 256)
            = (t % 256 + 256 * (t / 256)) * 256 ^ i := by ring
          _ = t * 256 ^ i := by rw [this]
      have e3 : i + (k + 1) = i + 1 + k := by omega
      rw [e3]
      rw [hv] at ihv
      simp only [valN] at ihv
      linarith

theorem byteWiseAdditionNoCopy_spec {cand1 cand2 : List Nat} (h1 : Bytes cand1)
    (h2 : Bytes cand2) (len1 len2 : Nat) (ret : List Nat) (bLenOut : Nat)
    (hle : len2 ≤ len1) (hlen : len1 < ret.length) (hout : len1 < bLenOut) :
    (byteWiseAdditionNoCopy cand1 len1 cand2 len2 ret bLenOut).length = ret.length ∧
    (Bytes ret → Bytes (byteWiseAdditionNoCopy cand1 len1 cand2 len2 ret bLenOut)) ∧
    (∀ j, len1 < j →
      (byteWiseAdditionNoCopy cand1 len1 cand2 len2 ret bLenOut).getD j 0 = ret.getD j 0) ∧
    valN (byteWiseAdditionNoCopy cand1 len1 cand2 len2 ret bLenOut) (len1 + 1)
      = valN cand1 len1 + valN cand2 len2 := by
  unfold byteWiseAdditionNoCopy
  simp only [gt_iff_lt, hout, if_true]
  obtain ⟨ac, al, ab, au, av⟩ := addLoop2_spec h1 h2 len2 0 0 ret (by omega) (by omega)
  rw [addLoop1_eq_addLoop2]
  have hnil : Bytes ([] : List Nat) := by intro x hx; simp at hx
  obtain ⟨bc, bl, bb, bu, bv⟩ := addLoop2_spec h1 hnil (len1 - len2) len2
    (addLoop2 cand1 cand2 len2 0 0 ret).1 (addLoop2 cand1 cand2 len2 0 0 ret).2 ac
    (by rw [al]; omega)
  have e : len2 + (len1 - len2) = len1 := by omega
  rw [e] at bv bu
  set s2 := addLoop2 cand1 [] (len1 - len2) len2 (addLoop2 cand1 cand2 len2 0 0 ret).1
    (addLoop2 cand1 cand2 len2 0 0 ret).2 with hs2
  have hnilv : ∀ n, valN ([] : List Nat) n = 0 := fun n => by
    simpa using valN_replicate 0 n
  refine ⟨by simp [bl, al], ?_, ?_, ?_⟩
  · intro hb
    exact (bb (ab hb)).set _ (Nat.mod_lt _ (by decide))
  · intro j hj
    rw [getD_set_ne _ _ _ _ (by omega), bu j (by omega), au j (by omega)]
  · simp only [valN]
    rw [valN_set_ge _ _ _ _ (le_refl _), getD_set_eq _ _ _ (by rw [bl, al]; exact hlen)]
    have : s2.1 % 256 = s2.1 := Nat.mod_eq_of_lt (by omega)
    rw [this]
    simp only [hnilv, valN, zero_add, Nat.zero_mul, Nat.add_zero, pow_zero] at av bv
    linarith

theorem byteWiseAddition_spec {cand1 cand2 : List Nat} (h1 : Bytes cand1)
    (h2 : Bytes cand2) (len1 len2 : Nat) :
    (byteWiseAddition cand1 len1 cand2 len2).2 = max len1 len2 + 1 ∧
    (byteWiseAddition cand1 len1 cand2 len2).1.length = max len1 len2 + 1 ∧
    Bytes (byteWiseAddition cand1 len1 cand2 len2).1 ∧
    valN (byteWiseAddition cand1 len1 cand2 len2).1 (max len1 len2 + 1)
      = valN cand1 len1 + valN cand2 len2 := by
  by_cases h : len1 > len2
  · have hm : max len1 len2 = len1 := by omega
    have e : byteWiseAddition cand1 len1 cand2 len2
        = (byteWiseAdditionNoCopy cand1 len1 cand2 len2 (allocZerosMem (len1 + 1)) (len1 + 1),
            len1 + 1) := by
      simp [byteWiseAddition, h]
    obtain ⟨l, b, _, v⟩ := byteWiseAdditionNoCopy_spec h1 h2 len1 len2
      (allocZerosMem (len1 + 1)) (len1 + 1) (by omega) (by simp [allocZerosMem]) (by omega)
    rw [e, hm]
    exact ⟨rfl, by simpa [allocZerosMem] using l, b (Bytes.replicate _), v⟩
  · have hm : max len1 len2 = len2 := by omega
    have e : byteWiseAddition cand1 len1 cand2 len2
        = (byteWiseAdditionNoCopy cand2 len2 cand1 len1 (allocZerosMem (len2 + 1)) (len2 + 1),
            len2 + 1) := by
      simp [byteWiseAddition, h]
    obtain ⟨l, b, _, v⟩ := byteWiseAdditionNoCopy_spec h2 h1 len2 len1
      (allocZerosMem (len2 + 1)) (len2 + 1) (by omega) (by simp [allocZerosMem]) (by omega)
    rw [e, hm]
    exact ⟨rfl, by simpa [allocZerosMem] using l, b (Bytes.replicate _), by rw [v]; ring⟩

/-! ## Subtraction primitive -/

theorem negLoop1_eq_negLoop2 (cand1 : List Nat) (k i c : Nat) (ret : List Nat) :
    negLoop1 cand1 k i c ret = negLoop2 cand1 [] k i c ret := by
  induction k generalizing i c ret with
  | zero => rfl
  | succ k ih => simp [negLoop1, negLoop2, ih]

theorem negStep_arith (a1 a2 c : Nat) (h1 : a1 < 256) (h2 : a2 < 256) (hc : c ≤ 1) :
    borrowOf (((a1 + 65536 - c) % 65536 + 65536 - a2) % 65536) ≤ 1 ∧
    ((a1 + 65536 - c) % 65536 + 65536 - a2) % 65536 % 256 + a2 + c
      = a1 + 256 * borrowOf (((a1 + 65536 - c) % 65536 + 65536 - a2) % 65536) := by
  unfold borrowOf
  omega

theorem negLoop2_spec {cand1 cand2 : List Nat} (h1 : Bytes cand1) (h2 : Bytes cand2)
    (k i c : Nat) (ret : List Nat) (hc : c ≤ 1) (hlen : i + k ≤ ret.length) :
    (negLoop2 cand1 cand2 k i c ret).1 ≤ 1 ∧
    (negLoop2 cand1 cand2 k i c ret).2.length = ret.length ∧
    (Bytes ret → Bytes (negLoop2 cand1 cand2 k i c ret).2) ∧
    (∀ j, j < i ∨ i + k ≤ j → (negLoop2 cand1 cand2 k i c ret).2.getD j 0 = ret.getD j 0) ∧
    valN (negLoop2 cand1 cand2 k i c ret).2 (i + k) + valN cand2 (i + k)
        + c * 256 ^ i + valN cand1 i
      = valN cand1 (i + k) + (negLoop2 cand1 cand2 k i c ret).1 * 256 ^ (i + k)
        + valN ret i + valN cand2 i := by
  induction k generalizing i c ret with
  | zero => simp [negLoop2, hc]; ring
  | succ k ih =>
    have ha1 := h1.getD_lt i
    have ha2 := h2.getD_lt i
    simp only [negLoop2]
    obtain ⟨hb, hstep⟩ := negStep_arith _ _ c ha1 ha2 hc
    set t := ((cand1.getD i 0 + 65536 - c) % 65536 + 65536 - cand2.getD i 0) % 65536 with ht
    have hlen' : i + 1 + k ≤ (ret.set i (t % 256)).length := by simp; omega
    obtain ⟨ihc, ihl, ihb, ihu, ihv⟩ := ih (i + 1) (borrowOf t) (ret.set i (t % 256)) hb hlen'
    refine ⟨ihc, by simpa using ihl, ?_, ?_, ?_⟩
    · intro hb
      exact ihb (hb.set i (Nat.mod_lt _ (by decide)))
    · intro j hj
      rw [ihu j (by omega), getD_set_ne _ _ _ _ (by omega)]
    · have hv : valN (ret.set i (t % 256)) (i + 1) = valN ret i + (t % 256) * 256 ^ i := by
        simp only [valN]
        rw [valN_set_ge _ _ _ _ (le_refl _), getD_set_eq _ _ _ (by omega)]
      have hdm : (t % 256 + cand2.getD i 0 + c) * 256 ^ i
          = cand1.getD i 0 * 256 ^ i + borrowOf t * 256 ^ (i + 1) := by
        rw [hstep, pow_succ]; ring
      have e3 : i + (k + 1) = i + 1 + k := by omega
      rw [e3]
      rw [hv] at ihv
      simp only [valN] at ihv
      linarith

theorem byteWiseNegationNoCopy_spec {cand1 cand2 : List Nat} (h1 : Bytes cand1)
    (h2 : Bytes cand2) (len1 len2 : Nat) (ret : List Nat) (bLenOut : Nat)
    (hle : len2 ≤ len1) (hlen : len1 ≤ ret.length) :
    (byteWiseNegationNoCopy cand1 len1 cand2 len2 ret bLenOut).length = ret.length ∧
    (Bytes ret → Bytes (byteWiseNegationNoCopy cand1 len1 cand2 len2 ret bLenOut)) ∧
    (∀ j, len1 ≤ j →
      (byteWiseNegationNoCopy cand1 len1 cand2 len2 ret bLenOut).getD j 0 = ret.getD j 0) ∧
    ∃ borrow, borrow ≤ 1 ∧
      valN (byteWiseNegationNoCopy cand1 len1 cand2 len2 ret bLenOut) len1 + valN cand2 len2
        = valN cand1 len1 + borrow * 256 ^ len1 := by
  simp only [byteWiseNegationNoCopy]
  obtain ⟨ac, al, ab, au, av⟩ := negLoop2_spec h1 h2 len2 0 0 ret (by omega) (by omega)
  rw [negLoop1_eq_negLoop2]
  have hnil : Bytes ([] : List Nat) := by intro x hx; simp at hx
  obtain ⟨bc, bl, bb, bu, bv⟩ := negLoop2_spec h1 hnil (len1 - len2) len2
    (negLoop2 cand1 cand2 len2 0 0 ret).1 (negLoop2 cand1 cand2 len2 0 0 ret).2 ac
    (by rw [al]; omega)
  have e : len2 + (len1 - len2) = len1 := by omega
  rw [e] at bv bu
  have hnilv : ∀ n, valN ([] : List Nat) n = 0 := fun n => by
    simpa using valN_replicate 0 n
  refine ⟨by simp [bl, al], fun hb => bb (ab hb), ?_, _, bc, ?_⟩
  · intro j hj
    rw [bu j (by omega), au j (by omega)]
  · simp only [hnilv, valN, zero_add, Nat.zero_mul, Nat.add_zero, pow_zero] at av bv
    linarith

/-- With a minuend at least the subtrahend no borrow leaves the top byte and
the result is the difference. -/
theorem byteWiseNegationNoCopy_val {cand1 cand2 : List Nat} (h1 : Bytes cand1)
    (h2 : Bytes cand2) (len1 len2 : Nat) (ret : List Nat) (bLenOut : Nat)
    (hle : len2 ≤ len1) (hlen : len1 ≤ ret.length) (hb : Bytes ret)
    (hge : valN cand2 len2 ≤ valN cand1 len1) :
    valN (byteWiseNegationNoCopy cand1 len1 cand2 len2 ret bLenOut) len1 + valN cand2 len2
        = valN cand1 len1 := by
  obtain ⟨_, b, _, borrow, hbr, hv⟩ :=
    byteWiseNegationNoCopy_spec h1 h2 len1 len2 ret bLenOut hle hlen
  have hlt := valN_lt (b hb) len1
  have h1lt := valN_lt h1 len1
  rcases Nat.le_one_iff_eq_zero_or_eq_one.mp hbr with h0 | h0
  · rw [h0] at hv; omega
  · rw [h0] at hv; omega

theorem byteWiseNegation_spec {cand1 cand2 : List Nat} (h1 : Bytes cand1)
    (h2 : Bytes cand2) (len1 len2 : Nat) (hle : len2 ≤ len1)
    (hge : valN cand2 len2 ≤ valN cand1 len1) :
    (byteWiseNegation cand1 len1 cand2 len2).2 = len1 ∧
    (byteWiseNegation cand1 len1 cand2 len2).1.length = len1 ∧
    Bytes (byteWiseNegation cand1 len1 cand2 len2).1 ∧
    valN (byteWiseNegation cand1 len1 cand2 len2).1 len1 + valN cand2 len2
      = valN cand1 len1 := by
  simp only [byteWiseNegation]
  obtain ⟨l, b, _, _⟩ := byteWiseNegationNoCopy_spec h1 h2 len1 len2
    (allocZerosMem len1) len1 hle (by simp [allocZerosMem])
  exact ⟨trivial, by simpa [allocZerosMem] using l, b (Bytes.replicate _),
    byteWiseNegationNoCopy_val h1 h2 len1 len2 _ _ hle (by simp [allocZerosMem])
      (Bytes.replicate _) hge⟩

/-! ## Comparison primitive -/

theorem byteWiseGreater_spec {cand1 cand2 : List Nat} (h1 : Bytes cand1) (h2 : Bytes cand2)
    (n : Nat) (equal : Bool) :
    byteWiseGreater cand1 cand2 n equal =
      if valN cand1 n > valN cand2 n then true
      else if valN cand1 n < valN cand2 n then false else equal := by
  induction n with
  | zero => simp [byteWiseGreater, valN]
  | succ n ih =>
    have l1 := valN_lt h1 n
    have l2 := valN_lt h2 n
    simp only [byteWiseGreater, valN]
    by_cases hgt : cand1.getD n 0 > cand2.getD n 0
    · have : valN cand2 n + cand2.getD n 0 * 256 ^ n < valN cand1 n + cand1.getD n 0 * 256 ^ n := by
        have : (cand2.getD n 0 + 1) * 256 ^ n ≤ cand1.getD n 0 * 256 ^ n :=
          Nat.mul_le_mul_right _ hgt
        nlinarith
      rw [if_pos hgt, if_pos this]
    · by_cases hlt : cand1.getD n 0 < cand2.getD n 0
      · have : valN cand1 n + cand1.getD n 0 * 256 ^ n < valN cand2 n + cand2.getD n 0 * 256 ^ n := by
          have : (cand1.getD n 0 + 1) * 256 ^ n ≤ cand2.getD n 0 * 256 ^ n :=
            Nat.mul_le_mul_right _ hlt
          nlinarith
        have h' : ¬ (valN cand2 n + cand2.getD n 0 * 256 ^ n
            < valN cand1 n + cand1.getD n 0 * 256 ^ n) := by omega
        rw [if_neg hgt, if_pos hlt, if_neg h', if_pos this]
      · have heq : cand1.getD n 0 = cand2.getD n 0 := by omega
        rw [if_neg hgt, if_neg hlt, ih]
        simp only [heq, gt_iff_lt, Nat.add_lt_add_iff_right]

/-! ## Trimming and canonical form -/

theorem trimLen_le (num : List Nat) (n : Nat) : trimLen num n ≤ n := by
  induction n with
  | zero => simp [trimLen]
  | succ n ih =>
    simp only [trimLen]
    split <;> omega

theorem valN_trimLen (num : List Nat) (n : Nat) : valN num (trimLen num n) = valN num n := by
  induction n with
  | zero => rfl
  | succ n ih =>
    simp only [trimLen]
    split
    · rfl
    · rename_i h
      simp only [ne_eq, not_not] at h
      simp only [valN, ih, h, Nat.zero_mul, Nat.add_zero]

theorem trimLen_top (num : List Nat) (n : Nat) (h : 0 < trimLen num n) :
    num.getD (trimLen num n - 1) 0 ≠ 0 := by
  induction n with
  | zero => simp [trimLen] at h
  | succ n ih =>
    simp only [trimLen] at h ⊢
    split
    · rename_i h'; simpa using h'
    · rename_i h'
      rw [if_neg h'] at h
      exact ih h

theorem trimLen_eq_self (num : List Nat) (n : Nat) (h : 0 < n → num.getD (n - 1) 0 ≠ 0) :
    trimLen num n = n := by
  cases n with
  | zero => rfl
  | succ n => simp only [trimLen]; rw [if_pos (by simpa using h (by omega))]

theorem valN_ge_of_top {a : List Nat} (n : Nat) (hn : 0 < n) (ht : a.getD (n - 1) 0 ≠ 0) :
    256 ^ (n - 1) ≤ valN a n := by
  obtain ⟨m, rfl⟩ : ∃ m, n = m + 1 := ⟨n - 1, by omega⟩
  simp only [valN, Nat.add_sub_cancel] at ht ⊢
  have : 1 * 256 ^ m ≤ a.getD m 0 * 256 ^ m := Nat.mul_le_mul_right _ (by omega)
  omega

theorem valN_eq_zero_iff {a : List Nat} (n : Nat) (ht : 0 < n → a.getD (n - 1) 0 ≠ 0) :
    valN a n = 0 ↔ n = 0 := by
  constructor
  · intro h
    by_contra hn
    have := valN_ge_of_top n (by omega) (ht (by omega))
    have : 0 < 256 ^ (n - 1) := by positivity
    omega
  · rintro rfl; rfl

/-- Bytes are determined by the value. -/
theorem getD_eq_of_valN_eq {a b : List Nat} (ha : Bytes a) (hb : Bytes b) (n : Nat)
    (h : valN a n = valN b n) : ∀ j, j < n → a.getD j 0 = b.getD j 0 := by
  induction n with
  | zero => intro j hj; omega
  | succ n ih =>
    simp only [valN] at h
    have la := valN_lt ha n
    have lb := valN_lt hb n
    have htop : a.getD n 0 = b.getD n 0 := by
      by_contra hne
      rcases Nat.lt_or_gt_of_ne hne with hlt | hlt
      · have : (a.getD n 0 + 1) * 256 ^ n ≤ b.getD n 0 * 256 ^ n := Nat.mul_le_mul_right _ hlt
        nlinarith
      · have : (b.getD n 0 + 1) * 256 ^ n ≤ a.getD n 0 * 256 ^ n := Nat.mul_le_mul_right _ hlt
        nlinarith
    rw [htop] at h
    intro j hj
    by_cases hjn : j = n
    · rw [hjn]; exact htop
    · exact ih (by omega) j (by omega)

/-- Two trimmed lengths of buffers with the same value agree. -/
theorem len_eq_of_valN_eq {a b : List Nat} (ha : Bytes a) (hb : Bytes b) (n m : Nat)
    (hta : 0 < n → a.getD (n - 1) 0 ≠ 0) (htb : 0 < m → b.getD (m - 1) 0 ≠ 0)
    (h : valN a n = valN b m) : n = m := by
  have la := valN_lt ha n
  have lb := valN_lt hb m
  by_contra hne
  rcases Nat.lt_or_gt_of_ne hne with hlt | hlt
  · have := valN_ge_of_top m (by omega) (htb (by omega))
    have : 256 ^ n ≤ 256 ^ (m - 1) := Nat.pow_le_pow_right (by decide) (by omega)
    omega
  · have := valN_ge_of_top n (by omega) (hta (by omega))
    have : 256 ^ m ≤ 256 ^ (n - 1) := Nat.pow_le_pow_right (by decide) (by omega)
    omega

/-! ## Representation lemmas -/

theorem BigInt.WF.bytes {a : BigInt} (h : a.WF) : Bytes a.number := h.2.1

theorem BigInt.WF.top {a : BigInt} (h : a.WF) : 0 < a.numLen → a.number.getD (a.numLen - 1) 0 ≠ 0 :=
  h.2.2.2

theorem BigInt.WF.mag_lt {a : BigInt} (h : a.WF) : a.mag < 256 ^ a.numLen :=
  valN_lt h.bytes _

theorem BigInt.WF.mag_eq_zero_iff {a : BigInt} (h : a.WF) : a.mag = 0 ↔ a.numLen = 0 :=
  valN_eq_zero_iff _ h.top

theorem BigInt.mag_of_numLen_zero {a : BigInt} (h : a.numLen = 0) : a.mag = 0 := by
  simp [BigInt.mag, h, valN]

theorem BigInt.WF.numLen_le_of_mag_le {a b : BigInt} (ha : a.WF) (hb : b.WF)
    (h : a.mag ≤ b.mag) : a.numLen ≤ b.numLen := by
  by_contra hlt
  have h1 := valN_ge_of_top (a := a.number) a.numLen (by omega) (ha.top (by omega))
  have h2 := hb.mag_lt
  have : 256 ^ b.numLen ≤ 256 ^ (a.numLen - 1) := Nat.pow_le_pow_right (by decide) (by omega)
  unfold BigInt.mag at *
  omega

theorem BigInt.absGreater_spec {a b : BigInt} (ha : a.WF) (hb : b.WF) :
    a.absGreater b = decide (a.mag > b.mag) := by
  unfold BigInt.absGreater
  by_cases h : a.numLen = b.numLen
  · rw [if_pos h, byteWiseGreater_spec ha.bytes hb.bytes]
    unfold BigInt.mag
    rw [← h]
    by_cases h' : valN a.number a.numLen > valN b.number a.numLen
    · simp [h']
    · simp [h']
  · rw [if_neg h]
    by_cases h' : a.numLen > b.numLen
    · have : ¬ a.mag ≤ b.mag := fun hle => by
        have := ha.numLen_le_of_mag_le hb hle; omega
      simp [h']; omega
    · have : ¬ b.mag ≤ a.mag := fun hle => by
        have := hb.numLen_le_of_mag_le ha hle; omega
      simp [h']; omega

theorem memcpy_alloc (src : List Nat) (n : Nat) :
    memcpy (allocZerosMem n) src n = src.take n := by
  simp [memcpy, allocZerosMem]

theorem BigInt.copy_number (a : BigInt) : a.copy.number = a.number.take a.numLen := by
  simp [BigInt.copy, memcpy_alloc]

theorem BigInt.copy_mag (a : BigInt) : a.copy.mag = a.mag := by
  unfold BigInt.mag
  rw [BigInt.copy_number]
  exact valN_take _ _ _ (le_refl _)

theorem BigInt.copy_toInt (a : BigInt) : a.copy.toInt = a.toInt := by
  unfold BigInt.toInt
  rw [BigInt.copy_mag]; rfl

theorem BigInt.WF.copy {a : BigInt} (h : a.WF) : a.copy.WF := by
  obtain ⟨hl, hb, hn, ht⟩ := h
  refine ⟨?_, ?_, le_refl _, ?_⟩
  · rw [BigInt.copy_number]; simp [BigInt.copy]; omega
  · rw [BigInt.copy_number]; exact hb.take _
  · intro hpos
    rw [BigInt.copy_number]
    show (a.number.take a.numLen).getD (a.numLen - 1) 0 ≠ 0
    have hpos' : 0 < a.numLen := hpos
    rw [getD_take _ _ _ (by omega)]
    exact ht hpos'

theorem BigInt.ofBuffer_mag (buf : List Nat) (s : Bool) (len : Nat) :
    (BigInt.ofBuffer buf s len).mag = valN buf len :=
  valN_trimLen buf len

theorem BigInt.ofBuffer_toInt (buf : List Nat) (s : Bool) (len : Nat) :
    (BigInt.ofBuffer buf s len).toInt = if s then -(valN buf len : Int) else (valN buf len : Int) := by
  unfold BigInt.toInt
  rw [BigInt.ofBuffer_mag]; rfl

theorem BigInt.ofBuffer_WF {buf : List Nat} (s : Bool) {len : Nat} (hl : buf.length = len)
    (hb : Bytes buf) : (BigInt.ofBuffer buf s len).WF :=
  ⟨hl, hb, trimLen_le _ _, trimLen_top _ _⟩

theorem BigInt.toInt_of_numLen_zero {a : BigInt} (h : a.numLen = 0) : a.toInt = 0 := by
  unfold BigInt.toInt
  rw [BigInt.mag_of_numLen_zero h]; simp

/-! ## Signed addition and subtraction -/

theorem BigInt.add_toInt {a b : BigInt} (ha : a.WF) (hb : b.WF) :
    (a.add b).toInt = a.toInt + b.toInt := by
  unfold BigInt.add
  by_cases h0 : a.numLen = 0
  · rw [if_pos h0, BigInt.copy_toInt, BigInt.toInt_of_numLen_zero h0]; simp
  rw [if_neg h0]
  by_cases h1 : b.numLen = 0
  · rw [if_pos h1, BigInt.copy_toInt, BigInt.toInt_of_numLen_zero h1]; simp
  rw [if_neg h1]
  have hg := BigInt.absGreater_spec ha hb
  by_cases hx : xor a.isNegative b.isNegative = true
  · rw [if_pos hx]
    by_cases hgt : a.mag > b.mag
    · rw [hg, if_pos (by simpa using hgt)]
      have hle := hb.numLen_le_of_mag_le ha (le_of_lt hgt)
      obtain ⟨e2, _, _, v⟩ := byteWiseNegation_spec ha.bytes hb.bytes a.numLen b.numLen hle
        (le_of_lt hgt)
      simp only [BigInt.ofBuffer_toInt, e2]
      unfold BigInt.toInt
      unfold BigInt.mag at *
      cases hsa : a.isNegative <;> cases hsb : b.isNegative <;> simp [hsa, hsb] at hx ⊢ <;> omega
    · rw [hg, if_neg (by simpa using hgt)]
      have hle := ha.numLen_le_of_mag_le hb (not_lt.mp hgt)
      obtain ⟨e2, _, _, v⟩ := byteWiseNegation_spec hb.bytes ha.bytes b.numLen a.numLen hle
        (not_lt.mp hgt)
      simp only [BigInt.ofBuffer_toInt, e2]
      unfold BigInt.toInt
      unfold BigInt.mag at *
      cases hsa : a.isNegative <;> cases hsb : b.isNegative <;> simp [hsa, hsb] at hx ⊢ <;> omega
  · rw [if_neg hx]
    obtain ⟨e2, _, _, v⟩ := byteWiseAddition_spec ha.bytes hb.bytes a.numLen b.numLen
    simp only [BigInt.ofBuffer_toInt, e2]
    unfold BigInt.toInt
    unfold BigInt.mag at *
    cases hsa : a.isNegative <;> cases hsb : b.isNegative <;> simp [hsa, hsb] at hx ⊢ <;> omega

theorem BigInt.sub_toInt {a b : BigInt} (ha : a.WF) (hb : b.WF) :
    (a.sub b).toInt = a.toInt - b.toInt := by
  unfold BigInt.sub
  by_cases h0 : a.numLen = 0
  · rw [if_pos h0, BigInt.toInt_of_numLen_zero h0]
    have := BigInt.copy_mag b
    unfold BigInt.toInt
    unfold BigInt.mag at *
    simp only [this]
    cases hsb : b.isNegative <;> simp [BigInt.copy, hsb]
  rw [if_neg h0]
  by_cases h1 : b.numLen = 0
  · rw [if_pos h1, BigInt.copy_toInt, BigInt.toInt_of_numLen_zero h1]; simp
  rw [if_neg h1]
  have hg := BigInt.absGreater_spec ha hb
  by_cases hx : xor a.isNegative b.isNegative = true
  · rw [if_pos hx]
    obtain ⟨e2, _, _, v⟩ := byteWiseAddition_spec ha.bytes hb.bytes a.numLen b.numLen
    simp only [BigInt.ofBuffer_toInt, e2]
    unfold BigInt.toInt
    unfold BigInt.mag at *
    cases hsa : a.isNegative <;> cases hsb : b.isNegative <;> simp [hsa, hsb] at hx ⊢ <;> omega
  · rw [if_neg hx]
    by_cases hgt : a.mag > b.mag
    · rw [hg, if_pos (by simpa using hgt)]
      have hle := hb.numLen_le_of_mag_le ha (le_of_lt hgt)
      obtain ⟨e2, _, _, v⟩ := byteWiseNegation_spec ha.bytes hb.bytes a.numLen b.numLen hle
        (le_of_lt hgt)
      simp only [BigInt.ofBuffer_toInt, e2]
      unfold BigInt.toInt
      unfold BigInt.mag at *
      cases hsa : a.isNegative <;> cases hsb : b.isNegative <;> simp [hsa, hsb] at hx ⊢ <;> omega
    · rw [hg, if_neg (by simpa using hgt)]
      have hle := ha.numLen_le_of_mag_le hb (not_lt.mp hgt)
      obtain ⟨e2, _, _, v⟩ := byteWiseNegation_spec hb.bytes ha.bytes b.numLen a.numLen hle
        (not_lt.mp hgt)
      simp only [BigInt.ofBuffer_toInt, e2]
      unfold BigInt.toInt
      unfold BigInt.mag at *
      cases hsa : a.isNegative <;> cases hsb : b.isNegative <;> simp [hsa, hsb] at hx ⊢ <;> omega

/-! ## Left shift -/

theorem shl_byte_arith (h c s : Nat) (hs : s < 8) (hh : h < 2 ^ s) (hc : c < 256) :
    c / 2 ^ (8 - s) % 256 < 2 ^ s ∧
    (h + c * 2 ^ s) % 256 + 256 * (c / 2 ^ (8 - s) % 256) = h + c * 2 ^ s := by
  interval_cases s <;> simp at hh ⊢ <;> omega

theorem shlLoop_spec {cand1 : List Nat} (hb : Bytes cand1) (B s : Nat) (hs : s < 8)
    (k i : Nat) (ret : List Nat) (hlen : i + k + B + 1 ≤ ret.length) (hr : Bytes ret)
    (hh : ret.getD (i + B) 0 < 2 ^ s) :
    (shlLoop cand1 B s k i ret).length = ret.length ∧
    Bytes (shlLoop cand1 B s k i ret) ∧
    (∀ j, i + k + B < j → (shlLoop cand1 B s k i ret).getD j 0 = ret.getD j 0) ∧
    valN (shlLoop cand1 B s k i ret) (i + k + B + 1) + valN cand1 i * 2 ^ s * 256 ^ B
      = valN ret (i + B + 1) + valN cand1 (i + k) * 2 ^ s * 256 ^ B := by
  induction k generalizing i ret with
  | zero => simp [shlLoop, hr]
  | succ k ih =>
    simp only [shlLoop]
    have hc := hb.getD_lt i
    obtain ⟨hy, hxy⟩ := shl_byte_arith _ _ s hs hh hc
    set x := (ret.getD (i + B) 0 + cand1.getD i 0 * 2 ^ s) % 256 with hx
    set y := cand1.getD i 0 / 2 ^ (8 - s) % 256 with hy'
    set r2 := (ret.set (i + B) x).set (i + B + 1) y with hr2
    have hl2 : r2.length = ret.length := by simp [hr2]
    have hb2 : Bytes r2 :=
      (hr.set _ (Nat.mod_lt _ (by decide))).set _ (Nat.mod_lt _ (by decide))
    have e1 : i + 1 + B = i + B + 1 := by omega
    have hg2 : r2.getD (i + 1 + B) 0 < 2 ^ s := by
      rw [e1, hr2, getD_set_eq _ _ _ (by simp; omega)]; exact hy
    obtain ⟨il, ib, iu, iv⟩ := ih (i + 1) r2 (by rw [hl2]; omega) hb2 hg2
    refine ⟨by rw [il, hl2], ib, ?_, ?_⟩
    · intro j hj
      rw [iu j (by omega), hr2, getD_set_ne _ _ _ _ (by omega), getD_set_ne _ _ _ _ (by omega)]
    · have e2 : i + 1 + k + B + 1 = i + (k + 1) + B + 1 := by omega
      have e3 : i + 1 + k = i + (k + 1) := by omega
      rw [e2, e3] at iv
      have hv2 : valN r2 (i + 1 + B + 1) = valN ret (i + B) + x * 256 ^ (i + B)
          + y * 256 ^ (i + B + 1) := by
        rw [e1]
        simp only [valN]
        rw [hr2, getD_set_eq _ _ _ (by simp; omega), valN_set_ge _ _ _ _ (by omega),
          getD_set_ne _ _ _ _ (by omega), getD_set_eq _ _ _ (by omega),
          valN_set_ge _ _ _ _ (le_refl _)]
      rw [hv2] at iv
      have hmul : (x + 256 * y) * 256 ^ (i + B)
          = (ret.getD (i + B) 0 + cand1.getD i 0 * 2 ^ s) * 256 ^ (i + B) := by rw [hxy]
      simp only [valN, pow_succ, pow_add] at iv hmul ⊢
      linarith

theorem shiftBits_pos {cand1 : List Nat} (hb : Bytes cand1) (offset len1 : Nat)
    (hpos : 0 < offset) :
    (shiftBits (offset : Int) cand1 len1).2 = ((len1 + offset / 8 + 1 : Nat) : Int) ∧
    (shiftBits (offset : Int) cand1 len1).1.length = len1 + offset / 8 + 1 ∧
    Bytes (shiftBits (offset : Int) cand1 len1).1 ∧
    valN (shiftBits (offset : Int) cand1 len1).1 (len1 + offset / 8 + 1)
      = valN cand1 len1 * 2 ^ offset := by
  have hp : (offset : Int) > 0 := by exact_mod_cast hpos
  simp only [shiftBits, hp, if_true, Int.toNat_ofNat]
  obtain ⟨l, b, _, v⟩ := shlLoop_spec hb (offset / 8) (offset % 8) (Nat.mod_lt _ (by decide))
    len1 0 (allocZerosMem (len1 + offset / 8 + 1)) (by simp [allocZerosMem])
    (Bytes.replicate _) (by simp [allocZerosMem, getD_replicate])
  refine ⟨trivial, by simpa [allocZerosMem] using l, b, ?_⟩
  have h0 : valN cand1 0 = 0 := rfl
  have hz : valN (allocZerosMem (len1 + offset / 8 + 1)) (offset / 8 + 1) = 0 :=
    valN_replicate _ _
  simp only [Nat.zero_add, h0, hz, Nat.zero_mul, Nat.add_zero] at v
  rw [v, Nat.mul_assoc]
  congr 1
  have : (256 : Nat) = 2 ^ 8 := by norm_num
  rw [this, ← pow_mul, ← pow_add]
  congr 1
  have := Nat.mod_add_div offset 8
  omega

theorem shiftBits_zero (cand1 : List Nat) (len1 : Nat) (hb : Bytes cand1)
    (hl : len1 ≤ cand1.length) :
    (shiftBits 0 cand1 len1).2 = ((len1 + 1 : Nat) : Int) ∧
    (shiftBits 0 cand1 len1).1.length = len1 + 1 ∧
    Bytes (shiftBits 0 cand1 len1).1 ∧
    valN (shiftBits 0 cand1 len1).1 (len1 + 1) = valN cand1 len1 := by
  have e : (shiftBits 0 cand1 len1).1 = cand1.take len1 ++ [0] := by
    simp [shiftBits, memcpy, allocZerosMem, List.drop_replicate]
  refine ⟨by simp [shiftBits], ?_, ?_, ?_⟩
  · rw [e]; simp; omega
  · rw [e]; exact (hb.take _).append (by intro x hx; simp at hx; omega)
  · rw [e]
    simp only [valN]
    rw [valN_append_left _ _ _ (by simp; omega), valN_take _ _ _ (le_refl _),
      getD_append_right _ _ _ (by simp)]
    simp [Nat.min_eq_left hl]

/-- The eight shifted divisors all have `diviLen + 1` bytes and value `divi * 2^j`. -/
theorem dividersCache_spec {divi : List Nat} (hb : Bytes divi) (diviLen : Nat)
    (hl : diviLen ≤ divi.length) (j : Nat) (hj : j < 8) :
    (dividersCache divi diviLen j).2 = diviLen + 1 ∧
    (dividersCache divi diviLen j).1.length = diviLen + 1 ∧
    Bytes (dividersCache divi diviLen j).1 ∧
    valN (dividersCache divi diviLen j).1 (diviLen + 1) = valN divi diviLen * 2 ^ j := by
  unfold dividersCache
  by_cases h0 : j = 0
  · subst h0
    obtain ⟨a, b, c, d⟩ := shiftBits_zero divi diviLen hb hl
    refine ⟨?_, b, c, by simpa using d⟩
    show (shiftBits ((0 : Nat) : Int) divi diviLen).2.toNat = diviLen + 1
    simp only [Nat.cast_zero, a, Int.toNat_ofNat]
  · obtain ⟨a, b, c, d⟩ := shiftBits_pos hb j diviLen (by omega)
    have hj8 : j / 8 = 0 := by omega
    rw [hj8] at a b d
    refine ⟨?_, b, c, d⟩
    show (shiftBits (j : Int) divi diviLen).2.toNat = diviLen + 1
    rw [a]; simp

/-! ## Multiplication -/

theorem valN_of_zero_above (a : List Nat) (n m : Nat) (hnm : n ≤ m)
    (hz : ∀ j, n ≤ j → j < m → a.getD j 0 = 0) : valN a m = valN a n := by
  induction m with
  | zero =>
    have : n = 0 := by omega
    rw [this]
  | succ m ih =>
    by_cases h : n = m + 1
    · rw [h]
    · simp only [valN]
      rw [hz m (by omega) (by omega), ih (by omega) (fun j h1 h2 => hz j h1 (by omega))]
      simp

theorem memset_length (buf : List Nat) (off v n : Nat) :
    (memset buf off v n).length = buf.length := by
  induction n with
  | zero => rfl
  | succ n ih => simp [memset, ih]

theorem memset_getD_out (buf : List Nat) (off v n m : Nat) (h : m < off ∨ off + n ≤ m) :
    (memset buf off v n).getD m 0 = buf.getD m 0 := by
  induction n with
  | zero => rfl
  | succ n ih =>
    simp only [memset]
    rw [getD_set_ne _ _ _ _ (by omega), ih (by omega)]

theorem memset_getD_in (buf : List Nat) (off n m : Nat) (h1 : off ≤ m) (h2 : m < off + n) :
    (memset buf off 0 n).getD m 0 = 0 := by
  induction n with
  | zero => omega
  | succ n ih =>
    simp only [memset]
    by_cases hm : m = off + n
    · by_cases hl : m < (memset buf off 0 n).length
      · rw [← hm, getD_set_eq _ _ _ hl]
      · exact getD_ge _ _ (by simp; omega)
    · rw [getD_set_ne _ _ _ _ (by omega)]
      exact ih (by omega)

theorem Bytes.memset {buf : List Nat} (h : Bytes buf) (off n : Nat) :
    Bytes (memset buf off 0 n) := by
  induction n with
  | zero => exact h
  | succ n ih => exact ih.set _ (by decide)

theorem mulInner_spec {cand2 : List Nat} (h2 : Bytes cand2) (space : Nat) (hsp : space < 256)
    (i k j cache : Nat) (cacheVal : List Nat) (hc : cache ≤ 255)
    (hlen : i + j + k ≤ cacheVal.length) :
    (mulInner space cand2 i k j cache cacheVal).1 ≤ 255 ∧
    (mulInner space cand2 i k j cache cacheVal).2.length = cacheVal.length ∧
    (Bytes cacheVal → Bytes (mulInner space cand2 i k j cache cacheVal).2) ∧
    (∀ m, m < i + j ∨ i + j + k ≤ m →
      (mulInner space cand2 i k j cache cacheVal).2.getD m 0 = cacheVal.getD m 0) ∧
    valN (mulInner space cand2 i k j cache cacheVal).2 (i + j + k)
        + (mulInner space cand2 i k j cache cacheVal).1 * 256 ^ (i + j + k)
        + space * valN cand2 j * 256 ^ i
      = valN cacheVal (i + j) + cache * 256 ^ (i + j) + space * valN cand2 (j + k) * 256 ^ i := by
  induction k generalizing j cache cacheVal with
  | zero => simp [mulInner, hc]
  | succ k ih =>
    have hb := h2.getD_lt j
    simp only [mulInner]
    have hprod : space * cand2.getD j 0 ≤ 255 * 255 := Nat.mul_le_mul (by omega) (by omega)
    have e1 : (cache + space * cand2.getD j 0) % 65536 = cache + space * cand2.getD j 0 :=
      Nat.mod_eq_of_lt (by omega)
    rw [e1]
    set t := cache + space * cand2.getD j 0 with ht
    have hlen' : i + (j + 1) + k ≤ (cacheVal.set (i + j) (t % 256)).length := by simp; omega
    obtain ⟨ihc, ihl, ihb, ihu, ihv⟩ :=
      ih (j + 1) (t / 256) (cacheVal.set (i + j) (t % 256)) (by omega) hlen'
    refine ⟨ihc, by simpa using ihl, ?_, ?_, ?_⟩
    · intro hb
      exact ihb (hb.set _ (Nat.mod_lt _ (by decide)))
    · intro m hm
      rw [ihu m (by omega), getD_set_ne _ _ _ _ (by omega)]
    · have e2 : i + (j + 1) = i + j + 1 := by omega
      have hv : valN (cacheVal.set (i + j) (t % 256)) (i + (j + 1))
          = valN cacheVal (i + j) + (t % 256) * 256 ^ (i + j) := by
        rw [e2]
        simp only [valN]
        rw [valN_set_ge _ _ _ _ (le_refl _), getD_set_eq _ _ _ (by omega)]
      have hdm : (t % 256) * 256 ^ (i + j) + (t / 256) * 256 ^ (i + (j + 1))
          = (cache + space * cand2.getD j 0) * 256 ^ (i + j) := by
        rw [← ht, e2, pow_succ]
        have := Nat.mod_add_div t 256
        calc t % 256 * 256 ^ (i + j) + t / 256 * (256 ^ (i + j) * 256)
            = (t % 256 + 256 * (t / 256)) * 256 ^ (i + j) := by ring
          _ = t * 256 ^ (i + j) := by rw [this]
      have e3 : i + j + (k + 1) = i + (j + 1) + k := by omega
      have e4 : j + (k + 1) = j + 1 + k := by omega
      rw [e3, e4]
      rw [hv] at ihv
      simp only [valN, pow_add] at ihv hdm ⊢
      linarith

theorem mulOuter_spec {cand1 cand2 : List Nat} (h1 : Bytes cand1) (h2 : Bytes cand2)
    (len1 len2 : Nat) (k i : Nat) (retVal cacheVal : List Nat) (hik : i + k ≤ len1)
    (hrl : retVal.length = len1 + len2 + 1) (hrb : Bytes retVal)
    (hrv : valN retVal (len1 + len2 + 1) = valN cand1 i * valN cand2 len2)
    (hcl : cacheVal.length = len1 + len2) (hcb : Bytes cacheVal)
    (hcz : ∀ m, cacheVal.getD m 0 = 0) :
    (mulOuter cand1 cand2 len2 (len1 + len2) k i (retVal, cacheVal)).1.length
      = len1 + len2 + 1 ∧
    Bytes (mulOuter cand1 cand2 len2 (len1 + len2) k i (retVal, cacheVal)).1 ∧
    valN (mulOuter cand1 cand2 len2 (len1 + len2) k i (retVal, cacheVal)).1 (len1 + len2 + 1)
      = valN cand1 (i + k) * valN cand2 len2 := by
  induction k generalizing i retVal cacheVal with
  | zero => exact ⟨hrl, hrb, hrv⟩
  | succ k ih =>
    simp only [mulOuter]
    have hsp := h1.getD_lt i
    have esp : cand1.getD i 0 % 65536 = cand1.getD i 0 := Nat.mod_eq_of_lt (by omega)
    rw [esp]
    obtain ⟨mc, ml, mb, mu, mv⟩ := mulInner_spec h2 (cand1.getD i 0) hsp i len2 0 0 cacheVal
      (by omega) (by omega)
    set s := mulInner (cand1.getD i 0) cand2 i len2 0 0 cacheVal with hs
    set cacheVal1 := s.2.set (i + len2) (s.1 % 256) with hc1
    have hc1l : cacheVal1.length = len1 + len2 := by simp [hc1, ml, hcl]
    have hc1b : Bytes cacheVal1 := (mb hcb).set _ (Nat.mod_lt _ (by decide))
    -- value of the partial product
    have hz0 : ∀ n, valN cacheVal n = 0 := fun n => by
      induction n with
      | zero => rfl
      | succ n ih => simp only [valN, ih, hcz, Nat.zero_mul]
    have hv1 : valN cacheVal1 (i + len2 + 1)
        = cand1.getD i 0 * valN cand2 len2 * 256 ^ i := by
      simp only [valN]
      rw [hc1, valN_set_ge _ _ _ _ (le_refl _), getD_set_eq _ _ _ (by rw [ml, hcl]; omega)]
      have : s.1 % 256 = s.1 := Nat.mod_eq_of_lt (by omega)
      rw [this]
      simp only [Nat.add_zero, hz0, valN, Nat.mul_zero, Nat.zero_mul, Nat.zero_add] at mv
      exact mv
    have hv1' : valN cacheVal1 (len1 + len2) = cand1.getD i 0 * valN cand2 len2 * 256 ^ i := by
      rw [← hv1]
      apply valN_of_zero_above _ _ _ (by omega)
      intro j hj1 hj2
      rw [hc1, getD_set_ne _ _ _ _ (by omega), mu j (by omega)]
      exact hcz j
    -- the running total fits in `len1 + len2` bytes
    have hV2 := valN_lt h2 len2
    have hbound : ∀ n, n ≤ len1 → valN cand1 n * valN cand2 len2 < 256 ^ (len1 + len2) := by
      intro n hn
      have hn1 := valN_lt h1 n
      have : 256 ^ n ≤ 256 ^ len1 := Nat.pow_le_pow_right (by decide) hn
      rw [pow_add]
      exact Nat.mul_lt_mul'' (lt_of_lt_of_le hn1 this) hV2
    have hrv' : valN retVal (len1 + len2) = valN cand1 i * valN cand2 len2 := by
      have hb := hbound i (by omega)
      rw [← hrv] at hb ⊢
      simp only [valN] at hb ⊢
      have : retVal.getD (len1 + len2) 0 = 0 := by
        by_contra hne
        have : 1 * 256 ^ (len1 + len2) ≤ retVal.getD (len1 + len2) 0 * 256 ^ (len1 + len2) :=
          Nat.mul_le_mul_right _ (by omega)
        omega
      rw [this]; simp
    obtain ⟨al, ab, _, av⟩ := byteWiseAdditionNoCopy_spec hc1b hrb (len1 + len2) (len1 + len2)
      retVal (len1 + len2 + 1) (le_refl _) (by omega) (by omega)
    set retVal1 := byteWiseAdditionNoCopy cacheVal1 (len1 + len2) retVal (len1 + len2) retVal
      (len1 + len2 + 1) with hr1
    have e : i + (k + 1) = i + 1 + k := by omega
    rw [e]
    apply ih (i + 1) retVal1 (memset cacheVal1 i 0 (len2 + 1)) (by omega) (by rw [al, hrl])
      (ab hrb)
    · rw [av, hv1', hrv']
      simp only [valN]
      ring
    · rw [memset_length, hc1l]
    · exact hc1b.memset _ _
    · intro m
      by_cases hm : i ≤ m ∧ m < i + (len2 + 1)
      · exact memset_getD_in _ _ _ _ hm.1 hm.2
      · rw [memset_getD_out _ _ _ _ _ (by omega)]
        by_cases hm' : m = i + len2
        · omega
        · rw [hc1, getD_set_ne _ _ _ _ (by omega), mu m (by omega)]
          exact hcz m

theorem multiplicationUtil_spec {cand1 cand2 : List Nat} (h1 : Bytes cand1) (h2 : Bytes cand2)
    (len1 len2 : Nat) :
    (multiplicationUtil cand1 len1 cand2 len2).2 = len1 + len2 + 1 ∧
    (multiplicationUtil cand1 len1 cand2 len2).1.length = len1 + len2 + 1 ∧
    Bytes (multiplicationUtil cand1 len1 cand2 len2).1 ∧
    valN (multiplicationUtil cand1 len1 cand2 len2).1 (len1 + len2 + 1)
      = valN cand1 len1 * valN cand2 len2 := by
  simp only [multiplicationUtil]
  obtain ⟨l, b, v⟩ := mulOuter_spec h1 h2 len1 len2 len1 0 (allocZerosMem (len1 + len2 + 1))
    (allocZerosMem (len1 + len2)) (by omega) (by simp [allocZerosMem]) (Bytes.replicate _)
    (by rw [show valN (allocZerosMem (len1 + len2 + 1)) (len1 + len2 + 1) = 0 from
      valN_replicate _ _]; simp [valN])
    (by simp [allocZerosMem]) (Bytes.replicate _) (fun m => getD_replicate _ _)
  refine ⟨trivial, l, b, ?_⟩
  rw [v, Nat.zero_add]

theorem BigInt.mul_toInt {a b : BigInt} (ha : a.WF) (hb : b.WF) :
    (a.mul b).toInt = a.toInt * b.toInt := by
  unfold BigInt.mul
  by_cases h0 : a.numLen = 0 ∨ b.numLen = 0
  · rw [if_pos h0]
    rcases h0 with h0 | h0
    · rw [BigInt.toInt_of_numLen_zero h0]; simp [BigInt.zero, BigInt.toInt, BigInt.mag, valN]
    · rw [BigInt.toInt_of_numLen_zero h0]; simp [BigInt.zero, BigInt.toInt, BigInt.mag, valN]
  · rw [if_neg h0]
    obtain ⟨e2, _, _, v⟩ := multiplicationUtil_spec ha.bytes hb.bytes a.numLen b.numLen
    simp only [BigInt.ofBuffer_toInt, e2, v]
    unfold BigInt.toInt BigInt.mag
    cases hsa : a.isNegative <;> cases hsb : b.isNegative <;> simp

/-! ## Binary long division -/

theorem valN_set_lt (a : List Nat) (i v n : Nat) (hi : i < n) (hl : i < a.length) :
    valN (a.set i v) n + a.getD i 0 * 256 ^ i = valN a n + v * 256 ^ i := by
  induction n with
  | zero => omega
  | succ n ih =>
    simp only [valN]
    by_cases h : i = n
    · subst h
      rw [valN_set_ge _ _ _ _ (le_refl _), getD_set_eq _ _ _ hl]
      omega
    · rw [getD_set_ne _ _ _ _ h]
      have := ih (by omega)
      omega

theorem valN_splice (r w : List Nat) (i n : Nat) (hi : i ≤ r.length) :
    valN (r.take i ++ w) (i + n) = valN r i + 256 ^ i * valN w n := by
  rw [valN_add]
  have hl : (r.take i).length = i := by simp [hi]
  congr 1
  · rw [valN_append_left _ _ _ (by omega), valN_take _ _ _ (le_refl _)]
  · congr 1
    apply valN_congr
    intro j _
    rw [getD_drop, getD_append_right _ _ _ (by omega), hl]
    congr 1; omega

theorem quot_bit_arith (b j : Nat) (hj : j < 8) (hb : b < 256) (hm : b % 2 ^ (j + 1) = 0) :
    (b + 2 ^ j) % 256 = b + 2 ^ j ∧ (b + 2 ^ j) % 2 ^ j = 0 ∧ b % 2 ^ j = 0 := by
  interval_cases j <;> simp at hm ⊢ <;> omega

theorem div_arith_total (q' qi b P Q D w' W ri T : Nat)
    (hq : q' + qi * P = Q + (qi + b) * P) (hW : w' + D * b = W)
    (hT : Q * D + (ri + P * W) = T) : q' * D + (ri + P * w') = T := by
  have hq' : q' = Q + b * P := by linarith
  rw [hq', ← hT, ← hW]; ring

theorem div_arith_lt (b P D w' W ri : Nat) (hW : w' + D * b = W)
    (hlt : ri + P * W < D * (P * b * 2)) : ri + P * w' < D * (P * b) := by
  rw [← hW] at hlt
  linarith

theorem div_arith_skip (b P D W ri : Nat) (hW : W + 1 ≤ D * b) (hri : ri < P) :
    ri + P * W < D * (P * b) := by
  have h2 := Nat.mul_le_mul_left P hW
  linarith

theorem divStep_spec {divi : List Nat} (hb : Bytes divi) (diviLen : Nat)
    (hl : diviLen ≤ divi.length) (i j : Nat) (hj : j < 8) (q r : List Nat) (T : Nat)
    (hq : i < q.length) (hqb : Bytes q) (hqj : q.getD i 0 % 2 ^ (j + 1) = 0)
    (hr : i + diviLen + 1 ≤ r.length) (hrb : Bytes r)
    (hz : ∀ m, i + diviLen + 1 ≤ m → r.getD m 0 = 0)
    (hT : valN q q.length * valN divi diviLen + valN r (i + diviLen + 1) = T)
    (hlt : valN r (i + diviLen + 1) < valN divi diviLen * 2 ^ (8 * i + j + 1)) :
    (divStep divi diviLen i j (q, r)).1.length = q.length ∧
    Bytes (divStep divi diviLen i j (q, r)).1 ∧
    (divStep divi diviLen i j (q, r)).1.getD i 0 % 2 ^ j = 0 ∧
    (∀ m, m ≠ i → (divStep divi diviLen i j (q, r)).1.getD m 0 = q.getD m 0) ∧
    (divStep divi diviLen i j (q, r)).2.length = r.length ∧
    Bytes (divStep divi diviLen i j (q, r)).2 ∧
    (∀ m, i + diviLen + 1 ≤ m → (divStep divi diviLen i j (q, r)).2.getD m 0 = 0) ∧
    valN (divStep divi diviLen i j (q, r)).1 q.length * valN divi diviLen
        + valN (divStep divi diviLen i j (q, r)).2 (i + diviLen + 1) = T ∧
    valN (divStep divi diviLen i j (q, r)).2 (i + diviLen + 1)
      < valN divi diviLen * 2 ^ (8 * i + j) := by
  obtain ⟨dl, dll, db, dv⟩ := dividersCache_spec hb diviLen hl j hj
  have hwb : Bytes (r.drop i) := hrb.drop i
  have hsplit : valN r (i + (diviLen + 1)) = valN r i + 256 ^ i * valN (r.drop i) (diviLen + 1) :=
    valN_add r i (diviLen + 1)
  rw [← Nat.add_assoc] at hsplit
  have hri := valN_lt hrb i
  have hqi := hqb.getD_lt i
  obtain ⟨qa, qb, qc⟩ := quot_bit_arith _ j hj hqi hqj
  have hpow : (2 : Nat) ^ (8 * i + j + 1) = 256 ^ i * 2 ^ j * 2 := by
    rw [pow_succ, pow_add, pow_mul]; norm_num
  have hpow' : (2 : Nat) ^ (8 * i + j) = 256 ^ i * 2 ^ j := by
    rw [pow_add, pow_mul]; norm_num
  have hcmp := byteWiseGreater_spec hwb db (diviLen + 1) true
  simp only [divStep, dl]
  by_cases hge : valN divi diviLen * 2 ^ j ≤ valN (r.drop i) (diviLen + 1)
  · have hcond : byteWiseGreater (r.drop i) (dividersCache divi diviLen j).1 (diviLen + 1) true
        = true := by
      rw [hcmp, dv]
      by_cases h' : valN (r.drop i) (diviLen + 1) > valN divi diviLen * 2 ^ j
      · rw [if_pos h']
      · rw [if_neg h', if_neg (by omega)]
    rw [if_pos hcond]
    obtain ⟨nl, nb, nu, _⟩ := byteWiseNegationNoCopy_spec hwb db (diviLen + 1) (diviLen + 1)
      (r.drop i) (diviLen + 1) (le_refl _) (by simp; omega)
    have nv := byteWiseNegationNoCopy_val hwb db (diviLen + 1) (diviLen + 1)
      (r.drop i) (diviLen + 1) (le_refl _) (by simp; omega) hwb (by rw [dv]; exact hge)
    set w' := byteWiseNegationNoCopy (r.drop i) (diviLen + 1) (dividersCache divi diviLen j).1
      (diviLen + 1) (r.drop i) (diviLen + 1) with hw'
    have htl : (r.take i).length = i := by simp; omega
    have hv' : valN (r.take i ++ w') (i + diviLen + 1) = valN r i + 256 ^ i * valN w' (diviLen + 1) := by
      rw [Nat.add_assoc]; exact valN_splice r w' i (diviLen + 1) (by omega)
    have hqv := valN_set_lt q i (q.getD i 0 + 2 ^ j) q.length hq hq
    refine ⟨by simp, ?_, ?_, ?_, ?_, ?_, ?_, ?_, ?_⟩
    · rw [qa]; exact hqb.set _ (by omega)
    · rw [getD_set_eq _ _ _ hq, qa]; exact qb
    · intro m hm
      rw [getD_set_ne _ _ _ _ (Ne.symm hm)]
    · simp [nl]; omega
    · exact (hrb.take i).append (nb hwb)
    · intro m hm
      rw [getD_append_right _ _ _ (by omega), htl, nu _ (by omega), getD_drop]
      rw [show i + (m - i) = m by omega]
      exact hz m hm
    · rw [qa, hv']
      rw [dv] at nv
      rw [hsplit] at hT
      exact div_arith_total _ _ _ _ _ _ _ _ _ _ hqv nv hT
    · rw [hv', hpow']
      rw [dv] at nv
      rw [hsplit, hpow] at hlt
      exact div_arith_lt _ _ _ _ _ _ nv hlt
  · have hcond : ¬ (byteWiseGreater (r.drop i) (dividersCache divi diviLen j).1 (diviLen + 1) true
        = true) := by
      rw [hcmp, dv]
      rw [if_neg (by omega), if_pos (by omega)]
      simp
    rw [if_neg hcond]
    refine ⟨rfl, hqb, qc, fun m _ => rfl, rfl, hrb, hz, hT, ?_⟩
    rw [hsplit, hpow']
    have h1 : valN (r.drop i) (diviLen + 1) + 1 ≤ valN divi diviLen * 2 ^ j := by omega
    exact div_arith_skip _ _ _ _ _ h1 hri

theorem divBits_spec {divi : List Nat} (hb : Bytes divi) (diviLen : Nat)
    (hl : diviLen ≤ divi.length) (i n : Nat) (hn : n ≤ 8) (q r : List Nat) (T : Nat)
    (hq : i < q.length) (hqb : Bytes q) (hqj : q.getD i 0 % 2 ^ n = 0)
    (hr : i + diviLen + 1 ≤ r.length) (hrb : Bytes r)
    (hz : ∀ m, i + diviLen + 1 ≤ m → r.getD m 0 = 0)
    (hT : valN q q.length * valN divi diviLen + valN r (i + diviLen + 1) = T)
    (hlt : valN r (i + diviLen + 1) < valN divi diviLen * 2 ^ (8 * i + n)) :
    (divBits divi diviLen i n (q, r)).1.length = q.length ∧
    Bytes (divBits divi diviLen i n (q, r)).1 ∧
    (∀ m, m ≠ i → (divBits divi diviLen i n (q, r)).1.getD m 0 = q.getD m 0) ∧
    (divBits divi diviLen i n (q, r)).2.length = r.length ∧
    Bytes (divBits divi diviLen i n (q, r)).2 ∧
    (∀ m, i + diviLen + 1 ≤ m → (divBits divi diviLen i n (q, r)).2.getD m 0 = 0) ∧
    valN (divBits divi diviLen i n (q, r)).1 q.length * valN divi diviLen
        + valN (divBits divi diviLen i n (q, r)).2 (i + diviLen + 1) = T ∧
    valN (divBits divi diviLen i n (q, r)).2 (i + diviLen + 1)
      < valN divi diviLen * 2 ^ (8 * i) := by
  induction n generalizing q r with
  | zero => exact ⟨rfl, hqb, fun m _ => rfl, rfl, hrb, hz, hT, hlt⟩
  | succ j ih =>
    simp only [divBits]
    obtain ⟨s1, s2, s3, s4, s5, s6, s7, s8, s9⟩ :=
      divStep_spec hb diviLen hl i j (by omega) q r T hq hqb hqj hr hrb hz hT hlt
    obtain ⟨t1, t2, t4, t5, t6, t7, t8, t9⟩ := ih (by omega)
      (divStep divi diviLen i j (q, r)).1 (divStep divi diviLen i j (q, r)).2
      (by rw [s1]; exact hq) s2 s3 (by rw [s5]; exact hr) s6 s7 (by rw [s1]; exact s8) s9
    refine ⟨by rw [t1, s1], t2, ?_, by rw [t5, s5], t6, t7, ?_, t9⟩
    · intro m hm
      rw [t4 m hm, s4 m hm]
    · rw [s1] at t8; exact t8

theorem divBytes_spec {divi : List Nat} (hb : Bytes divi) (diviLen : Nat)
    (hl : diviLen ≤ divi.length) (n : Nat) (q r : List Nat) (T : Nat)
    (hq : n ≤ q.length) (hqb : Bytes q) (hq0 : ∀ m, m < n → q.getD m 0 = 0)
    (hr : n + diviLen ≤ r.length) (hrb : Bytes r)
    (hz : ∀ m, n + diviLen ≤ m → r.getD m 0 = 0)
    (hT : valN q q.length * valN divi diviLen + valN r (n + diviLen) = T)
    (hlt : valN r (n + diviLen) < valN divi diviLen * 2 ^ (8 * n)) :
    (divBytes divi diviLen n (q, r)).1.length = q.length ∧
    Bytes (divBytes divi diviLen n (q, r)).1 ∧
    (divBytes divi diviLen n (q, r)).2.length = r.length ∧
    Bytes (divBytes divi diviLen n (q, r)).2 ∧
    (∀ m, diviLen ≤ m → (divBytes divi diviLen n (q, r)).2.getD m 0 = 0) ∧
    valN (divBytes divi diviLen n (q, r)).1 q.length * valN divi diviLen
        + valN (divBytes divi diviLen n (q, r)).2 diviLen = T ∧
    valN (divBytes divi diviLen n (q, r)).2 diviLen < valN divi diviLen := by
  induction n generalizing q r with
  | zero =>
    simp only [Nat.zero_add, Nat.mul_zero, pow_zero, Nat.mul_one] at hz hT hlt
    exact ⟨rfl, hqb, rfl, hrb, hz, hT, hlt⟩
  | succ i ih =>
    simp only [divBytes]
    have e : i + 1 + diviLen = i + diviLen + 1 := by omega
    rw [e] at hr hz hT hlt
    have hD := valN_lt hb diviLen
    obtain ⟨t1, t2, t4, t5, t6, t7, t8, t9⟩ := divBits_spec hb diviLen hl i 8 (le_refl _) q r T
      (by omega) hqb (by rw [hq0 i (by omega)]; exact Nat.zero_mod _) hr hrb hz hT
      (by rw [show 8 * i + 8 = 8 * (i + 1) by ring]; exact hlt)
    set s := divBits divi diviLen i 8 (q, r) with hs
    -- the byte leaving the window is zero
    have htop : s.2.getD (i + diviLen) 0 = 0 := by
      by_contra hne
      have h1 : 1 * 256 ^ (i + diviLen) ≤ s.2.getD (i + diviLen) 0 * 256 ^ (i + diviLen) :=
        Nat.mul_le_mul_right _ (by omega)
      have h2 : valN divi diviLen * 2 ^ (8 * i) < 256 ^ (i + diviLen) := by
        have h28 : (2 : Nat) ^ (8 * i) = 256 ^ i := by rw [pow_mul]; norm_num
        have hp : 0 < 256 ^ i := by positivity
        rw [h28, pow_add, Nat.mul_comm]
        exact (Nat.mul_lt_mul_left hp).mpr hD
      simp only [valN] at t9
      omega
    have hval : valN s.2 (i + diviLen + 1) = valN s.2 (i + diviLen) := by
      simp only [valN, htop]; simp
    rw [hval] at t8 t9
    obtain ⟨u1, u2, u3, u4, u5, u6, u7⟩ := ih s.1 s.2 (by rw [t1]; omega) t2
      (fun m hm => by rw [t4 m (by omega)]; exact hq0 m (by omega))
      (by rw [t5]; omega) t6
      (fun m hm => by
        by_cases h : m = i + diviLen
        · rw [h]; exact htop
        · exact t7 m (by omega))
      (by rw [t1]; exact t8) t9
    refine ⟨by rw [u1, t1], u2, by rw [u3, t5], u4, u5, ?_, u7⟩
    rw [t1] at u6; exact u6

/-- Correctness of the static `divisionUtil`: for a divisor of value `D`
(`diviLen` bytes), a zeroed quotient buffer of `qLen` bytes and a `remain`
buffer of `qLen + diviLen` bytes holding a dividend `T < D * 256^qLen`, the
buffers end as quotient and remainder. -/
theorem divisionUtil_static_spec {divi : List Nat} (hb : Bytes divi) (diviLen : Nat)
    (hl : diviLen ≤ divi.length) (qLen : Nat) (remain : List Nat)
    (hr : remain.length = qLen + diviLen) (hrb : Bytes remain)
    (hlt : valN remain (qLen + diviLen) < valN divi diviLen * 256 ^ qLen) :
    (divisionUtil divi diviLen (allocZerosMem qLen) qLen remain).1.length = qLen ∧
    Bytes (divisionUtil divi diviLen (allocZerosMem qLen) qLen remain).1 ∧
    (divisionUtil divi diviLen (allocZerosMem qLen) qLen remain).2.length = qLen + diviLen ∧
    Bytes (divisionUtil divi diviLen (allocZerosMem qLen) qLen remain).2 ∧
    valN (divisionUtil divi diviLen (allocZerosMem qLen) qLen remain).1 qLen
      = valN remain (qLen + diviLen) / valN divi diviLen ∧
    valN (divisionUtil divi diviLen (allocZerosMem qLen) qLen remain).2 (qLen + diviLen)
      = valN remain (qLen + diviLen) % valN divi diviLen := by
  simp only [divisionUtil]
  have hql : (allocZerosMem qLen).length = qLen := by simp [allocZerosMem]
  obtain ⟨u1, u2, u3, u4, u5, u6, u7⟩ := divBytes_spec hb diviLen hl qLen (allocZerosMem qLen)
    remain (valN remain (qLen + diviLen)) (by omega) (Bytes.replicate _)
    (fun m _ => getD_replicate _ _) (by omega) hrb
    (fun m hm => getD_ge _ _ (by omega))
    (by rw [hql, show valN (allocZerosMem qLen) qLen = 0 from valN_replicate _ _]; simp)
    (by rw [pow_mul]; norm_num; exact hlt)
  rw [hql] at u1 u6
  set s := divBytes divi diviLen qLen (allocZerosMem qLen, remain) with hs
  have hfull : valN s.2 (qLen + diviLen) = valN s.2 diviLen :=
    valN_of_zero_above _ _ _ (by omega) (fun j h1 _ => u5 j h1)
  have hD : 0 < valN divi diviLen := by omega
  refine ⟨u1, u2, by rw [u3, hr], u4, ?_, ?_⟩
  · rw [← u6]
    rw [Nat.add_comm, Nat.add_mul_div_right _ _ hD, Nat.div_eq_of_lt u7]; simp
  · rw [hfull, ← u6]
    rw [Nat.add_comm, Nat.add_mul_mod_self_right, Nat.mod_eq_of_lt u7]

/-! ## Signed multiplication, division and remainder -/

theorem BigInt.zero_WF : BigInt.zero.WF := by decide

theorem BigInt.WF.add {a b : BigInt} (ha : a.WF) (hb : b.WF) : (a.add b).WF := by
  unfold BigInt.add
  have hg := BigInt.absGreater_spec ha hb
  split
  · exact hb.copy
  split
  · exact ha.copy
  split
  · split
    · rename_i hgt
      rw [hg] at hgt
      have hgt' : a.mag > b.mag := by simpa using hgt
      obtain ⟨e2, l, b', _⟩ := byteWiseNegation_spec ha.bytes hb.bytes a.numLen b.numLen
        (hb.numLen_le_of_mag_le ha (le_of_lt hgt')) (le_of_lt hgt')
      exact BigInt.ofBuffer_WF _ (by rw [l, e2]) b'
    · rename_i hgt
      rw [hg] at hgt
      have hgt' : a.mag ≤ b.mag := by simpa using hgt
      obtain ⟨e2, l, b', _⟩ := byteWiseNegation_spec hb.bytes ha.bytes b.numLen a.numLen
        (ha.numLen_le_of_mag_le hb hgt') hgt'
      exact BigInt.ofBuffer_WF _ (by rw [l, e2]) b'
  · obtain ⟨e2, l, b', _⟩ := byteWiseAddition_spec ha.bytes hb.bytes a.numLen b.numLen
    exact BigInt.ofBuffer_WF _ (by rw [l, e2]) b'

theorem BigInt.WF.mul {a b : BigInt} (ha : a.WF) (hb : b.WF) : (a.mul b).WF := by
  unfold BigInt.mul
  split
  · exact BigInt.zero_WF
  · obtain ⟨e2, l, b', _⟩ := multiplicationUtil_spec ha.bytes hb.bytes a.numLen b.numLen
    exact BigInt.ofBuffer_WF _ (by rw [l, e2]) b'

/-- What the member `divisionUtil` returns for a non-zero divisor. -/
theorem BigInt.divisionUtil_member_spec {a b : BigInt} (ha : a.WF) (hb : b.WF) (hb0 : b.mag ≠ 0)
    (q_than_r : Bool) :
    ∃ buf len, a.divisionUtil b q_than_r = some (buf, len) ∧ buf.length = len ∧ Bytes buf ∧
      valN buf len = if q_than_r then a.mag / b.mag else a.mag % b.mag := by
  unfold BigInt.divisionUtil
  have hg := BigInt.absGreater_spec hb ha
  have hbn : b.numLen ≠ 0 := fun h => hb0 (BigInt.mag_of_numLen_zero h)
  by_cases hgt : b.mag > a.mag
  · rw [hg, if_pos (by simpa using hgt)]
    cases q_than_r
    · refine ⟨_, _, rfl, ?_, ?_, ?_⟩
      · rw [memcpy_alloc]; simp; exact ha.1 ▸ ha.2.2.1
      · rw [memcpy_alloc]; exact ha.bytes.take _
      · rw [memcpy_alloc, valN_take _ _ _ (le_refl _)]
        simp only [Bool.false_eq_true, if_false]
        exact (Nat.mod_eq_of_lt hgt).symm
    · refine ⟨_, _, rfl, rfl, by intro x hx; simp at hx, ?_⟩
      simp only [if_true]
      rw [Nat.div_eq_of_lt hgt]; rfl
  · rw [hg, if_neg (by simpa using hgt), if_neg hbn]
    have hle : b.numLen ≤ a.numLen := hb.numLen_le_of_mag_le ha (not_lt.mp hgt)
    have hal : a.numLen ≤ a.number.length := ha.1 ▸ ha.2.2.1
    have hbl : b.numLen ≤ b.number.length := hb.1 ▸ hb.2.2.1
    have hcache : memcpy ((allocZerosMem (a.numLen + 1)).set a.numLen 0) a.number a.numLen
        = a.number.take a.numLen ++ [0] := by
      simp [memcpy, allocZerosMem, List.drop_replicate]
    rw [hcache]
    have hlen : a.numLen - b.numLen + 1 + b.numLen = a.numLen + 1 := by omega
    have hcl : (a.number.take a.numLen ++ [0]).length = a.numLen - b.numLen + 1 + b.numLen := by
      simp; omega
    have hcb : Bytes (a.number.take a.numLen ++ [0]) :=
      (ha.bytes.take _).append (by intro x hx; simp at hx; omega)
    have hcv : valN (a.number.take a.numLen ++ [0]) (a.numLen + 1) = a.mag := by
      simp only [valN]
      rw [valN_append_left _ _ _ (by simp; omega), valN_take _ _ _ (le_refl _),
        getD_append_right _ _ _ (by simp)]
      simp [Nat.min_eq_left hal, BigInt.mag]
    have hbound : valN (a.number.take a.numLen ++ [0]) (a.numLen - b.numLen + 1 + b.numLen)
        < valN b.number b.numLen * 256 ^ (a.numLen - b.numLen + 1) := by
      rw [hlen, hcv]
      have h1 := ha.mag_lt
      have h2 := valN_ge_of_top (a := b.number) b.numLen (by omega) (hb.top (by omega))
      have h3 : 256 ^ a.numLen = 256 ^ (b.numLen - 1) * 256 ^ (a.numLen - b.numLen + 1) := by
        rw [← pow_add]; congr 1; omega
      have h4 := Nat.mul_le_mul_right (256 ^ (a.numLen - b.numLen + 1)) h2
      omega
    obtain ⟨d1, d2, d3, d4, d5, d6⟩ := divisionUtil_static_spec hb.bytes b.numLen hbl
      (a.numLen - b.numLen + 1) (a.number.take a.numLen ++ [0]) hcl hcb hbound
    rw [hlen] at d3 d5 d6
    rw [hcv] at d5 d6
    cases q_than_r
    · exact ⟨_, _, rfl, d3, d4, by simpa [BigInt.mag] using d6⟩
    · exact ⟨_, _, rfl, d1, d2, by simpa [BigInt.mag] using d5⟩

theorem BigInt.div_spec {a b : BigInt} (ha : a.WF) (hb : b.WF) (hb0 : b.mag ≠ 0) :
    ∃ q, a.div b = some q ∧ q.WF ∧ q.mag = a.mag / b.mag ∧
      q.isNegative = xor a.isNegative b.isNegative := by
  obtain ⟨buf, len, e, l, bb, v⟩ := BigInt.divisionUtil_member_spec ha hb hb0 true
  refine ⟨BigInt.ofBuffer buf (xor a.isNegative b.isNegative) len, ?_,
    BigInt.ofBuffer_WF _ l bb, ?_, rfl⟩
  · simp [BigInt.div, e]
  · rw [BigInt.ofBuffer_mag, v]; rfl

theorem BigInt.mod_spec {a b : BigInt} (ha : a.WF) (hb : b.WF) (hb0 : b.mag ≠ 0) :
    ∃ r, a.mod b = some r ∧ r.WF ∧ r.mag = a.mag % b.mag ∧ r.isNegative = a.isNegative := by
  obtain ⟨buf, len, e, l, bb, v⟩ := BigInt.divisionUtil_member_spec ha hb hb0 false
  refine ⟨BigInt.ofBuffer buf a.isNegative len, ?_, BigInt.ofBuffer_WF _ l bb, ?_, rfl⟩
  · simp [BigInt.mod, e]
  · rw [BigInt.ofBuffer_mag, v]; rfl

/-! ## Equality -/

theorem eqLoop_spec (a b : List Nat) (k i : Nat) :
    eqLoop a b k i = true ↔ ∀ j, i ≤ j → j < i + k → a.getD j 0 = b.getD j 0 := by
  induction k generalizing i with
  | zero => simp [eqLoop]; intro j h1 h2; omega
  | succ k ih =>
    simp only [eqLoop]
    by_cases h : a.getD i 0 = b.getD i 0
    · rw [if_neg (by simpa using h), ih]
      constructor
      · intro hh j h1 h2
        by_cases hj : j = i
        · rw [hj]; exact h
        · exact hh j (by omega) (by omega)
      · intro hh j h1 h2
        exact hh j (by omega) (by omega)
    · rw [if_pos (by simpa using h)]
      constructor
      · intro hh; cases hh
      · intro hh; exact absurd (hh i (le_refl _) (by omega)) h

theorem BigInt.eq_iff (a b : BigInt) :
    a.eq b = true ↔ a.numLen = b.numLen ∧ a.isNegative = b.isNegative ∧
      ∀ j, j < a.numLen → a.number.getD j 0 = b.number.getD j 0 := by
  unfold BigInt.eq
  by_cases h : a.numLen = b.numLen ∧ a.isNegative = b.isNegative
  · rw [if_pos h]
    by_cases h0 : a.numLen = 0
    · rw [if_pos h0]
      simp only [true_iff]
      exact ⟨h.1, h.2, fun j hj => by omega⟩
    · rw [if_neg h0, eqLoop_spec]
      constructor
      · intro hh
        exact ⟨h.1, h.2, fun j hj => hh j (by omega) (by omega)⟩
      · rintro ⟨_, _, hh⟩ j _ h2
        exact hh j (by omega)
  · rw [if_neg h]
    constructor
    · intro hh; cases hh
    · rintro ⟨h1, h2, _⟩; exact absurd ⟨h1, h2⟩ h

/-- Two well-formed values with the same magnitude and flag are `==`. -/
theorem BigInt.eq_of_mag_eq {a b : BigInt} (ha : a.WF) (hb : b.WF) (hm : a.mag = b.mag)
    (hs : a.isNegative = b.isNegative) : a.eq b = true := by
  have hn : a.numLen = b.numLen :=
    len_eq_of_valN_eq ha.bytes hb.bytes _ _ ha.top hb.top hm
  rw [BigInt.eq_iff]
  refine ⟨hn, hs, ?_⟩
  unfold BigInt.mag at hm
  rw [← hn] at hm
  exact getD_eq_of_valN_eq ha.bytes hb.bytes _ hm

theorem BigInt.natAbs_toInt (a : BigInt) : a.toInt.natAbs = a.mag := by
  unfold BigInt.toInt
  split <;> simp

/-- Two well-formed values denoting the same integer are `==`, provided their
flags agree when that integer is zero. -/
theorem BigInt.eq_of_toInt_eq {a b : BigInt} (ha : a.WF) (hb : b.WF) (h : a.toInt = b.toInt)
    (h0 : a.mag = 0 → a.isNegative = b.isNegative) : a.eq b = true := by
  have hm : a.mag = b.mag := by
    rw [← BigInt.natAbs_toInt a, ← BigInt.natAbs_toInt b, h]
  apply BigInt.eq_of_mag_eq ha hb hm
  by_cases hz : a.mag = 0
  · exact h0 hz
  · unfold BigInt.toInt at h
    rw [← hm] at h
    cases hsa : a.isNegative <;> cases hsb : b.isNegative <;> simp [hsa, hsb] at h ⊢ <;> omega

/-! ## Where the relational operators agree with the denoted integers -/

theorem BigInt.WF.sub {a b : BigInt} (ha : a.WF) (hb : b.WF) : (a.sub b).WF := by
  unfold BigInt.sub
  have hg := BigInt.absGreater_spec ha hb
  split
  · exact hb.copy
  split
  · exact ha.copy
  split
  · obtain ⟨e2, l, b', _⟩ := byteWiseAddition_spec ha.bytes hb.bytes a.numLen b.numLen
    exact BigInt.ofBuffer_WF _ (by rw [l, e2]) b'
  · split
    · rename_i hgt
      rw [hg] at hgt
      have hgt' : a.mag > b.mag := by simpa using hgt
      obtain ⟨e2, l, b', _⟩ := byteWiseNegation_spec ha.bytes hb.bytes a.numLen b.numLen
        (hb.numLen_le_of_mag_le ha (le_of_lt hgt')) (le_of_lt hgt')
      exact BigInt.ofBuffer_WF _ (by rw [l, e2]) b'
    · rename_i hgt
      rw [hg] at hgt
      have hgt' : a.mag ≤ b.mag := by simpa using hgt
      obtain ⟨e2, l, b', _⟩ := byteWiseNegation_spec hb.bytes ha.bytes b.numLen a.numLen
        (ha.numLen_le_of_mag_le hb hgt') hgt'
      exact BigInt.ofBuffer_WF _ (by rw [l, e2]) b'

/-- `operator==` on well-formed values: equal denotations, and equal flags
when the magnitude is zero. -/
theorem BigInt.eq_iff_toInt {a b : BigInt} (ha : a.WF) (hb : b.WF) :
    a.eq b = true ↔ a.toInt = b.toInt ∧ (a.mag = 0 → a.isNegative = b.isNegative) := by
  constructor
  · intro h
    obtain ⟨hn, hs, hbytes⟩ := (BigInt.eq_iff a b).mp h
    have hm : a.mag = b.mag := by
      unfold BigInt.mag
      rw [← hn]
      exact valN_congr hbytes
    refine ⟨?_, fun _ => hs⟩
    unfold BigInt.toInt
    rw [hm, hs]
  · rintro ⟨h, h0⟩
    exact BigInt.eq_of_toInt_eq ha hb h h0

/-- `(a + b) - b == a` holds whenever `a` has a non-zero magnitude. -/
theorem BigInt.add_sub_cancel_of_ne_zero {a b : BigInt} (ha : a.WF) (hb : b.WF)
    (ha0 : a.mag ≠ 0) : ((a.add b).sub b).eq a = true := by
  have hw := (ha.add hb).sub hb
  have ht : ((a.add b).sub b).toInt = a.toInt := by
    rw [BigInt.sub_toInt (ha.add hb) hb, BigInt.add_toInt ha hb]; ring
  apply BigInt.eq_of_toInt_eq hw ha ht
  intro h0
  have : a.mag = 0 := by
    rw [← BigInt.natAbs_toInt a, ← ht, BigInt.natAbs_toInt, h0]
  exact absurd this ha0

set_option maxRecDepth 100000

/-- Claim C1: for well-formed `a` and `b` with `b` of non-zero magnitude, both
`a / b` and `a % b` return a value and `operator==` reports `a` equal to
`(a / b) * b + (a % b)`. -/
theorem BigInt.div_mul_add_mod (a b : BigInt) (ha : a.WF) (hb : b.WF) (hb0 : b.mag ≠ 0) :
    ∃ q r, a.div b = some q ∧ a.mod b = some r ∧ a.eq ((q.mul b).add r) = true := by
  obtain ⟨q, hq, hqw, hqm, hqs⟩ := BigInt.div_spec ha hb hb0
  obtain ⟨r, hr, hrw, hrm, hrs⟩ := BigInt.mod_spec ha hb hb0
  refine ⟨q, r, hq, hr, ?_⟩
  have hxw := hqw.mul hb
  have hsw := hxw.add hrw
  apply BigInt.eq_of_toInt_eq ha hsw
  · rw [BigInt.add_toInt hxw hrw, BigInt.mul_toInt hqw hb]
    unfold BigInt.toInt
    rw [hqm, hrm, hqs, hrs]
    have hdm : (a.mag : Int) / (b.mag : Int) * (b.mag : Int) + (a.mag : Int) % (b.mag : Int)
        = (a.mag : Int) := Int.ediv_add_emod' _ _
    cases a.isNegative <;> cases b.isNegative <;> simp <;> linarith
  · intro ha0
    have hq0 : q.numLen = 0 := by
      rw [← hqw.mag_eq_zero_iff, hqm, ha0]; simp
    have hx : q.mul b = BigInt.zero := by
      unfold BigInt.mul
      rw [if_pos (Or.inl hq0)]
    rw [hx]
    unfold BigInt.add
    rw [if_pos (by rfl)]
    show a.isNegative = r.isNegative
    exact hrs.symm

/-- Witness for C1 at `1000` and `7`. -/
theorem BigInt.div_mul_add_mod_witness :
    (BigInt.ofInt32 1000).WF ∧ (BigInt.ofInt32 7).WF ∧ (BigInt.ofInt32 7).mag ≠ 0 ∧
    ∃ q r, (BigInt.ofInt32 1000).div (BigInt.ofInt32 7) = some q ∧
      (BigInt.ofInt32 1000).mod (BigInt.ofInt32 7) = some r ∧
      (BigInt.ofInt32 1000).eq ((q.mul (BigInt.ofInt32 7)).add r) = true :=
  ⟨by decide, by decide, by decide,
    BigInt.div_mul_add_mod _ _ (by decide) (by decide) (by decide)⟩

/-- Claim C2: for well-formed `a` and `b` with `b` of non-zero magnitude, `a / b`
returns a value that denotes the quotient of the denoted integers truncated
toward zero. -/
theorem BigInt.div_toInt (a b : BigInt) (ha : a.WF) (hb : b.WF) (hb0 : b.mag ≠ 0) :
    (a.div b).map BigInt.toInt = some (Int.tdiv a.toInt b.toInt) := by
  obtain ⟨q, hq, _, hqm, hqs⟩ := BigInt.div_spec ha hb hb0
  rw [hq, Option.map_some']
  congr 1
  unfold BigInt.toInt
  rw [hqm, hqs]
  cases a.isNegative <;> cases b.isNegative <;>
    simp [Int.neg_tdiv, Int.tdiv_neg, ← Int.ofNat_tdiv]

/-- Witness for C2: `1000 / 7` denotes `142`. -/
theorem BigInt.div_toInt_witness :
    (BigInt.ofInt32 1000).WF ∧ (BigInt.ofInt32 7).WF ∧ (BigInt.ofInt32 7).mag ≠ 0 ∧
    (BigInt.ofInt32 1000).toInt = 1000 ∧ (BigInt.ofInt32 7).toInt = 7 ∧
    ((BigInt.ofInt32 1000).div (BigInt.ofInt32 7)).map BigInt.toInt = some 142 :=
  ⟨by decide, by decide, by decide, by decide, by decide,
    (BigInt.div_toInt _ _ (by decide) (by decide) (by decide)).trans (by decide)⟩

/-- Claim C3: for well-formed `a` and `b` with `b` of non-zero magnitude, `a % b`
returns a value whose magnitude is `|a| mod |b|`, strictly below `|b|`, and
whose `isNegative` flag is that of `a`. -/
theorem BigInt.mod_mag_sign (a b : BigInt) (ha : a.WF) (hb : b.WF) (hb0 : b.mag ≠ 0) :
    ∃ r, a.mod b = some r ∧ r.mag = a.mag % b.mag ∧ r.mag < b.mag ∧
      r.isNegative = a.isNegative := by
  obtain ⟨r, hr, _, hrm, hrs⟩ := BigInt.mod_spec ha hb hb0
  exact ⟨r, hr, hrm, by rw [hrm]; exact Nat.mod_lt _ (by omega), hrs⟩

/-- Witness for C3: `1000 % 7`. -/
theorem BigInt.mod_mag_sign_witness :
    (BigInt.ofInt32 1000).WF ∧ (BigInt.ofInt32 7).WF ∧ (BigInt.ofInt32 7).mag ≠ 0 ∧
    (((BigInt.ofInt32 1000).mod (BigInt.ofInt32 7)).map BigInt.toInt = some 6) ∧
    ∃ r, (BigInt.ofInt32 1000).mod (BigInt.ofInt32 7) = some r ∧
      r.mag = (BigInt.ofInt32 1000).mag % (BigInt.ofInt32 7).mag ∧
      r.mag < (BigInt.ofInt32 7).mag ∧ r.isNegative = (BigInt.ofInt32 1000).isNegative :=
  ⟨by decide, by decide, by decide, by decide,
    BigInt.mod_mag_sign _ _ (by decide) (by decide) (by decide)⟩

/-- Claim C4: for well-formed `a` and `b`, `a + b` denotes the sum of the
integers denoted by `a` and `b`. -/
theorem BigInt.add_denotes_sum (a b : BigInt) (ha : a.WF) (hb : b.WF) :
    (a.add b).toInt = a.toInt + b.toInt :=
  BigInt.add_toInt ha hb

/-- Witness for C4: `123456789012345678901234567890 + 1`. -/
theorem BigInt.add_denotes_sum_witness :
    (BigInt.ofBuffer [210, 10, 63, 78, 238, 224, 115, 195, 246, 15, 233, 142, 1] false 13).WF ∧
    (BigInt.ofInt32 1).WF ∧
    (BigInt.ofBuffer [210, 10, 63, 78, 238, 224, 115, 195, 246, 15, 233, 142, 1] false 13).toInt
      = 123456789012345678901234567890 ∧
    ((BigInt.ofBuffer [210, 10, 63, 78, 238, 224, 115, 195, 246, 15, 233, 142, 1] false 13).add
      (BigInt.ofInt32 1)).toInt = 123456789012345678901234567891 :=
  ⟨by decide, by decide, by decide,
    (BigInt.add_denotes_sum _ _ (by decide) (by decide)).trans (by decide)⟩

/-- Claim C5: for well-formed `a` and `b`, `a - b` denotes the difference of
the integers denoted by `a` and `b`. -/
theorem BigInt.sub_denotes_difference (a b : BigInt) (ha : a.WF) (hb : b.WF) :
    (a.sub b).toInt = a.toInt - b.toInt :=
  BigInt.sub_toInt ha hb

/-- Witness for C5: `(-5) - 300` denotes `-305`. -/
theorem BigInt.sub_denotes_difference_witness :
    (BigInt.ofInt32 (-5)).WF ∧ (BigInt.ofInt32 300).WF ∧
    ((BigInt.ofInt32 (-5)).sub (BigInt.ofInt32 300)).toInt = -305 :=
  ⟨by decide, by decide,
    (BigInt.sub_denotes_difference _ _ (by decide) (by decide)).trans (by decide)⟩

/-- Claim C6: for well-formed `a` and `b`, `a * b` denotes the product of the
integers denoted by `a` and `b`. -/
theorem BigInt.mul_denotes_product (a b : BigInt) (ha : a.WF) (hb : b.WF) :
    (a.mul b).toInt = a.toInt * b.toInt :=
  BigInt.mul_toInt ha hb

/-- Witness for C6: `(-5) * (-3)` denotes `15`. -/
theorem BigInt.mul_denotes_product_witness :
    (BigInt.ofInt32 (-5)).WF ∧ (BigInt.ofInt32 (-3)).WF ∧
    ((BigInt.ofInt32 (-5)).mul (BigInt.ofInt32 (-3))).toInt = 15 :=
  ⟨by decide, by decide,
    (BigInt.mul_denotes_product _ _ (by decide) (by decide)).trans (by decide)⟩

/-- Claim C7, evaluated on the code at `a = 0`, `b = 5`: `a + b` is `5`,
`5 - 5` is stored with `isNegative = true`, and `operator==` reports
`(a + b) - b` different from `a`. -/
theorem BigInt.add_sub_cancel_fails_at_zero :
    BigInt.zero.WF ∧ (BigInt.ofInt32 5).WF ∧
    ((BigInt.zero.add (BigInt.ofInt32 5)).sub (BigInt.ofInt32 5)).numLen = 0 ∧
    ((BigInt.zero.add (BigInt.ofInt32 5)).sub (BigInt.ofInt32 5)).isNegative = true ∧
    ((BigInt.zero.add (BigInt.ofInt32 5)).sub (BigInt.ofInt32 5)).eq BigInt.zero = false := by
  decide

/-- Claim C8, evaluated on the code: `5 - 5` and `0 - 0` both have significant
length 0 but `isNegative = true`, and neither compares equal to `BigInt()`. -/
theorem BigInt.sub_self_negative_zero :
    (BigInt.ofInt32 5).WF ∧ (BigInt.ofInt32 0).WF ∧
    ((BigInt.ofInt32 5).sub (BigInt.ofInt32 5)).numLen = 0 ∧
    ((BigInt.ofInt32 5).sub (BigInt.ofInt32 5)).isNegative = true ∧
    ((BigInt.ofInt32 5).sub (BigInt.ofInt32 5)).eq BigInt.zero = false ∧
    ((BigInt.ofInt32 0).sub (BigInt.ofInt32 0)).numLen = 0 ∧
    ((BigInt.ofInt32 0).sub (BigInt.ofInt32 0)).isNegative = true ∧
    ((BigInt.ofInt32 0).sub (BigInt.ofInt32 0)).eq BigInt.zero = false := by
  decide

/-- Claim C9, evaluated on the code at `a = -5`, `b = -3` (both negative, one
byte each): `a >= b` and `a > b` return true, `a <= b` and `a < b` return
false, although `-5 < -3`. -/
theorem BigInt.compare_negative_same_length :
    (BigInt.ofInt32 (-5)).WF ∧ (BigInt.ofInt32 (-3)).WF ∧
    (BigInt.ofInt32 (-5)).toInt = -5 ∧ (BigInt.ofInt32 (-3)).toInt = -3 ∧
    (BigInt.ofInt32 (-5)).ge (BigInt.ofInt32 (-3)) = true ∧
    (BigInt.ofInt32 (-5)).gt (BigInt.ofInt32 (-3)) = true ∧
    (BigInt.ofInt32 (-5)).le (BigInt.ofInt32 (-3)) = false ∧
    (BigInt.ofInt32 (-5)).lt (BigInt.ofInt32 (-3)) = false := by
  decide

/-- Claim C10, evaluated on the code: the result of `5 - 5` and `BigInt()` are
well-formed and both denote 0, yet `operator==` returns false on them. -/
theorem BigInt.eq_distinguishes_zero_flags :
    ((BigInt.ofInt32 5).sub (BigInt.ofInt32 5)).WF ∧ BigInt.zero.WF ∧
    ((BigInt.ofInt32 5).sub (BigInt.ofInt32 5)).toInt = 0 ∧ BigInt.zero.toInt = 0 ∧
    ((BigInt.ofInt32 5).sub (BigInt.ofInt32 5)).eq BigInt.zero = false := by
  decide

/-! ## Division by zero -/

theorem BigInt.absGreater_of_numLen_zero (a b : BigInt) (hb : b.numLen = 0) :
    b.absGreater a = false := by
  unfold BigInt.absGreater
  by_cases h : b.numLen = a.numLen
  · rw [if_pos h, hb]; rfl
  · rw [if_neg h, hb]; simp

theorem BigInt.divisionUtil_of_numLen_zero (a b : BigInt) (hb : b.numLen = 0) (q_than_r : Bool) :
    a.divisionUtil b q_than_r = none := by
  unfold BigInt.divisionUtil
  rw [BigInt.absGreater_of_numLen_zero a b hb]
  simp [hb]

/-! ## Invalid characters in `createFromDecimal` -/

/-- A character code that is not one of `'0'..'9'`. -/
theorem parseLoop_invalid (s : List Nat) (hs : Bytes s) (retLen k i : Nat) (retVal : List Nat)
    (h : ∃ p, i ≤ p ∧ p < i + k ∧ ¬ (48 ≤ s.getD p 0 ∧ s.getD p 0 ≤ 57)) :
    parseLoop s retLen k i retVal = none := by
  induction k generalizing i retVal with
  | zero => obtain ⟨p, h1, h2, _⟩ := h; omega
  | succ k ih =>
    simp only [parseLoop]
    have hb := hs.getD_lt i
    by_cases hd : (s.getD i 0 + 256 - 48) % 256 ≥ 10
    · rw [if_pos hd]
    · rw [if_neg hd]
      apply ih
      obtain ⟨p, h1, h2, h3⟩ := h
      refine ⟨p, ?_, by omega, h3⟩
      by_contra hlt
      have : p = i := by omega
      subst this
      omega

theorem createFromDecimalRaw_invalid (s : List Nat) (hs : Bytes s) (len : Nat)
    (h : ∃ p, (if s.getD 0 0 = 45 then 1 else 0) ≤ p ∧ p < len ∧
      ¬ (48 ≤ s.getD p 0 ∧ s.getD p 0 ≤ 57)) :
    createFromDecimalRaw s len = (none, false, 0) := by
  unfold createFromDecimalRaw
  obtain ⟨p, h1, h2, h3⟩ := h
  by_cases hneg : s.getD 0 0 = 45
  · simp only [hneg, decide_True, if_true] at h1 ⊢
    rw [parseLoop_invalid s hs _ _ _ _ ⟨p, h1, by omega, h3⟩]
  · simp only [hneg, decide_False, if_false] at h1 ⊢
    simp only [Bool.false_eq_true, if_false]
    rw [parseLoop_invalid s hs _ _ _ _ ⟨p, h1, by omega, h3⟩]

/-! ## The trial-division loop of `isPrime` -/

theorem divStep_snd (divi : List Nat) (diviLen i j : Nat) (q q' r : List Nat) :
    (divStep divi diviLen i j (q, r)).2 = (divStep divi diviLen i j (q', r)).2 := by
  simp only [divStep]
  split <;> rfl

theorem divBits_snd (divi : List Nat) (diviLen i n : Nat) (q q' r : List Nat) :
    (divBits divi diviLen i n (q, r)).2 = (divBits divi diviLen i n (q', r)).2 := by
  induction n generalizing q q' r with
  | zero => rfl
  | succ j ih =>
    simp only [divBits]
    have h := divStep_snd divi diviLen i j q q' r
    rw [show divStep divi diviLen i j (q, r)
        = ((divStep divi diviLen i j (q, r)).1, (divStep divi diviLen i j (q, r)).2) from rfl,
      show divStep divi diviLen i j (q', r)
        = ((divStep divi diviLen i j (q', r)).1, (divStep divi diviLen i j (q', r)).2) from rfl,
      h]
    exact ih _ _ _

theorem divBytes_snd (divi : List Nat) (diviLen n : Nat) (q q' r : List Nat) :
    (divBytes divi diviLen n (q, r)).2 = (divBytes divi diviLen n (q', r)).2 := by
  induction n generalizing q q' r with
  | zero => rfl
  | succ i ih =>
    simp only [divBytes]
    have h := divBits_snd divi diviLen i 8 q q' r
    rw [show divBits divi diviLen i 8 (q, r)
        = ((divBits divi diviLen i 8 (q, r)).1, (divBits divi diviLen i 8 (q, r)).2) from rfl,
      show divBits divi diviLen i 8 (q', r)
        = ((divBits divi diviLen i 8 (q', r)).1, (divBits divi diviLen i 8 (q', r)).2) from rfl,
      h]
    exact ih _ _ _

/-- The remainder left by the static `divisionUtil` does not depend on what the
quotient buffer held. -/
theorem divisionUtil_remainder {divi : List Nat} (hb : Bytes divi) (diviLen : Nat)
    (hl : diviLen ≤ divi.length) (quotient : List Nat) (qLen : Nat) (remain : List Nat)
    (hr : remain.length = qLen + diviLen) (hrb : Bytes remain)
    (hlt : valN remain (qLen + diviLen) < valN divi diviLen * 256 ^ qLen) :
    Bytes (divisionUtil divi diviLen quotient qLen remain).2 ∧
    valN (divisionUtil divi diviLen quotient qLen remain).2 (qLen + diviLen)
      = valN remain (qLen + diviLen) % valN divi diviLen := by
  have h : (divisionUtil divi diviLen quotient qLen remain).2
      = (divisionUtil divi diviLen (allocZerosMem qLen) qLen remain).2 :=
    divBytes_snd divi diviLen qLen _ _ remain
  rw [h]
  obtain ⟨_, _, _, d4, _, d6⟩ := divisionUtil_static_spec hb diviLen hl qLen remain hr hrb hlt
  exact ⟨d4, d6⟩

theorem valN_eq_zero_iff_getD (a : List Nat) (k : Nat) :
    valN a k = 0 ↔ ∀ j, j < k → a.getD j 0 = 0 := by
  induction k with
  | zero => simp [valN]
  | succ k ih =>
    simp only [valN]
    have hp : 0 < 256 ^ k := by positivity
    constructor
    · intro h
      have h1 : valN a k = 0 := by omega
      have h2 : a.getD k 0 * 256 ^ k = 0 := by omega
      have h3 : a.getD k 0 = 0 := by
        rcases Nat.mul_eq_zero.mp h2 with h | h
        · exact h
        · omega
      intro j hj
      by_cases hjk : j = k
      · rw [hjk]; exact h3
      · exact ih.mp h1 j (by omega)
    · intro h
      rw [ih.mpr (fun j hj => h j (by omega)), h k (by omega)]; simp

theorem allZero_iff (copy : List Nat) (k i : Nat) :
    allZero copy k i = true ↔ ∀ j, i ≤ j → j < i + k → copy.getD j 0 = 0 := by
  induction k generalizing i with
  | zero => simp [allZero]; intro j h1 h2; omega
  | succ k ih =>
    simp only [allZero]
    by_cases h : copy.getD i 0 = 0
    · rw [if_neg (by simpa using h), ih]
      constructor
      · intro hh j h1 h2
        by_cases hj : j = i
        · rw [hj]; exact h
        · exact hh j (by omega) (by omega)
      · intro hh j h1 h2
        exact hh j (by omega) (by omega)
    · rw [if_pos (by simpa using h)]
      constructor
      · intro hh; cases hh
      · intro hh; exact absurd (hh i (le_refl _) (by omega)) h

theorem allZero_iff_valN (copy : List Nat) (k : Nat) :
    allZero copy k 0 = true ↔ valN copy k = 0 := by
  rw [allZero_iff, valN_eq_zero_iff_getD]
  constructor
  · intro h j hj; exact h j (Nat.zero_le _) (by omega)
  · intro h j _ hj; exact h j (by omega)

theorem valN_of_lt_pow (a : List Nat) (m k : Nat) (h : valN a (m + k) < 256 ^ m) :
    valN a m = valN a (m + k) := by
  rw [valN_add] at h ⊢
  have hp : 0 < 256 ^ m := by positivity
  rcases Nat.eq_zero_or_pos (valN (a.drop m) k) with h0 | h0
  · rw [h0]; simp
  · have : 256 ^ m * 1 ≤ 256 ^ m * valN (a.drop m) k := Nat.mul_le_mul_left _ h0
    omega

theorem prime_65521 : Nat.Prime 65521 := by norm_num

theorem add_two_one_byte (lo : Nat) (hlo : lo < 256) :
    byteWiseAdditionNoCopy [lo, 0] 1 [2] 1 [lo, 0] 2 = [(lo + 2) % 256, (lo + 2) / 256] := by
  simp only [byteWiseAdditionNoCopy, addLoop2, addLoop1, List.getD_cons_zero, List.set_cons_zero,
    Nat.sub_self, Nat.zero_add, gt_iff_lt, Nat.lt_add_one, if_true, List.set_cons_succ]
  have h1 : (lo % 65536 + 2) % 65536 = lo + 2 := by omega
  rw [h1]
  congr 2
  omega

theorem add_two_two_bytes (lo hi : Nat) (hlo : lo < 256) :
    byteWiseAdditionNoCopy [lo, hi] 2 [2] 1 [lo, hi] 3
      = [(lo + 2) % 256, (hi + (lo + 2) / 256) % 256] := by
  simp only [byteWiseAdditionNoCopy, addLoop2, addLoop1, List.getD_cons_zero, List.set_cons_zero,
    Nat.zero_add, gt_iff_lt, List.set_cons_succ, List.getD_cons_succ,
    show (2 : Nat) - 1 = 1 from rfl, show (2 : Nat) < 3 from by decide, if_true, List.set_nil]
  have h1 : (lo % 65536 + 2) % 65536 = lo + 2 := by omega
  rw [h1]
  congr 2
  omega

theorem bytes_pair {lo hi : Nat} (hlo : lo < 256) (hhi : hi < 256) : Bytes [lo, hi] := by
  intro x hx
  simp at hx
  rcases hx with rfl | rfl <;> assumption

/-- The divisibility test of one round of `isPrime` on 65521 with candidate
`lo + 256 * hi`. -/
theorem allZero_rem_65521 (lo hi : Nat) (ignored : List Nat) (hlo : lo < 256) (hhi : hi < 256)
    (h3 : 3 ≤ lo + 256 * hi) :
    allZero (divisionUtil [lo, hi] (if hi = 0 then 1 else 2) ignored
        (if hi = 0 then 2 else 1) [241, 255, 0]).2 (if hi = 0 then 1 else 2) 0 = true
      ↔ 65521 % (lo + 256 * hi) = 0 := by
  have hT : valN [241, 255, 0] 3 = 65521 := by decide
  have hrb : Bytes [241, 255, 0] := by decide
  rw [allZero_iff_valN]
  by_cases h0 : hi = 0
  · subst h0
    simp only [if_true]
    have hD : valN [lo, 0] 1 = lo := by simp [valN]
    obtain ⟨_, hv⟩ := divisionUtil_remainder (bytes_pair hlo hhi) 1 (by simp) ignored 2
      [241, 255, 0] rfl hrb (by rw [hT, hD]; omega)
    rw [hT, hD] at hv
    have hlt : 65521 % lo < lo := Nat.mod_lt _ (by omega)
    have := valN_of_lt_pow (divisionUtil [lo, 0] 1 ignored 2 [241, 255, 0]).2 1 2
      (by rw [hv]; omega)
    rw [this, hv]; simp
  · simp only [h0, if_false]
    have hD : valN [lo, hi] 2 = lo + 256 * hi := by simp [valN]; ring
    obtain ⟨_, hv⟩ := divisionUtil_remainder (bytes_pair hlo hhi) 2 (by simp) ignored 1
      [241, 255, 0] rfl hrb (by rw [hT, hD]; omega)
    rw [hT, hD] at hv
    have hlt : 65521 % (lo + 256 * hi) < lo + 256 * hi := Nat.mod_lt _ (by omega)
    have := valN_of_lt_pow (divisionUtil [lo, hi] 2 ignored 1 [241, 255, 0]).2 2 1
      (by rw [hv]; omega)
    rw [this, hv]

theorem limit_test_one_byte (lo hi : Nat) (hlo : lo < 256) :
    byteWiseGreater [255] [lo, hi] 1 true = true := by
  simp only [byteWiseGreater, List.getD_cons_zero]
  split
  · rfl
  · rw [if_neg (by omega)]

/-- From any odd candidate `c = lo + 256 * hi >= 3` the loop of `isPrime` on
65521 (limit `sqrt = 255`, one byte) keeps going until the candidate is
65521 itself, and then reports a divisor. -/
theorem isPrimeLoop_65521 (k fuel lo hi : Nat) (ignored : List Nat) (hf : k < fuel)
    (hlo : lo < 256) (hhi : hi < 256)
    (h3 : 3 ≤ lo + 256 * hi) (hk : lo + 256 * hi + 2 * k = 65521) :
    isPrimeLoop (BigInt.ofInt32 65521) (BigInt.ofBuffer [255] false 1) 0 fuel [lo, hi]
      (if hi = 0 then 1 else 2) (if hi = 0 then 2 else 1) ignored = some false := by
  have hcopy : memcpy ((allocZerosMem ((BigInt.ofInt32 65521).numLen + 1)).set
      (BigInt.ofInt32 65521).numLen 0) (BigInt.ofInt32 65521).number
      (BigInt.ofInt32 65521).numLen = [241, 255, 0] := by decide
  have hbn : (BigInt.ofBuffer [255] false 1).numLen = 1 := by decide
  have hbb : (BigInt.ofBuffer [255] false 1).number = [255] := rfl
  induction k generalizing fuel lo hi ignored with
  | zero =>
    obtain ⟨f, rfl⟩ : ∃ f, fuel = f + 1 := ⟨fuel - 1, by omega⟩
    rw [isPrimeLoop]
    simp only [hbn, hbb, limit_test_one_byte lo hi hlo, if_true, hcopy]
    have hz := (allZero_rem_65521 lo hi ignored hlo hhi h3).mpr
      (by rw [show lo + 256 * hi = 65521 by omega])
    by_cases h0 : hi = 0
    · subst h0; omega
    · simp only [h0, if_false] at hz ⊢
      rw [show ((1 : Int).toNat) = 1 from rfl, hz]; rfl
  | succ k ih =>
    obtain ⟨f, rfl⟩ : ∃ f, fuel = f + 1 := ⟨fuel - 1, by omega⟩
    rw [isPrimeLoop]
    simp only [hbn, hbb, limit_test_one_byte lo hi hlo, if_true, hcopy]
    have hnd : ¬ 65521 % (lo + 256 * hi) = 0 := by
      intro hmod
      have hdvd : (lo + 256 * hi) ∣ 65521 := Nat.dvd_of_mod_eq_zero hmod
      rcases (Nat.Prime.eq_one_or_self_of_dvd prime_65521 _ hdvd) with h | h <;> omega
    have hz := (allZero_rem_65521 lo hi ignored hlo hhi h3).not.mpr hnd
    by_cases h0 : hi = 0
    · subst h0
      simp only [if_true] at hz ⊢
      rw [show ((2 : Int).toNat) = 2 from rfl, if_neg hz, add_two_one_byte lo hlo]
      simp only [List.getD_cons_succ, List.getD_cons_zero]
      by_cases hc : (lo + 2) / 256 ≠ 0
      · rw [if_pos hc]
        have hlo' : lo = 255 := by omega
        subst hlo'
        have := ih f 1 1 (divisionUtil [255, 0] 1 ignored 2 [241, 255, 0]).1 (by omega)
          (by omega) (by omega) (by omega) (by omega)
        simpa using this
      · rw [if_neg hc]
        have h1 : (lo + 2) % 256 = lo + 2 := by omega
        have h2 : (lo + 2) / 256 = 0 := by omega
        rw [h1, h2]
        have := ih f (lo + 2) 0 (divisionUtil [lo, 0] 1 ignored 2 [241, 255, 0]).1 (by omega)
          (by omega) (by omega) (by omega) (by omega)
        simpa using this
    · simp only [h0, if_false] at hz ⊢
      rw [show ((1 : Int).toNat) = 1 from rfl, if_neg hz, add_two_two_bytes lo hi hlo]
      simp only [List.getD_cons_succ, List.getD_nil, ne_eq, not_true_eq_false, if_false]
      have hh : (hi + (lo + 2) / 256) % 256 = hi + (lo + 2) / 256 := by omega
      rw [hh]
      have := ih f ((lo + 2) % 256) (hi + (lo + 2) / 256)
        (divisionUtil [lo, hi] 2 ignored 1 [241, 255, 0]).1 (by omega) (by omega) (by omega)
        (by omega) (by omega)
      have hne : ¬ hi + (lo + 2) / 256 = 0 := by omega
      simpa [hne] using this

/-- On 65521 `sqrt(true)` gives 255, and `isPrime` answers "not prime". -/
theorem isPrime_65521 (fuel : Nat) (hf : 32760 ≤ fuel) :
    (BigInt.ofInt32 65521).isPrime 0 fuel = some false := by
  have hs : (BigInt.ofInt32 65521).sqrt true 0 = BigInt.ofBuffer [255] false 1 := by decide
  have hn : (BigInt.ofInt32 65521).numLen = 2 := by decide
  have hb : (BigInt.ofInt32 65521).number = [241, 255, 0, 0] := by decide
  have hbn : (BigInt.ofBuffer [255] false 1).numLen = 1 := by decide
  unfold BigInt.isPrime
  simp only [hs, hn, hb, hbn, List.getD_cons_zero]
  have := isPrimeLoop_65521 32759 fuel 3 0 (allocZerosMem 2) (by omega) (by omega) (by omega)
    (by omega) (by omega)
  simpa [allocZerosMem] using this

/-! ## Division by ten inside `getDecimalString` -/

theorem dividersCache_ten (j : Nat) (hj : j < 8) : dividersCache [10] 1 j = (TENS j, 2) := by
  interval_cases j <;> decide

theorem decStep_fst (i j : Nat) (hj : j < 8) (s : DecState) :
    ((decStep i j s).quotient, (decStep i j s).cache)
      = divStep [10] 1 i j (s.quotient, s.cache) := by
  simp only [decStep, divStep, dividersCache_ten j hj]
  split <;> rfl

theorem bytes_ten : Bytes [10] := by decide

theorem valN_ten : valN [10] 1 = 10 := by decide

/-- One bit of the division by ten: the division facts of `divStep_spec`
together with the bookkeeping of `leadingZero`. -/
theorem decStep_spec (i j : Nat) (hj : j < 8) (s : DecState) (T : Nat)
    (hq : i < s.quotient.length) (hqb : Bytes s.quotient)
    (hqj : s.quotient.getD i 0 % 2 ^ (j + 1) = 0)
    (hr : i + 1 + 1 ≤ s.cache.length) (hrb : Bytes s.cache)
    (hz : ∀ m, i + 1 + 1 ≤ m → s.cache.getD m 0 = 0)
    (hT : valN s.quotient s.quotient.length * 10 + valN s.cache (i + 1 + 1) = T)
    (hlt : valN s.cache (i + 1 + 1) < 10 * 2 ^ (8 * i + j + 1)) :
    (decStep i j s).quotient.length = s.quotient.length ∧
    Bytes (decStep i j s).quotient ∧
    (decStep i j s).quotient.getD i 0 % 2 ^ j = 0 ∧
    (∀ m, m ≠ i → (decStep i j s).quotient.getD m 0 = s.quotient.getD m 0) ∧
    (decStep i j s).cache.length = s.cache.length ∧
    Bytes (decStep i j s).cache ∧
    (∀ m, i + 1 + 1 ≤ m → (decStep i j s).cache.getD m 0 = 0) ∧
    valN (decStep i j s).quotient s.quotient.length * 10
        + valN (decStep i j s).cache (i + 1 + 1) = T ∧
    valN (decStep i j s).cache (i + 1 + 1) < 10 * 2 ^ (8 * i + j) ∧
    ((decStep i j s).leadingZero = true →
      s.leadingZero = true ∧ (decStep i j s).quotient.getD i 0 = s.quotient.getD i 0) ∧
    ((decStep i j s).leadingZero = false →
      s.leadingZero = false ∨ s.quotient.getD i 0 < (decStep i j s).quotient.getD i 0) ∧
    s.quotient.getD i 0 ≤ (decStep i j s).quotient.getD i 0 := by
  have hd := divStep_spec bytes_ten 1 (by simp) i j hj s.quotient s.cache T hq hqb hqj hr hrb hz
    (by rw [valN_ten]; exact hT) (by rw [valN_ten]; exact hlt)
  rw [← decStep_fst i j hj s, valN_ten] at hd
  obtain ⟨d1, d2, d3, d4, d5, d6, d7, d8, d9⟩ := hd
  refine ⟨d1, d2, d3, d4, d5, d6, d7, d8, d9, ?_⟩
  have hqi := hqb.getD_lt i
  obtain ⟨qa, _, _⟩ := quot_bit_arith _ j hj hqi hqj
  have hpos : 0 < 2 ^ j := by positivity
  simp only [decStep]
  split
  · refine And.intro ?_ (And.intro ?_ ?_)
    · intro h; exact absurd h (by simp)
    · intro _
      right
      show s.quotient.getD i 0 < (s.quotient.set i _).getD i 0
      rw [getD_set_eq _ _ _ hq, qa]; omega
    · show s.quotient.getD i 0 ≤ (s.quotient.set i _).getD i 0
      rw [getD_set_eq _ _ _ hq, qa]; omega
  · exact And.intro (fun h => And.intro h rfl) (And.intro (fun h => Or.inl h) (le_refl _))

theorem decBits_spec (i n : Nat) (hn : n ≤ 8) (s : DecState) (T : Nat)
    (hq : i < s.quotient.length) (hqb : Bytes s.quotient)
    (hqj : s.quotient.getD i 0 % 2 ^ n = 0)
    (hr : i + 1 + 1 ≤ s.cache.length) (hrb : Bytes s.cache)
    (hz : ∀ m, i + 1 + 1 ≤ m → s.cache.getD m 0 = 0)
    (hT : valN s.quotient s.quotient.length * 10 + valN s.cache (i + 1 + 1) = T)
    (hlt : valN s.cache (i + 1 + 1) < 10 * 2 ^ (8 * i + n)) :
    (decBits i n s).quotient.length = s.quotient.length ∧
    Bytes (decBits i n s).quotient ∧
    (∀ m, m ≠ i → (decBits i n s).quotient.getD m 0 = s.quotient.getD m 0) ∧
    (decBits i n s).cache.length = s.cache.length ∧
    Bytes (decBits i n s).cache ∧
    (∀ m, i + 1 + 1 ≤ m → (decBits i n s).cache.getD m 0 = 0) ∧
    valN (decBits i n s).quotient s.quotient.length * 10
        + valN (decBits i n s).cache (i + 1 + 1) = T ∧
    valN (decBits i n s).cache (i + 1 + 1) < 10 * 2 ^ (8 * i) ∧
    ((decBits i n s).leadingZero = true →
      s.leadingZero = true ∧ (decBits i n s).quotient.getD i 0 = s.quotient.getD i 0) ∧
    ((decBits i n s).leadingZero = false →
      s.leadingZero = false ∨ s.quotient.getD i 0 < (decBits i n s).quotient.getD i 0) ∧
    s.quotient.getD i 0 ≤ (decBits i n s).quotient.getD i 0 := by
  induction n generalizing s with
  | zero =>
    exact ⟨rfl, hqb, fun m _ => rfl, rfl, hrb, hz, hT, hlt, fun h => ⟨h, rfl⟩,
      fun h => Or.inl h, le_refl _⟩
  | succ j ih =>
    simp only [decBits]
    obtain ⟨s1, s2, s3, s4, s5, s6, s7, s8, s9, sa, sb, sc⟩ :=
      decStep_spec i j (by omega) s T hq hqb hqj hr hrb hz hT hlt
    obtain ⟨t1, t2, t4, t5, t6, t7, t8, t9, ta, tb, tc⟩ := ih (by omega) (decStep i j s)
      (by rw [s1]; exact hq) s2 s3 (by rw [s5]; exact hr) s6 s7 (by rw [s1]; exact s8) s9
    refine ⟨by rw [t1, s1], t2, ?_, by rw [t5, s5], t6, t7, ?_, t9, ?_, ?_, le_trans sc tc⟩
    · intro m hm
      rw [t4 m hm, s4 m hm]
    · rw [s1] at t8; exact t8
    · intro h
      obtain ⟨h1, h2⟩ := ta h
      obtain ⟨h3, h4⟩ := sa h1
      exact ⟨h3, by rw [h2, h4]⟩
    · intro h
      rcases tb h with h1 | h1
      · rcases sb h1 with h2 | h2
        · exact Or.inl h2
        · exact Or.inr (lt_of_lt_of_le h2 tc)
      · exact Or.inr (lt_of_le_of_lt sc h1)

theorem decBytes_spec (n : Nat) (s : DecState) (qLen B T : Nat)
    (hq : n ≤ s.quotient.length) (hqb : Bytes s.quotient)
    (hq0 : ∀ m, m < n → s.quotient.getD m 0 = 0)
    (hr : n + 1 ≤ s.cache.length) (hrb : Bytes s.cache)
    (hz : ∀ m, n + 1 ≤ m → s.cache.getD m 0 = 0)
    (hT : valN s.quotient s.quotient.length * 10 + valN s.cache (n + 1) = T)
    (hlt : valN s.cache (n + 1) < 10 * 2 ^ (8 * n))
    (hB : qLen ≤ B)
    (hl1 : s.leadingZero = true → qLen = n ∧ ∀ m, n ≤ m → s.quotient.getD m 0 = 0)
    (hl2 : s.leadingZero = false → n < qLen ∧ s.quotient.getD (qLen - 1) 0 ≠ 0 ∧
      ∀ m, qLen ≤ m → s.quotient.getD m 0 = 0) :
    (decBytes n (s, qLen)).1.quotient.length = s.quotient.length ∧
    Bytes (decBytes n (s, qLen)).1.quotient ∧
    (decBytes n (s, qLen)).1.cache.length = s.cache.length ∧
    Bytes (decBytes n (s, qLen)).1.cache ∧
    (∀ m, 1 ≤ m → (decBytes n (s, qLen)).1.cache.getD m 0 = 0) ∧
    valN (decBytes n (s, qLen)).1.quotient s.quotient.length * 10
        + valN (decBytes n (s, qLen)).1.cache 1 = T ∧
    valN (decBytes n (s, qLen)).1.cache 1 < 10 ∧
    (decBytes n (s, qLen)).2 ≤ B ∧
    (0 < (decBytes n (s, qLen)).2 →
      (decBytes n (s, qLen)).1.quotient.getD ((decBytes n (s, qLen)).2 - 1) 0 ≠ 0) ∧
    (∀ m, (decBytes n (s, qLen)).2 ≤ m → (decBytes n (s, qLen)).1.quotient.getD m 0 = 0) := by
  induction n generalizing s qLen with
  | zero =>
    simp only [Nat.zero_add, Nat.mul_zero, pow_zero, Nat.mul_one] at hz hT hlt
    refine ⟨rfl, hqb, rfl, hrb, hz, hT, hlt, hB, ?_, ?_⟩
    · intro hpos
      show s.quotient.getD (qLen - 1) 0 ≠ 0
      have hpos' : 0 < qLen := hpos
      cases hs : s.leadingZero with
      | true => have := (hl1 hs).1; omega
      | false => exact (hl2 hs).2.1
    · intro m hm
      show s.quotient.getD m 0 = 0
      cases hs : s.leadingZero with
      | true => exact (hl1 hs).2 m (Nat.zero_le _)
      | false => exact (hl2 hs).2.2 m hm
  | succ i ih =>
    simp only [decBytes]
    obtain ⟨t1, t2, t4, t5, t6, t7, t8, t9, ta, tb, tc⟩ := decBits_spec i 8 (le_refl _) s T
      (by omega) hqb (by rw [hq0 i (by omega)]; exact Nat.zero_mod _) hr hrb hz hT
      (by rw [show 8 * i + 8 = 8 * (i + 1) by ring]; exact hlt)
    set s1 := decBits i 8 s with hs1
    have htop : s1.cache.getD (i + 1) 0 = 0 := by
      by_contra hne
      have h1 : 1 * 256 ^ (i + 1) ≤ s1.cache.getD (i + 1) 0 * 256 ^ (i + 1) :=
        Nat.mul_le_mul_right _ (by omega)
      have h2 : 10 * 2 ^ (8 * i) < 256 ^ (i + 1) := by
        have h28 : (2 : Nat) ^ (8 * i) = 256 ^ i := by rw [pow_mul]; norm_num
        have hp : 0 < 256 ^ i := by positivity
        rw [h28, pow_succ]
        omega
      simp only [valN] at t9
      omega
    have hval : valN s1.cache (i + 1 + 1) = valN s1.cache (i + 1) := by
      simp only [valN, htop]; simp
    rw [hval] at t8 t9
    have hq0i := hq0 i (by omega)
    obtain ⟨u1, u2, u3, u4, u5, u6, u7, u8, u9, ua⟩ := ih s1
      (if s1.leadingZero = true then qLen - 1 else qLen) (by rw [t1]; omega) t2
      (fun m hm => by rw [t4 m (by omega)]; exact hq0 m (by omega))
      (by rw [t5]; omega) t6
      (fun m hm => by
        by_cases h : m = i + 1
        · rw [h]; exact htop
        · exact t7 m (by omega))
      (by rw [t1]; exact t8) t9
      (by split <;> omega)
      (by
        intro h1
        obtain ⟨h2, h3⟩ := ta h1
        obtain ⟨h4, h5⟩ := hl1 h2
        rw [if_pos h1]
        refine ⟨by omega, ?_⟩
        intro m hm
        by_cases hmi : m = i
        · rw [hmi, h3]; exact hq0i
        · rw [t4 m hmi]; exact h5 m (by omega))
      (by
        intro h1
        rw [if_neg (by simp [h1])]
        cases hs : s.leadingZero with
        | false =>
          obtain ⟨h4, h5, h6⟩ := hl2 hs
          refine ⟨by omega, ?_, ?_⟩
          · rw [t4 _ (by omega)]; exact h5
          · intro m hm
            rw [t4 m (by omega)]; exact h6 m hm
        | true =>
          obtain ⟨h4, h5⟩ := hl1 hs
          have hlt' : s.quotient.getD i 0 < s1.quotient.getD i 0 := by
            rcases tb h1 with h | h
            · rw [hs] at h; cases h
            · exact h
          refine ⟨by omega, ?_, ?_⟩
          · rw [h4, Nat.add_sub_cancel]; omega
          · intro m hm
            rw [t4 m (by omega)]; exact h5 m (by omega))
    refine ⟨by rw [u1, t1], u2, by rw [u3, t5], u4, u5, ?_, u7, u8, u9, ua⟩
    rw [t1] at u6; exact u6

theorem bytes_of_all_zero {l : List Nat} (h : ∀ m, l.getD m 0 = 0) : Bytes l := by
  intro x hx
  obtain ⟨n, hn, rfl⟩ := List.mem_iff_getElem.mp hx
  rw [← List.getD_eq_getElem l 0 hn, h n]; decide

theorem valN_of_all_zero {l : List Nat} (h : ∀ m, l.getD m 0 = 0) (n : Nat) : valN l n = 0 :=
  (valN_eq_zero_iff_getD l n).mpr fun j _ => h j

/-- One round of the `while` loop of `getDecimalString`: the buffers end as
quotient and remainder of the division by ten, and `qLen` as the trimmed
length of the quotient. -/
theorem decRound_spec (N : Nat) (q c : List Nat) (qLen : Nat)
    (hql : q.length = N + 1) (hqz : ∀ m, q.getD m 0 = 0)
    (hcl : c.length = N + 1) (hcb : Bytes c) (hqN : qLen ≤ N)
    (hcz : ∀ m, qLen ≤ m → c.getD m 0 = 0) :
    (decBytes qLen ({ quotient := q, cache := c, leadingZero := true }, qLen)).1.quotient.length
      = N + 1 ∧
    Bytes (decBytes qLen ({ quotient := q, cache := c, leadingZero := true }, qLen)).1.quotient ∧
    (decBytes qLen ({ quotient := q, cache := c, leadingZero := true }, qLen)).1.cache.length
      = N + 1 ∧
    (∀ m, 1 ≤ m →
      (decBytes qLen ({ quotient := q, cache := c, leadingZero := true }, qLen)).1.cache.getD m 0
        = 0) ∧
    valN (decBytes qLen ({ quotient := q, cache := c, leadingZero := true }, qLen)).1.quotient
        (N + 1) = valN c (N + 1) / 10 ∧
    (decBytes qLen ({ quotient := q, cache := c, leadingZero := true }, qLen)).1.cache.getD 0 0
      = valN c (N + 1) % 10 ∧
    (decBytes qLen ({ quotient := q, cache := c, leadingZero := true }, qLen)).2 ≤ N ∧
    (0 < (decBytes qLen ({ quotient := q, cache := c, leadingZero := true }, qLen)).2 →
      (decBytes qLen ({ quotient := q, cache := c, leadingZero := true }, qLen)).1.quotient.getD
        ((decBytes qLen ({ quotient := q, cache := c, leadingZero := true }, qLen)).2 - 1) 0
        ≠ 0) ∧
    (∀ m, (decBytes qLen ({ quotient := q, cache := c, leadingZero := true }, qLen)).2 ≤ m →
      (decBytes qLen ({ quotient := q, cache := c, leadingZero := true }, qLen)).1.quotient.getD
        m 0 = 0) := by
  have hV : valN c (N + 1) = valN c qLen :=
    valN_of_zero_above c qLen (N + 1) (by omega) (fun j h1 _ => hcz j h1)
  have hV1 : valN c (qLen + 1) = valN c qLen :=
    valN_of_zero_above c qLen (qLen + 1) (by omega) (fun j h1 _ => hcz j h1)
  have hlt := valN_lt hcb qLen
  have h28 : (2 : Nat) ^ (8 * qLen) = 256 ^ qLen := by rw [pow_mul]; norm_num
  obtain ⟨u1, u2, u3, u4, u5, u6, u7, u8, u9, ua⟩ := decBytes_spec qLen
    { quotient := q, cache := c, leadingZero := true } qLen N (valN c (N + 1))
    (by show qLen ≤ q.length; omega) (bytes_of_all_zero hqz) (fun m _ => hqz m)
    (by show qLen + 1 ≤ c.length; omega) hcb (fun m hm => hcz m (by omega))
    (by
      show valN q q.length * 10 + valN c (qLen + 1) = valN c (N + 1)
      rw [valN_of_all_zero hqz, hV1, hV]; simp)
    (by
      show valN c (qLen + 1) < 10 * 2 ^ (8 * qLen)
      rw [hV1, h28]; omega)
    hqN (fun _ => ⟨rfl, fun m _ => hqz m⟩) (fun h => by cases h)
  set r := decBytes qLen ({ quotient := q, cache := c, leadingZero := true }, qLen) with hr
  have u1' : r.1.quotient.length = N + 1 := by rw [u1]; exact hql
  have u6' : valN r.1.quotient (N + 1) * 10 + valN r.1.cache 1 = valN c (N + 1) := by
    have := u6
    rw [show ({ quotient := q, cache := c, leadingZero := true } : DecState).quotient.length
      = N + 1 from hql] at this
    exact this
  have hc0 : valN r.1.cache 1 = r.1.cache.getD 0 0 := by simp [valN]
  refine ⟨u1', u2, by rw [u3]; exact hcl, u5, ?_, ?_, u8, u9, ua⟩
  · omega
  · omega

theorem valN_pos_of_top (c : List Nat) (qLen n : Nat) (hq : 0 < qLen) (hn : qLen ≤ n)
    (ht : c.getD (qLen - 1) 0 ≠ 0) : 0 < valN c n := by
  rcases Nat.eq_zero_or_pos (valN c n) with h | h
  · exact absurd ((valN_eq_zero_iff_getD c n).mp h (qLen - 1) (by omega)) ht
  · exact h

theorem take_set_of_le (l : List Nat) (a m n : Nat) (h : m ≤ n) :
    (l.set n a).take m = l.take m := by
  induction l generalizing m n with
  | nil => simp
  | cons x xs ih =>
    cases n with
    | zero =>
      have : m = 0 := by omega
      subst this; simp
    | succ n =>
      cases m with
      | zero => simp
      | succ m => simp [ih m n (by omega)]

/-- The `while` loop of `getDecimalString` writes the decimal digits of the
value in `cache`, least significant first, from position `P - 1` downwards. -/
theorem decWhile_spec (N fuel : Nat) (q c : List Nat) (qLen : Nat) (ret : List Nat) (P : Nat)
    (hql : q.length = N + 1) (hqz : ∀ m, q.getD m 0 = 0)
    (hcl : c.length = N + 1) (hcb : Bytes c) (hqN : qLen ≤ N)
    (hcz : ∀ m, qLen ≤ m → c.getD m 0 = 0)
    (hct : 0 < qLen → c.getD (qLen - 1) 0 ≠ 0)
    (hf : (Nat.digits 10 (valN c (N + 1))).length ≤ fuel)
    (hP : (Nat.digits 10 (valN c (N + 1))).length ≤ P) (hPl : P ≤ ret.length) :
    decWhile fuel q c qLen ret ((P : Int) - 1) =
      some (ret.take (P - (Nat.digits 10 (valN c (N + 1))).length)
          ++ (Nat.digits 10 (valN c (N + 1))).reverse.map (· + 48) ++ ret.drop P,
        ((P - (Nat.digits 10 (valN c (N + 1))).length : Nat) : Int) - 1) := by
  induction fuel generalizing q c qLen ret P with
  | zero =>
    have hd : Nat.digits 10 (valN c (N + 1)) = [] := List.length_eq_zero.mp (by omega)
    have hq0 : qLen = 0 := by
      by_contra hne
      have := valN_pos_of_top c qLen (N + 1) (by omega) (by omega) (hct (by omega))
      rw [Nat.digits_def' (by decide) this] at hd
      cases hd
    subst hq0
    simp [decWhile, hd]
  | succ fuel ih =>
    rw [decWhile]
    by_cases hq0 : qLen = 0
    · subst hq0
      have hV : valN c (N + 1) = 0 := (valN_eq_zero_iff_getD c _).mpr fun j _ => hcz j (by omega)
      simp [hV]
    · have hpos : 0 < qLen := by omega
      rw [if_pos hpos]
      have hVpos := valN_pos_of_top c qLen (N + 1) hpos (by omega) (hct hpos)
      have hdig := Nat.digits_def' (b := 10) (by decide) hVpos
      obtain ⟨r1, r2, r3, r4, r5, r6, r7, r8, r9⟩ := decRound_spec N q c qLen hql hqz hcl hcb hqN hcz
      set r := decBytes qLen ({ quotient := q, cache := c, leadingZero := true }, qLen) with hr
      rw [hdig] at hf hP ⊢
      simp only [List.length_cons] at hf hP ⊢
      have hP1 : 1 ≤ P := by omega
      have hidx : (0 : Int) ≤ (P : Int) - 1 := by omega
      have htn : ((P : Int) - 1).toNat = P - 1 := by omega
      have hnext : (P : Int) - 1 - 1 = ((P - 1 : Nat) : Int) - 1 := by omega
      simp only [hidx, if_true, htn, hnext]
      have hzq : ∀ m, (r.1.cache.set 0 0).getD m 0 = 0 := by
        intro m
        by_cases hm : m = 0
        · subst hm
          rw [getD_set_eq _ _ _ (by rw [r3]; omega)]
        · rw [getD_set_ne _ _ _ _ (by omega)]
          exact r4 m (by omega)
      have hd1 : (r.1.cache.getD 0 0 + 48) % 256 = valN c (N + 1) % 10 + 48 := by
        rw [r6]; omega
      rw [hd1]
      rw [ih (r.1.cache.set 0 0) r.1.quotient r.2 (ret.set (P - 1) (valN c (N + 1) % 10 + 48))
        (P - 1) (by simp [r3]) hzq r1 r2 r7 r9 r8 (by rw [r5]; omega) (by rw [r5]; omega)
        (by simp; omega)]
      rw [r5]
      set D := Nat.digits 10 (valN c (N + 1) / 10) with hD
      have e1 : P - 1 - D.length = P - (D.length + 1) := by omega
      have e2 : List.take (P - (D.length + 1)) (ret.set (P - 1) (valN c (N + 1) % 10 + 48))
          = List.take (P - (D.length + 1)) ret :=
        take_set_of_le _ _ _ _ (by omega)
      have e3 : List.drop (P - 1) (ret.set (P - 1) (valN c (N + 1) % 10 + 48))
          = (valN c (N + 1) % 10 + 48) :: List.drop P ret := by
        rw [List.drop_eq_getElem_cons (by simp; omega), List.getElem_set_self,
          show P - 1 + 1 = P by omega, List.drop_set_of_lt _ _ (by omega)]
      rw [e1, e2, e3]
      simp [List.reverse_cons, List.map_append]

/-! ## `getDecimalString` -/

set_option exponentiation.threshold 100001 in
theorem two_pow_le_ten_pow : (2 : Nat) ^ 100000 ≤ 10 ^ 30103 := by decide

set_option exponentiation.threshold 100001 in
/-- The buffer bound of `getDecimalString` covers every `numLen`-byte value. -/
theorem pow_le_decLenBound (n : Nat) : 256 ^ n ≤ 10 ^ decLenBound n := by
  have h1 : ((256 : Nat) ^ n) ^ 12500 ≤ (10 ^ decLenBound n) ^ 12500 := by
    have e1 : ((256 : Nat) ^ n) ^ 12500 = (2 ^ 100000) ^ n := by
      rw [show (256 : Nat) = 2 ^ 8 by norm_num, ← pow_mul, ← pow_mul, ← pow_mul]
      congr 1; ring
    have e2 : ((10 : Nat) ^ decLenBound n) ^ 12500 = 10 ^ (12500 * decLenBound n) := by
      rw [← pow_mul]; congr 1; ring
    rw [e1, e2]
    calc (2 ^ 100000) ^ n ≤ (10 ^ 30103) ^ n := Nat.pow_le_pow_left two_pow_le_ten_pow n
      _ = 10 ^ (30103 * n) := by rw [← pow_mul]
      _ ≤ 10 ^ (12500 * decLenBound n) := by
        apply Nat.pow_le_pow_right (by decide)
        unfold decLenBound
        omega
  exact (Nat.pow_le_pow_iff_left (by decide)).mp h1

theorem digits_length_le_decLenBound (n V : Nat) (hV : V < 256 ^ n) :
    (Nat.digits 10 V).length ≤ decLenBound n := by
  rcases Nat.eq_zero_or_pos V with h0 | hpos
  · rw [h0]; simp
  · have h1 := Nat.base_pow_length_digits_le 10 V (by decide) (by omega)
    have h2 := pow_le_decLenBound n
    have h3 : 10 ^ (Nat.digits 10 V).length < 10 ^ (decLenBound n + 1) := by
      rw [pow_succ]; omega
    have := (Nat.pow_lt_pow_iff_right (by decide : 1 < 10)).mp h3
    omega

theorem copy_with_headroom (number : List Nat) (n : Nat) :
    memcpy ((allocZerosMem (n + 1)).set n 0) number n = number.take n ++ [0] := by
  simp [memcpy, allocZerosMem, List.drop_replicate]

theorem drop_replicate_append (K : Nat) (l : List Nat) :
    (List.replicate K 0 ++ l).drop K = l := by
  rw [List.drop_left' (by simp)]

theorem set_replicate_append (K v : Nat) (l : List Nat) (hK : 1 ≤ K) :
    ((List.replicate K 0 ++ l).set (K - 1) v).drop (K - 1) = v :: l := by
  obtain ⟨k, rfl⟩ : ∃ k, K = k + 1 := ⟨K - 1, by omega⟩
  rw [Nat.add_sub_cancel, List.replicate_succ', List.append_assoc]
  rw [List.set_append_right _ _ (by simp)]
  simp

theorem BigInt.getDecimalString_spec {x : BigInt} (hx : x.WF) :
    x.getDecimalString = some (decimalNumeral x.toInt) := by
  unfold BigInt.getDecimalString
  by_cases h0 : x.numLen = 0
  · rw [if_pos h0, BigInt.toInt_of_numLen_zero h0]; rfl
  rw [if_neg h0]
  obtain ⟨hl, hb, hn, ht⟩ := hx
  have hal : x.numLen ≤ x.number.length := hl ▸ hn
  have hmagpos : 0 < x.mag := by
    rcases Nat.eq_zero_or_pos x.mag with h | h
    · exact absurd ((valN_eq_zero_iff x.numLen ht).mp h) h0
    · exact h
  simp only [copy_with_headroom]
  set N := x.numLen with hN
  set c0 := x.number.take N ++ [0] with hc0
  have hc0l : c0.length = N + 1 := by simp [hc0]; omega
  have hc0b : Bytes c0 := (hb.take _).append (by intro y hy; simp at hy; omega)
  have hc0v : valN c0 (N + 1) = x.mag := by
    simp only [valN]
    rw [hc0, valN_append_left _ _ _ (by simp; omega), valN_take _ _ _ (le_refl _),
      getD_append_right _ _ _ (by simp)]
    simp [Nat.min_eq_left hal, BigInt.mag]
  have hc0z : ∀ m, N ≤ m → c0.getD m 0 = 0 := by
    intro m hm
    rw [hc0, getD_append_right _ _ _ (by simp only [List.length_take]; omega)]
    simp only [List.length_take, Nat.min_eq_left hal]
    by_cases hmN : m = N
    · rw [hmN]; simp
    · exact getD_ge _ _ (by simp only [List.length_singleton]; omega)
  have hc0t : 0 < N → c0.getD (N - 1) 0 ≠ 0 := by
    intro hpos
    rw [hc0, getD_append_left _ _ _ (by simp; omega), getD_take _ _ _ (by omega)]
    exact ht hpos
  have hlen := digits_length_le_decLenBound N x.mag (valN_lt hb N)
  have hq0l : (allocZerosMem (N + 1)).length = N + 1 := by simp [allocZerosMem]
  have hq0z : ∀ m, (allocZerosMem (N + 1)).getD m 0 = 0 := fun m => getD_replicate _ _
  have hnat : x.toInt.natAbs = x.mag := BigInt.natAbs_toInt x
  set B := decLenBound N with hB
  set len := (Nat.digits 10 x.mag).length with hlen'
  cases hneg : x.isNegative with
  | false =>
    simp only [Bool.false_eq_true, if_false]
    have e0 : (((B + 1 : Nat) : Int) - 2) = ((B : Nat) : Int) - 1 := by omega
    have e1 : (allocZerosMem (B + 1)).set (B + 1 - 1) 0 = List.replicate (B + 1) 0 := by
      simp [allocZerosMem]
    rw [e0, e1, decWhile_spec N (B + 1) _ c0 N _ B hq0l hq0z hc0l hc0b (le_refl _) hc0z hc0t
      (by rw [hc0v]; omega) (by rw [hc0v]; omega) (by simp)]
    rw [hc0v]
    simp only [Option.map_some']
    have e2 : (((B - len : Nat) : Int) - 1 + 1).toNat = B - len := by omega
    have e3 : (((B + 1 : Nat) : Int) - (((B - len : Nat) : Int) - 1 + 1)).toNat - 1 = len := by
      omega
    rw [e2, e3, List.take_replicate, Nat.min_eq_left (by omega), List.append_assoc,
      drop_replicate_append]
    have hne : x.toInt ≠ 0 := by
      intro h; rw [h] at hnat; simp at hnat; omega
    have hnn : ¬ x.toInt < 0 := by
      simp [BigInt.toInt, hneg]
    rw [List.take_left' (by simp [hlen'])]
    simp [decimalNumeral, hne, hnn, hnat]
  | true =>
    simp only [if_true]
    have e0 : (((B + 2 : Nat) : Int) - 2) = ((B + 1 : Nat) : Int) - 1 := by omega
    have e1 : (allocZerosMem (B + 2)).set (B + 2 - 1) 0 = List.replicate (B + 2) 0 := by
      simp [allocZerosMem]
    rw [e0, e1, decWhile_spec N (B + 2) _ c0 N _ (B + 1) hq0l hq0z hc0l hc0b (le_refl _) hc0z hc0t
      (by rw [hc0v]; omega) (by rw [hc0v]; omega) (by simp)]
    rw [hc0v]
    simp only [Option.map_some']
    have hK : 1 ≤ B + 1 - len := by omega
    have e4 : (0 : Int) ≤ ((B + 1 - len : Nat) : Int) - 1 := by omega
    have e5 : (((B + 1 - len : Nat) : Int) - 1).toNat = B + 1 - len - 1 := by omega
    have e2 : (((B + 1 - len : Nat) : Int) - 1 - 1 + 1).toNat = B + 1 - len - 1 := by omega
    have e3 : (((B + 2 : Nat) : Int) - (((B + 1 - len : Nat) : Int) - 1 - 1 + 1)).toNat - 1
        = len + 1 := by omega
    rw [if_pos e4, e2, e3, e5, List.take_replicate, Nat.min_eq_left (by omega), List.append_assoc,
      set_replicate_append _ _ _ hK]
    have hlt : x.toInt < 0 := by
      simp [BigInt.toInt, hneg]; omega
    have hne : x.toInt ≠ 0 := by omega
    rw [show len + 1 = (45 :: List.map (fun x => x + 48) (Nat.digits 10 x.mag).reverse).length by
      simp [hlen'], ← List.cons_append, List.take_left' rfl]
    simp [decimalNumeral, hne, hlt, hnat]

/-! ## `createFromDecimal` -/

theorem mul10Loop_spec (k j cache : Nat) (retVal : List Nat) (hb : Bytes retVal)
    (hc : cache ≤ 9) (hlen : j + k ≤ retVal.length) :
    (mul10Loop k j cache retVal).length = retVal.length ∧
    Bytes (mul10Loop k j cache retVal) ∧
    (∀ m, j + k ≤ m → (mul10Loop k j cache retVal).getD m 0 = retVal.getD m 0) ∧
    ∃ carry, valN (mul10Loop k j cache retVal) (j + k) + carry * 256 ^ (j + k) + 10 * valN retVal j
      = valN retVal j + cache * 256 ^ j + 10 * valN retVal (j + k) := by
  induction k generalizing j cache retVal with
  | zero => exact ⟨rfl, hb, fun _ _ => rfl, cache, by simp [mul10Loop]⟩
  | succ k ih =>
    have hbj := hb.getD_lt j
    simp only [mul10Loop]
    have e0 : retVal.getD j 0 % 65536 = retVal.getD j 0 := Nat.mod_eq_of_lt (by omega)
    have e1 : (cache + retVal.getD j 0 * 10) % 65536 = cache + retVal.getD j 0 * 10 :=
      Nat.mod_eq_of_lt (by omega)
    rw [e0, e1]
    set t := cache + retVal.getD j 0 * 10 with ht
    have hlen' : j + 1 + k ≤ (retVal.set j (t % 256)).length := by simp; omega
    obtain ⟨ihl, ihb, ihu, carry, ihv⟩ :=
      ih (j + 1) (t / 256) (retVal.set j (t % 256)) (hb.set j (Nat.mod_lt _ (by decide)))
        (by omega) hlen'
    refine ⟨by simpa using ihl, ihb, ?_, carry, ?_⟩
    · intro m hm
      rw [ihu m (by omega), getD_set_ne _ _ _ _ (by omega)]
    · have hv : valN (retVal.set j (t % 256)) (j + 1) = valN retVal j + (t % 256) * 256 ^ j := by
        simp only [valN]
        rw [valN_set_ge _ _ _ _ (le_refl _), getD_set_eq _ _ _ (by omega)]
      have hT := valN_set_lt retVal j (t % 256) (j + 1 + k) (by omega) (by omega)
      have hdm : (t % 256) * 256 ^ j + (t / 256) * 256 ^ (j + 1)
          = (cache + retVal.getD j 0 * 10) * 256 ^ j := by
        rw [← ht, pow_succ]
        have := Nat.mod_add_div t 256
        calc t % 256 * 256 ^ j + t / 256 * (256 ^ j * 256)
            = (t % 256 + 256 * (t / 256)) * 256 ^ j := by ring
          _ = t * 256 ^ j := by rw [this]
      have e3 : j + (k + 1) = j + 1 + k := by omega
      rw [e3]
      rw [hv] at ihv
      have hexp : (cache + retVal.getD j 0 * 10) * 256 ^ j
          = cache * 256 ^ j + 10 * (retVal.getD j 0 * 256 ^ j) := by ring
      linarith

/-- The multiply-by-10 pass over the whole buffer, when the product fits. -/
theorem mul10Loop_val (retLen : Nat) (retVal : List Nat) (hb : Bytes retVal)
    (hlen : retLen ≤ retVal.length) (hfit : 10 * valN retVal retLen < 256 ^ retLen) :
    (mul10Loop retLen 0 0 retVal).length = retVal.length ∧
    Bytes (mul10Loop retLen 0 0 retVal) ∧
    valN (mul10Loop retLen 0 0 retVal) retLen = 10 * valN retVal retLen := by
  obtain ⟨hl, hb', _, carry, hv⟩ := mul10Loop_spec retLen 0 0 retVal hb (by omega) (by omega)
  refine ⟨hl, hb', ?_⟩
  simp only [Nat.zero_add, valN, Nat.zero_mul, Nat.add_zero, Nat.mul_zero] at hv
  have hlt := valN_lt hb' retLen
  rcases Nat.eq_zero_or_pos carry with h0 | hpos
  · rw [h0] at hv; omega
  · have : 256 ^ retLen ≤ carry * 256 ^ retLen := Nat.le_mul_of_pos_left _ hpos
    omega

/-- `byteWiseAdditionNoCopy` with an output as long as the first operand: the
sum truncated to `len1` bytes, exact when it fits. -/
theorem byteWiseAdditionNoCopy_fit {cand1 cand2 : List Nat} (h1 : Bytes cand1)
    (h2 : Bytes cand2) (len1 len2 : Nat) (ret : List Nat)
    (hle : len2 ≤ len1) (hlen : len1 ≤ ret.length) (hb : Bytes ret)
    (hfit : valN cand1 len1 + valN cand2 len2 < 256 ^ len1) :
    (byteWiseAdditionNoCopy cand1 len1 cand2 len2 ret len1).length = ret.length ∧
    Bytes (byteWiseAdditionNoCopy cand1 len1 cand2 len2 ret len1) ∧
    valN (byteWiseAdditionNoCopy cand1 len1 cand2 len2 ret len1) len1
      = valN cand1 len1 + valN cand2 len2 := by
  unfold byteWiseAdditionNoCopy
  simp only [gt_iff_lt, lt_irrefl, if_false]
  obtain ⟨ac, al, ab, au, av⟩ := addLoop2_spec h1 h2 len2 0 0 ret (by omega) (by omega)
  rw [addLoop1_eq_addLoop2]
  have hnil : Bytes ([] : List Nat) := by intro x hx; simp at hx
  obtain ⟨bc, bl, bb, bu, bv⟩ := addLoop2_spec h1 hnil (len1 - len2) len2
    (addLoop2 cand1 cand2 len2 0 0 ret).1 (addLoop2 cand1 cand2 len2 0 0 ret).2 ac
    (by rw [al]; omega)
  have e : len2 + (len1 - len2) = len1 := by omega
  rw [e] at bv bu
  set s2 := addLoop2 cand1 [] (len1 - len2) len2 (addLoop2 cand1 cand2 len2 0 0 ret).1
    (addLoop2 cand1 cand2 len2 0 0 ret).2 with hs2
  have hnilv : ∀ n, valN ([] : List Nat) n = 0 := fun n => by
    simpa using valN_replicate 0 n
  have hb2 : Bytes s2.2 := bb (ab hb)
  refine ⟨by simp [bl, al], hb2, ?_⟩
  simp only [hnilv, valN, zero_add, Nat.zero_mul, Nat.add_zero, pow_zero] at av bv
  have hlt := valN_lt hb2 len1
  have hsum : valN s2.2 len1 + s2.1 * 256 ^ len1 = valN cand1 len1 + valN cand2 len2 := by
    linarith
  rcases Nat.eq_zero_or_pos s2.1 with h0 | hpos
  · rw [h0] at hsum; omega
  · have : 256 ^ len1 ≤ s2.1 * 256 ^ len1 := Nat.le_mul_of_pos_left _ hpos
    omega

theorem valN_singleton_one (d : Nat) : valN [d] 1 = d := by
  simp [valN]

/-- The character loop of `createFromDecimal` on digit characters: Horner
evaluation of the remaining digits on top of the value already in the buffer. -/
theorem parseLoop_spec (s : List Nat) (retLen : Nat) (rest : List Nat) (i : Nat)
    (retVal : List Nat) (hb : Bytes retVal) (hlen : retVal.length = retLen)
    (hpos : rest ≠ [] → 0 < retLen)
    (hrest : ∀ m, m < rest.length → s.getD (i + m) 0 = rest.getD m 0 + 48 ∧ rest.getD m 0 < 10)
    (hfit : (valN retVal retLen + 1) * 10 ^ rest.length ≤ 256 ^ retLen) :
    ∃ r, parseLoop s retLen rest.length i retVal = some r ∧ r.length = retLen ∧ Bytes r ∧
      valN r retLen = Nat.ofDigits 10 rest.reverse + 10 ^ rest.length * valN retVal retLen := by
  induction rest generalizing i retVal with
  | nil => exact ⟨retVal, rfl, hlen, hb, by simp⟩
  | cons c rest ih =>
    have hrl : 0 < retLen := hpos (by simp)
    obtain ⟨hc, hc10⟩ := hrest 0 (by simp)
    simp only [Nat.add_zero, List.getD_cons_zero] at hc hc10
    have hpow : 0 < 10 ^ rest.length := Nat.pow_pos (by decide)
    have hfit10 : (valN retVal retLen + 1) * 10 ≤ 256 ^ retLen := by
      have h1 : (valN retVal retLen + 1) * 10 * 1 ≤ (valN retVal retLen + 1) * 10 * 10 ^ rest.length :=
        Nat.mul_le_mul_left _ hpow
      have h2 : (valN retVal retLen + 1) * 10 * 10 ^ rest.length
          = (valN retVal retLen + 1) * 10 ^ (c :: rest).length := by
        simp only [List.length_cons, pow_succ]; ring
      omega
    obtain ⟨ml, mb, mv⟩ := mul10Loop_val retLen retVal hb (by omega) (by omega)
    have hd1 : Bytes [c] := by intro y hy; simp at hy; omega
    obtain ⟨al, ab, av⟩ := byteWiseAdditionNoCopy_fit mb hd1 retLen 1
      (mul10Loop retLen 0 0 retVal) (by omega) (by omega) mb
      (by rw [mv, valN_singleton_one]; omega)
    rw [mv, valN_singleton_one] at av
    have hdig : (s.getD i 0 + 256 - 48) % 256 = c := by rw [hc]; omega
    simp only [List.length_cons, parseLoop, hdig, ge_iff_le]
    rw [if_neg (by omega)]
    obtain ⟨r, hr, hrl', hrb, hrv⟩ := ih (i + 1)
      (byteWiseAdditionNoCopy (mul10Loop retLen 0 0 retVal) retLen [c] 1
        (mul10Loop retLen 0 0 retVal) retLen)
      ab (by rw [al, ml, hlen]) (fun _ => hrl)
      (by
        intro m hm
        have := hrest (m + 1) (by simp; omega)
        simp only [List.getD_cons_succ] at this
        rw [show i + 1 + m = i + (m + 1) by omega]
        exact this)
      (by
        rw [av]
        have h2 : (10 * valN retVal retLen + c + 1) * 10 ^ rest.length
            ≤ ((valN retVal retLen + 1) * 10) * 10 ^ rest.length :=
          Nat.mul_le_mul_right _ (by omega)
        have h3 : (valN retVal retLen + 1) * 10 * 10 ^ rest.length
            = (valN retVal retLen + 1) * 10 ^ (c :: rest).length := by
          simp only [List.length_cons, pow_succ]; ring
        omega)
    refine ⟨r, hr, hrl', hrb, ?_⟩
    rw [hrv, av, List.reverse_cons, Nat.ofDigits_append, Nat.ofDigits_singleton,
      List.length_reverse, pow_succ]
    ring

theorem ten_pow_le_capacity (d : Nat) : 10 ^ d ≤ 256 ^ ((d + 1) / 2) := by
  calc 10 ^ d ≤ 10 ^ (2 * ((d + 1) / 2)) := Nat.pow_le_pow_right (by decide) (by omega)
    _ = 100 ^ ((d + 1) / 2) := by rw [pow_mul]; rfl
    _ ≤ 256 ^ ((d + 1) / 2) := Nat.pow_le_pow_left (by decide) _

theorem getD_map_sub (ds : List Nat) (m : Nat) :
    (ds.map (· - 48)).getD m 0 = ds.getD m 0 - 48 := by
  induction ds generalizing m with
  | nil => simp
  | cons c ds ih =>
    cases m with
    | zero => simp
    | succ m => simpa using ih m

/-- The character loop on a run of digit characters starting from the zeroed
buffer: the buffer ends up holding the number the digits spell. -/
theorem parseLoop_digits (s ds : List Nat) (start : Nat)
    (hds : ∀ c ∈ ds, 48 ≤ c ∧ c ≤ 57)
    (hget : ∀ m, m < ds.length → s.getD (start + m) 0 = ds.getD m 0) :
    ∃ r, parseLoop s ((ds.length + 1) / 2) ds.length start (allocZerosMem ((ds.length + 1) / 2))
        = some r ∧ r.length = (ds.length + 1) / 2 ∧ Bytes r ∧
      valN r ((ds.length + 1) / 2) = Nat.ofDigits 10 (ds.map (· - 48)).reverse := by
  have h := parseLoop_spec s ((ds.length + 1) / 2) (ds.map (· - 48)) start
    (allocZerosMem ((ds.length + 1) / 2)) (Bytes.replicate _) (by simp [allocZerosMem])
    (by
      intro hne
      have : 0 < ds.length := by
        cases ds with
        | nil => simp at hne
        | cons _ _ => simp
      omega)
    (by
      intro m hm
      rw [List.length_map] at hm
      have hmem : ds.getD m 0 ∈ ds := by
        rw [List.getD_eq_getElem _ _ hm]; exact List.getElem_mem _
      have := hds _ hmem
      rw [hget m hm, getD_map_sub]
      omega)
    (by
      rw [List.length_map]
      have : valN (allocZerosMem ((ds.length + 1) / 2)) ((ds.length + 1) / 2) = 0 :=
        valN_replicate _ _
      rw [this]
      simpa using ten_pow_le_capacity ds.length)
  rw [List.length_map] at h
  obtain ⟨r, hr, hl, hb, hv⟩ := h
  refine ⟨r, hr, hl, hb, ?_⟩
  rw [hv]
  have : valN (allocZerosMem ((ds.length + 1) / 2)) ((ds.length + 1) / 2) = 0 :=
    valN_replicate _ _
  rw [this]; simp

/-- The canonical digits of the number a digit string spells are the string
without its leading zeros. -/
theorem digits_strip (ds : List Nat) (hds : ∀ c ∈ ds, 48 ≤ c ∧ c ≤ 57) :
    (Nat.ofDigits 10 (ds.map (· - 48)).reverse = 0 ↔ ds.dropWhile (· = 48) = []) ∧
    (Nat.digits 10 (Nat.ofDigits 10 (ds.map (· - 48)).reverse)).reverse.map (· + 48)
      = ds.dropWhile (· = 48) := by
  induction ds with
  | nil => simp
  | cons c ds ih =>
    have hc := hds c (by simp)
    by_cases h48 : c = 48
    · subst h48
      have := ih (fun c hc => hds c (by simp [hc]))
      simpa [List.dropWhile, Nat.ofDigits_append] using this
    · have hL : Nat.digits 10 (Nat.ofDigits 10 ((c :: ds).map (· - 48)).reverse)
          = ((c :: ds).map (· - 48)).reverse := by
        apply Nat.digits_ofDigits 10 (by decide)
        · intro l hl
          simp only [List.mem_reverse, List.mem_map] at hl
          obtain ⟨a, ha, rfl⟩ := hl
          have := hds a ha
          omega
        · intro _
          simp only [List.map_cons, List.reverse_cons]
          rw [List.getLast_append_singleton]
          omega
      have hdw : (c :: ds).dropWhile (· = 48) = c :: ds := by
        simp [List.dropWhile, h48]
      rw [hL, hdw]
      constructor
      · constructor
        · intro h0
          rw [h0] at hL
          simp at hL
        · intro h; simp at h
      · rw [List.reverse_reverse, List.map_map]
        have : ∀ a ∈ (c :: ds), ((· + 48) ∘ (· - 48)) a = id a := by
          intro a ha
          have := hds a ha
          simp only [Function.comp, id]
          omega
        rw [List.map_congr_left this, List.map_id]

theorem strlen_eq_length (s : List Nat) (h : ∀ c ∈ s, c ≠ 0) : strlen s = s.length := by
  unfold strlen
  rw [List.takeWhile_eq_self_iff.mpr (by simpa using h)]

/-- What `createFromDecimal` builds from a valid literal: a well-formed value
denoting the number the digits spell, negated under a leading `-`. -/
theorem BigInt.createFromDecimal_valid (s : List Nat) (h : ValidLiteral s) :
    (BigInt.createFromDecimal s).WF ∧
    (BigInt.createFromDecimal s).toInt
      = if s.head? = some 45
        then -((Nat.ofDigits 10 ((literalDigits s).map (· - 48)).reverse : Nat) : Int)
        else ((Nat.ofDigits 10 ((literalDigits s).map (· - 48)).reverse : Nat) : Int) := by
  obtain ⟨hne, hds⟩ := h
  cases s with
  | nil => simp [literalDigits] at hne
  | cons c t =>
    by_cases hc : c = 45
    · subst hc
      have hld : literalDigits (45 :: t) = t := by simp [literalDigits]
      rw [hld] at hne hds ⊢
      have hlen : strlen (45 :: t) = t.length + 1 := by
        rw [strlen_eq_length]
        · simp
        · intro c hc
          simp only [List.mem_cons] at hc
          rcases hc with rfl | hc
          · decide
          · have := hds c hc; omega
      obtain ⟨r, hr, hl, hb, hv⟩ := parseLoop_digits (45 :: t) t 1 hds (by
        intro m _
        rw [show 1 + m = m + 1 by omega]; simp)
      have e : BigInt.createFromDecimal (45 :: t) = BigInt.ofBuffer r true ((t.length + 1) / 2) := by
        simp only [BigInt.createFromDecimal, BigInt.createFromDecimalLen, createFromDecimalRaw,
          hlen]
        simp [hr]
      rw [e]
      refine ⟨BigInt.ofBuffer_WF _ hl hb, ?_⟩
      rw [BigInt.ofBuffer_toInt, hv]
      simp
    · have hld : literalDigits (c :: t) = c :: t := by simp [literalDigits, hc]
      rw [hld] at hne hds ⊢
      have hlen : strlen (c :: t) = t.length + 1 := by
        rw [strlen_eq_length]
        · simp
        · intro a ha
          have := hds a ha; omega
      obtain ⟨r, hr, hl, hb, hv⟩ := parseLoop_digits (c :: t) (c :: t) 0 hds (by
        intro m _
        rw [Nat.zero_add])
      simp only [List.length_cons] at hr hl hv
      have e : BigInt.createFromDecimal (c :: t)
          = BigInt.ofBuffer r false ((t.length + 1 + 1) / 2) := by
        simp only [BigInt.createFromDecimal, BigInt.createFromDecimalLen, createFromDecimalRaw,
          hlen]
        simp [hc, hr]
      rw [e]
      refine ⟨BigInt.ofBuffer_WF _ hl hb, ?_⟩
      rw [BigInt.ofBuffer_toInt, hv]
      simp [hc]

/-- The canonical numeral of the number a valid literal spells is the
normalized literal. -/
theorem decimalNumeral_eq_normalize (s : List Nat) (h : ValidLiteral s) :
    decimalNumeral (if s.head? = some 45
        then -((Nat.ofDigits 10 ((literalDigits s).map (· - 48)).reverse : Nat) : Int)
        else ((Nat.ofDigits 10 ((literalDigits s).map (· - 48)).reverse : Nat) : Int))
      = normalize s := by
  obtain ⟨_, hds⟩ := h
  obtain ⟨hz, hd⟩ := digits_strip (literalDigits s) hds
  unfold decimalNumeral normalize
  simp only
  set V := Nat.ofDigits 10 ((literalDigits s).map (· - 48)).reverse with hV
  by_cases hV0 : V = 0
  · have := hz.mp hV0
    simp [hV0, this]
  · have hst : ¬ (literalDigits s).dropWhile (· = 48) = [] := fun h => hV0 (hz.mpr h)
    by_cases hneg : s.head? = some 45
    · simp only [hneg, if_true]
      have h1 : ¬ (-(V : Int) = 0) := by omega
      have h2 : -(V : Int) < 0 := by omega
      rw [if_neg h1, if_pos h2, if_neg hst, Int.natAbs_neg, Int.natAbs_ofNat, hd]
      rfl
    · simp only [hneg, if_false]
      have h1 : ¬ ((V : Int) = 0) := by omega
      have h2 : ¬ ((V : Int) < 0) := by omega
      rw [if_neg h1, if_neg h2, if_neg hst, Int.natAbs_ofNat, hd]
      rfl

/-- Parsing a valid literal and printing the result gives the normalized literal. -/
theorem BigInt.roundtrip_valid (s : List Nat) (h : ValidLiteral s) :
    (BigInt.createFromDecimal s).getDecimalString = some (normalize s) := by
  obtain ⟨hwf, hto⟩ := BigInt.createFromDecimal_valid s h
  rw [BigInt.getDecimalString_spec hwf, hto, decimalNumeral_eq_normalize s h]

/-! ## Square root, primality, text codec and assignment: the claims -/

/-- Claim C11 (fails on the code): `sqrt` reads `sqrtCache[sqrtHexLen + 1]`, one
byte past the buffer, and from four significant bytes on that byte reaches the
comparison. For `x = 100000000` the result is the floor square root `10000`
when the byte is 0 and `9984` when it is 1, and `9984` does not satisfy
`x < (r + 1) * (r + 1)`. -/
theorem BigInt.sqrt_reads_past_sqrtCache :
    (BigInt.ofInt32 100000000).WF ∧ (BigInt.ofInt32 100000000).toInt = 100000000 ∧
    ((BigInt.ofInt32 100000000).sqrt false 0).toInt = 10000 ∧
    ((BigInt.ofInt32 100000000).sqrt false 1).toInt = 9984 ∧
    ¬ ((BigInt.ofInt32 100000000).toInt
        < (((BigInt.ofInt32 100000000).sqrt false 1).toInt + 1)
          * (((BigInt.ofInt32 100000000).sqrt false 1).toInt + 1)) := by
  refine ⟨by decide, by decide, by decide, by decide, by decide⟩

/-- Claim C12 (fails on the code): `65521` is prime, and `isPrime` returns
false on it once its loop is given room to finish. The loop compares the
candidate with the one-byte limit `255` on `bi.numLen = 1` bytes only, so the
candidates run on past the limit until `65521` divides itself. -/
theorem BigInt.isPrime_rejects_prime (fuel : Nat) :
    (BigInt.ofInt32 65521).WF ∧ (BigInt.ofInt32 65521).toInt = 65521 ∧ Nat.Prime 65521 ∧
    (BigInt.ofInt32 65521).isPrime 0 (32760 + fuel) = some false :=
  ⟨by decide, by decide, prime_65521, isPrime_65521 _ (by omega)⟩

/-- Claim C13 (fails on the code): `-7` denotes an integer below 2 and
`isPrime` returns true on it. No branch of `isPrime` tests the sign flag, and
the square root that bounds the trial division is taken of the magnitude. -/
theorem BigInt.isPrime_negative_seven :
    (BigInt.ofInt32 (-7)).WF ∧ (BigInt.ofInt32 (-7)).toInt = -7 ∧
    (BigInt.ofInt32 (-7)).isPrime 0 1 = some true := by
  refine ⟨by decide, by decide, by decide⟩

/-- The guards of `isPrime` for zero and one: on every well-formed BigInt of
magnitude below 2 (under either sign flag) `isPrime` returns false, whatever
the stray byte and the loop bound. -/
theorem BigInt.isPrime_of_mag_lt_two (n : BigInt) (junk fuel : Nat) (hn : n.WF)
    (h : n.mag < 2) : n.isPrime junk fuel = some false := by
  unfold BigInt.isPrime
  by_cases h0 : n.numLen = 0
  · rw [if_pos h0]
  · rw [if_neg h0]
    obtain ⟨_, hb, _, ht⟩ := hn
    have hge := valN_ge_of_top n.numLen (by omega) (ht (by omega))
    have hmag : valN n.number n.numLen < 2 := h
    have h1 : n.numLen = 1 := by
      by_contra hne
      have : 256 ^ 1 ≤ 256 ^ (n.numLen - 1) := Nat.pow_le_pow_right (by decide) (by omega)
      omega
    have hv : valN n.number 1 = n.number.getD 0 0 := by simp [valN]
    rw [h1] at hmag ht
    have hne := ht (by decide)
    simp only [Nat.sub_self] at hne
    rw [if_pos ⟨h1, by omega⟩]

/-- The guard of `isPrime` for magnitude one, at `-1`. -/
theorem BigInt.isPrime_of_mag_lt_two_witness :
    (BigInt.ofInt32 (-1)).WF ∧ (BigInt.ofInt32 (-1)).mag < 2 ∧
    (BigInt.ofInt32 (-1)).isPrime 0 0 = some false :=
  ⟨by decide, by decide, BigInt.isPrime_of_mag_lt_two _ 0 0 (by decide) (by decide)⟩

/-- Division by a well-formed zero: for every `a` and every well-formed
divisor `b` of zero magnitude (so `b.numLen = 0`), the `divi > *this`
short-circuit of `divisionUtil` is not taken and the division-by-zero branch
is reached, so neither `a / b` nor `a % b` returns a value. -/
theorem BigInt.div_mod_by_zero (a b : BigInt) (hb : b.WF) (h0 : b.mag = 0) :
    b.absGreater a = false ∧ a.divisionUtil b true = none ∧ a.divisionUtil b false = none ∧
    a.div b = none ∧ a.mod b = none := by
  have hn : b.numLen = 0 := hb.mag_eq_zero_iff.mp h0
  have h1 := BigInt.divisionUtil_of_numLen_zero a b hn true
  have h2 := BigInt.divisionUtil_of_numLen_zero a b hn false
  refine ⟨BigInt.absGreater_of_numLen_zero a b hn, h1, h2, ?_, ?_⟩
  · unfold BigInt.div; rw [h1]; rfl
  · unfold BigInt.mod; rw [h2]; rfl

/-- Division by a well-formed zero at `0 / 0` and `0 % 0`. -/
theorem BigInt.div_mod_by_zero_witness :
    BigInt.zero.WF ∧ BigInt.zero.mag = 0 ∧
    (BigInt.zero.absGreater BigInt.zero = false ∧
      BigInt.zero.divisionUtil BigInt.zero true = none ∧
      BigInt.zero.divisionUtil BigInt.zero false = none ∧
      BigInt.zero.div BigInt.zero = none ∧ BigInt.zero.mod BigInt.zero = none) :=
  ⟨by decide, by decide, BigInt.div_mod_by_zero _ _ (by decide) (by decide)⟩

/-- Claim C15: for every valid signed decimal literal `s`,
`getDecimalString (createFromDecimal s)` returns `normalize s`. -/
theorem BigInt.createFromDecimal_getDecimalString (s : List Nat) (h : ValidLiteral s) :
    (BigInt.createFromDecimal s).getDecimalString = some (normalize s) :=
  BigInt.roundtrip_valid s h

/-- Witness for C15 at `"-007"`, which normalizes to `"-7"`. -/
theorem BigInt.createFromDecimal_getDecimalString_witness :
    ValidLiteral [45, 48, 48, 55] ∧ normalize [45, 48, 48, 55] = [45, 55] ∧
    (BigInt.createFromDecimal [45, 48, 48, 55]).getDecimalString
      = some (normalize [45, 48, 48, 55]) :=
  ⟨by decide, by decide, BigInt.createFromDecimal_getDecimalString _ (by decide)⟩

/-- Claim C16 (fails on the code): `x = 5 - 5` is well-formed with zero
magnitude and `isNegative = true`; `getDecimalString x` is `"0"`, which parses
to a zero with `isNegative = false`, and `operator==` reports the two unequal. -/
theorem BigInt.roundtrip_negative_zero :
    ((BigInt.ofInt32 5).sub (BigInt.ofInt32 5)).WF ∧
    ((BigInt.ofInt32 5).sub (BigInt.ofInt32 5)).getDecimalString = some [48] ∧
    (BigInt.createFromDecimal [48]).eq ((BigInt.ofInt32 5).sub (BigInt.ofInt32 5)) = false := by
  refine ⟨by decide, by decide, by decide⟩

/-- Claim C17: for every well-formed BigInt `x`, `getDecimalString` returns the
canonical base-10 numeral of the integer `x` denotes. -/
theorem BigInt.getDecimalString_canonical (x : BigInt) (hx : x.WF) :
    x.getDecimalString = some (decimalNumeral x.toInt) :=
  BigInt.getDecimalString_spec hx

/-- Witness for C17 at `-1234`. -/
theorem BigInt.getDecimalString_canonical_witness :
    (BigInt.ofInt32 (-1234)).WF ∧ (BigInt.ofInt32 (-1234)).toInt = -1234 ∧
    (BigInt.ofInt32 (-1234)).getDecimalString
      = some (decimalNumeral (BigInt.ofInt32 (-1234)).toInt) :=
  ⟨by decide, by decide, BigInt.getDecimalString_canonical _ (by decide)⟩

/-- Counterexample to C18: `"12a"` contains a character that is not a digit,
and `createFromDecimal` returns a value, the zero BigInt, which `operator==`
reports equal to the parse of `"0"` and which prints as `"0"`. -/
theorem BigInt.createFromDecimal_invalid_example :
    BigInt.createFromDecimal [49, 50, 97] = BigInt.zero ∧
    (BigInt.createFromDecimal [49, 50, 97]).eq (BigInt.createFromDecimal [48]) = true ∧
    (BigInt.createFromDecimal [49, 50, 97]).getDecimalString
      = (BigInt.createFromDecimal [48]).getDecimalString := by
  refine ⟨by decide, by decide, by decide⟩

/-- Claim C18 as amended: for every input string that contains, before its
terminating NUL, a character other than a decimal digit (apart from a `-` in
first position), `createFromDecimal` returns the zero BigInt: empty buffer,
`numLen = 0`, `isNegative = false`. -/
theorem BigInt.createFromDecimal_invalid_is_zero (s : List Nat) (hs : Bytes s)
    (h : ∃ p, (if s.getD 0 0 = 45 then 1 else 0) ≤ p ∧ p < strlen s ∧
      ¬ (48 ≤ s.getD p 0 ∧ s.getD p 0 ≤ 57)) :
    BigInt.createFromDecimal s = BigInt.zero := by
  unfold BigInt.createFromDecimal BigInt.createFromDecimalLen
  rw [createFromDecimalRaw_invalid s hs _ h]
  rfl

/-- Witness for the amended C18 at `"-1x"`. -/
theorem BigInt.createFromDecimal_invalid_is_zero_witness :
    Bytes [45, 49, 120] ∧
    (∃ p, (if [45, 49, 120].getD 0 0 = 45 then 1 else 0) ≤ p ∧ p < strlen [45, 49, 120] ∧
      ¬ (48 ≤ [45, 49, 120].getD p 0 ∧ [45, 49, 120].getD p 0 ≤ 57)) ∧
    BigInt.createFromDecimal [45, 49, 120] = BigInt.zero :=
  ⟨by decide, ⟨2, by decide, by decide, by decide⟩,
    BigInt.createFromDecimal_invalid_is_zero _ (by decide) ⟨2, by decide, by decide, by decide⟩⟩

/-- Claim C19 (fails on the code): `x = BigInt(5)` has `byteLen = 4`, which is
the `numLen` of `y = BigInt(16777216)`, so `x = y` copies the four bytes and
leaves `numLen = 1`: afterwards `x` denotes 0 and `operator==` reports `x`
different from `y`. -/
theorem BigInt.assign_keeps_numLen :
    (BigInt.ofInt32 5).WF ∧ (BigInt.ofInt32 16777216).WF ∧
    ((BigInt.ofInt32 5).assign (BigInt.ofInt32 16777216)).numLen = 1 ∧
    ((BigInt.ofInt32 5).assign (BigInt.ofInt32 16777216)).toInt = 0 ∧
    ((BigInt.ofInt32 5).assign (BigInt.ofInt32 16777216)).eq (BigInt.ofInt32 16777216)
      = false := by
  refine ⟨by decide, by decide, by decide, by decide, by decide⟩

/-- Claim C20 (fails on the code): for `x = -100000000`, `sqrt(false)` returns
the canonical zero, as claimed, and `sqrt(true)` returns a non-negative value
that is the floor square root `10000` of `|x|` when the byte read past
`sqrtCache` is 0 and `9984` when it is 1. -/
theorem BigInt.sqrt_negative_stray_byte :
    (BigInt.ofInt32 (-100000000)).WF ∧ (BigInt.ofInt32 (-100000000)).toInt = -100000000 ∧
    (BigInt.ofInt32 (-100000000)).sqrt false 1 = BigInt.zero ∧
    ((BigInt.ofInt32 (-100000000)).sqrt true 0).toInt = 10000 ∧
    ((BigInt.ofInt32 (-100000000)).sqrt true 1).toInt = 9984 ∧
    ((BigInt.ofInt32 (-100000000)).sqrt true 1).isNegative = false := by
  refine ⟨by decide, by decide, by decide, by decide, by decide, by decide⟩

/-! ## Shifts -/

theorem valN_pred (a : List Nat) (m : Nat) (hm : 1 ≤ m) :
    valN a m = valN a (m - 1) + a.getD (m - 1) 0 * 256 ^ (m - 1) := by
  obtain ⟨m', rfl⟩ : ∃ m', m = m' + 1 := ⟨m - 1, by omega⟩
  simp only [Nat.add_sub_cancel, valN]

theorem valN_set_top (r : List Nat) (m v : Nat) (hm : 1 ≤ m) (hl : m ≤ r.length) :
    valN (r.set (m - 1) v) m = valN r (m - 1) + v * 256 ^ (m - 1) := by
  rw [valN_pred _ _ hm, valN_set_ge _ _ _ _ (le_refl _), getD_set_eq _ _ _ (by omega)]

theorem shr_byte_arith (c d s : Nat) (hs : s < 8) (hc : c < 256) :
    ((c / 2 ^ s + d * 2 ^ (8 - s)) % 256) * 2 ^ s + c % 2 ^ s = c + (d % 2 ^ s) * 256 := by
  interval_cases s <;> simp <;> omega

theorem shrLoop_spec {cand1 : List Nat} (hb : Bytes cand1) (B s : Nat) (hs : s < 8)
    (k j : Nat) (ret : List Nat) (hlen : j + k ≤ ret.length) :
    (shrLoop cand1 B s k (B + j) ret).length = ret.length ∧
    (Bytes ret → Bytes (shrLoop cand1 B s k (B + j) ret)) ∧
    (∀ p, p < j ∨ j + k ≤ p → (shrLoop cand1 B s k (B + j) ret).getD p 0 = ret.getD p 0) ∧
    valN (shrLoop cand1 B s k (B + j) ret) (j + k) * 2 ^ s
        + (cand1.getD (B + j) 0 % 2 ^ s) * 256 ^ j + valN (cand1.drop B) j
      = valN ret j * 2 ^ s + valN (cand1.drop B) (j + k)
        + (cand1.getD (B + j + k) 0 % 2 ^ s) * 256 ^ (j + k) := by
  induction k generalizing j ret with
  | zero => simp [shrLoop]; omega
  | succ k ih =>
    simp only [shrLoop]
    have hc := hb.getD_lt (B + j)
    have har := shr_byte_arith _ (cand1.getD (B + j + 1) 0) s hs hc
    have e0 : B + j - B = j := by omega
    rw [e0]
    set v := (cand1.getD (B + j) 0 / 2 ^ s + cand1.getD (B + j + 1) 0 * 2 ^ (8 - s)) % 256 with hv
    have hl2 : (ret.set j v).length = ret.length := by simp
    obtain ⟨il, ib, iu, iv⟩ := ih (j + 1) (ret.set j v) (by rw [hl2]; omega)
    have e1 : B + (j + 1) = B + j + 1 := by omega
    rw [e1] at il ib iu iv
    refine ⟨by rw [il, hl2], ?_, ?_, ?_⟩
    · intro hr
      exact ib (hr.set _ (Nat.mod_lt _ (by decide)))
    · intro p hp
      rw [iu p (by omega), getD_set_ne _ _ _ _ (by omega)]
    · have e2 : j + 1 + k = j + (k + 1) := by omega
      have e3 : B + j + 1 + k = B + j + (k + 1) := by omega
      rw [e2, e3] at iv
      have hv2 : valN (ret.set j v) (j + 1) = valN ret j + v * 256 ^ j := by
        simp only [valN]
        rw [valN_set_ge _ _ _ _ (le_refl _), getD_set_eq _ _ _ (by omega)]
      have hc2 : valN (cand1.drop B) (j + 1)
          = valN (cand1.drop B) j + cand1.getD (B + j) 0 * 256 ^ j := by
        simp only [valN, getD_drop]
      rw [hv2, hc2] at iv
      have hmul : (v * 2 ^ s + cand1.getD (B + j) 0 % 2 ^ s) * 256 ^ j
          = (cand1.getD (B + j) 0 + (cand1.getD (B + j + 1) 0 % 2 ^ s) * 256) * 256 ^ j := by
        rw [har]
      simp only [pow_succ] at iv hmul ⊢
      linarith

/-- The right branch of `shiftBits` for an offset that leaves at least one
byte: the input divided by `2 ^ offset`, in `len1 - offset / 8` bytes. -/
theorem shiftBits_neg {cand1 : List Nat} (hb : Bytes cand1) (offset len1 : Nat)
    (hpos : 0 < offset) (hlt : offset / 8 < len1) :
    (shiftBits (-(offset : Int)) cand1 len1).2 = ((len1 - offset / 8 : Nat) : Int) ∧
    (shiftBits (-(offset : Int)) cand1 len1).1.length = len1 - offset / 8 ∧
    Bytes (shiftBits (-(offset : Int)) cand1 len1).1 ∧
    valN (shiftBits (-(offset : Int)) cand1 len1).1 (len1 - offset / 8)
      = valN cand1 len1 / 2 ^ offset := by
  have hp : ¬ (-(offset : Int) > 0) := by omega
  have hn : -(offset : Int) < 0 := by omega
  have e1 : (-(-(offset : Int))).toNat = offset := by omega
  have e2 : ((len1 : Int) - ((offset / 8 : Nat) : Int)).toNat = len1 - offset / 8 := by omega
  have e3 : ((len1 : Int) - ((offset / 8 : Nat) : Int)) = ((len1 - offset / 8 : Nat) : Int) := by
    omega
  simp only [shiftBits, hp, hn, if_true, if_false, e1]
  rw [if_pos (by omega)]
  set B := offset / 8 with hB
  set s := offset % 8 with hs'
  have hs : s < 8 := Nat.mod_lt _ (by decide)
  set m := len1 - B with hm
  have hmpos : 1 ≤ m := by omega
  have e4 : ((len1 : Int) - (B : Int)).toNat = m := by omega
  rw [e4]
  obtain ⟨l, b, _, v⟩ := shrLoop_spec hb B s hs (len1 - 1 - B) 0 (allocZerosMem m)
    (by simp [allocZerosMem]; omega)
  simp only [Nat.add_zero, Nat.zero_add] at l b v
  set r := shrLoop cand1 B s (len1 - 1 - B) B (allocZerosMem m) with hr
  have hrl : r.length = m := by rw [l]; simp [allocZerosMem]
  have hrb : Bytes r := b (Bytes.replicate _)
  have hct := hb.getD_lt (len1 - 1)
  have htop : cand1.getD (len1 - 1) 0 / 2 ^ s % 256 = cand1.getD (len1 - 1) 0 / 2 ^ s :=
    Nat.mod_eq_of_lt (lt_of_le_of_lt (Nat.div_le_self _ _) hct)
  refine ⟨by omega, by simp [hrl], hrb.set _ (Nat.mod_lt _ (by decide)), ?_⟩
  have em : len1 - B - 1 = m - 1 := by omega
  have ek : len1 - 1 - B = m - 1 := by omega
  have eB : B + (m - 1) = len1 - 1 := by omega
  rw [em, htop]
  rw [ek, eB] at v
  have hvr : valN (r.set (m - 1) (cand1.getD (len1 - 1) 0 / 2 ^ s)) m
      = valN r (m - 1) + cand1.getD (len1 - 1) 0 / 2 ^ s * 256 ^ (m - 1) :=
    valN_set_top _ _ _ hmpos (by omega)
  have hcm : valN (cand1.drop B) m
      = valN (cand1.drop B) (m - 1) + cand1.getD (len1 - 1) 0 * 256 ^ (m - 1) := by
    rw [valN_pred _ _ hmpos, getD_drop, eB]
  have hV : valN cand1 len1 = valN cand1 B + 256 ^ B * valN (cand1.drop B) m := by
    rw [← valN_add]; congr 1; omega
  have hlow := valN_lt hb B
  have hdm := Nat.div_add_mod (cand1.getD (len1 - 1) 0) (2 ^ s)
  have hz : valN (allocZerosMem m) 0 = 0 := rfl
  have hz2 : valN (cand1.drop B) 0 = 0 := rfl
  simp only [hz, hz2, pow_zero, Nat.zero_mul, Nat.mul_one, Nat.add_zero, Nat.zero_add] at v
  have hfin : valN (r.set (m - 1) (cand1.getD (len1 - 1) 0 / 2 ^ s)) m * 2 ^ s
      + cand1.getD B 0 % 2 ^ s = valN (cand1.drop B) m := by
    rw [hvr, hcm]
    have hmul : (2 ^ s * (cand1.getD (len1 - 1) 0 / 2 ^ s) + cand1.getD (len1 - 1) 0 % 2 ^ s)
        * 256 ^ (m - 1) = cand1.getD (len1 - 1) 0 * 256 ^ (m - 1) := by rw [hdm]
    linarith
  have hpow : (2 : Nat) ^ offset = 256 ^ B * 2 ^ s := by
    have : (256 : Nat) = 2 ^ 8 := by norm_num
    rw [this, ← pow_mul, ← pow_add]
    congr 1
    have := Nat.div_add_mod offset 8
    omega
  have h256 : 0 < 256 ^ B := Nat.pow_pos (by decide)
  have h2s : 0 < 2 ^ s := Nat.pow_pos (by decide)
  have hr2 : cand1.getD B 0 % 2 ^ s < 2 ^ s := Nat.mod_lt _ h2s
  rw [hpow, ← Nat.div_div_eq_div_mul, hV]
  have q1 : (valN cand1 B + 256 ^ B * valN (cand1.drop B) m) / 256 ^ B
      = valN (cand1.drop B) m := by
    rw [Nat.add_mul_div_left _ _ h256, Nat.div_eq_of_lt hlow, Nat.zero_add]
  rw [q1, ← hfin]
  rw [Nat.add_comm, Nat.add_mul_div_right _ _ h2s, Nat.div_eq_of_lt hr2, Nat.zero_add]

theorem BigInt.copy_isNegative (a : BigInt) : a.copy.isNegative = a.isNegative := rfl

/-- `operator<<` on a well-formed value and a non-negative bit count. -/
theorem BigInt.shl_spec {x : BigInt} (hx : x.WF) (n : Nat) :
    (x.shl (n : Int)).WF ∧ (x.shl (n : Int)).mag = x.mag * 2 ^ n ∧
    (x.shl (n : Int)).isNegative = x.isNegative := by
  unfold BigInt.shl
  by_cases h0 : n = 0
  · subst h0
    rw [if_pos (Or.inl (by simp))]
    exact ⟨hx.copy, by rw [BigInt.copy_mag]; simp, rfl⟩
  by_cases hz : x.numLen = 0
  · rw [if_pos (Or.inr hz)]
    refine ⟨hx.copy, ?_, rfl⟩
    rw [BigInt.copy_mag, BigInt.mag_of_numLen_zero hz]; simp
  · rw [if_neg (by
      intro h
      rcases h with h | h
      · omega
      · exact hz h)]
    obtain ⟨e2, l, b, v⟩ := shiftBits_pos hx.bytes n x.numLen (by omega)
    simp only [e2, Int.toNat_ofNat]
    exact ⟨BigInt.ofBuffer_WF _ l b, by rw [BigInt.ofBuffer_mag, v]; rfl, rfl⟩

theorem BigInt.shl_toInt {x : BigInt} (hx : x.WF) (n : Nat) :
    (x.shl (n : Int)).toInt = x.toInt * 2 ^ n := by
  obtain ⟨_, hm, hs⟩ := BigInt.shl_spec hx n
  unfold BigInt.toInt
  rw [hm, hs]
  cases x.isNegative <;> simp

/-- `operator>>` on a well-formed value and a bit count below `8 * numLen`. -/
theorem BigInt.shr_spec {x : BigInt} (hx : x.WF) (n : Nat) (hn : n < 8 * x.numLen) :
    ∃ r, x.shr (n : Int) = some r ∧ r.WF ∧ r.mag = x.mag / 2 ^ n ∧
      r.isNegative = x.isNegative := by
  unfold BigInt.shr
  by_cases h0 : n = 0
  · subst h0
    rw [if_pos (Or.inl (by simp))]
    exact ⟨_, rfl, hx.copy, by rw [BigInt.copy_mag]; simp, rfl⟩
  have hz : x.numLen ≠ 0 := by omega
  rw [if_neg (by
    intro h
    rcases h with h | h
    · omega
    · exact hz h)]
  obtain ⟨e2, l, b, v⟩ := shiftBits_neg hx.bytes n x.numLen (by omega) (by omega)
  simp only [e2, Int.toNat_ofNat]
  rw [if_neg (by omega)]
  exact ⟨_, rfl, BigInt.ofBuffer_WF _ l b, by rw [BigInt.ofBuffer_mag, v]; rfl, rfl⟩

/-! ## Increment and decrement -/

/-- `byteWiseAdditionNoCopy` with an output as long as the first operand: the
sum without its carry out of byte `len1 - 1`. -/
theorem byteWiseAdditionNoCopy_trunc {cand1 cand2 : List Nat} (h1 : Bytes cand1)
    (h2 : Bytes cand2) (len1 len2 : Nat) (ret : List Nat)
    (hle : len2 ≤ len1) (hlen : len1 ≤ ret.length) (hb : Bytes ret) :
    (byteWiseAdditionNoCopy cand1 len1 cand2 len2 ret len1).length = ret.length ∧
    Bytes (byteWiseAdditionNoCopy cand1 len1 cand2 len2 ret len1) ∧
    (∀ j, len1 ≤ j →
      (byteWiseAdditionNoCopy cand1 len1 cand2 len2 ret len1).getD j 0 = ret.getD j 0) ∧
    ∃ carry, carry ≤ 1 ∧
      valN (byteWiseAdditionNoCopy cand1 len1 cand2 len2 ret len1) len1 + carry * 256 ^ len1
        = valN cand1 len1 + valN cand2 len2 := by
  unfold byteWiseAdditionNoCopy
  simp only [gt_iff_lt, lt_irrefl, if_false]
  obtain ⟨ac, al, ab, au, av⟩ := addLoop2_spec h1 h2 len2 0 0 ret (by omega) (by omega)
  rw [addLoop1_eq_addLoop2]
  have hnil : Bytes ([] : List Nat) := by intro x hx; simp at hx
  obtain ⟨bc, bl, bb, bu, bv⟩ := addLoop2_spec h1 hnil (len1 - len2) len2
    (addLoop2 cand1 cand2 len2 0 0 ret).1 (addLoop2 cand1 cand2 len2 0 0 ret).2 ac
    (by rw [al]; omega)
  have e : len2 + (len1 - len2) = len1 := by omega
  rw [e] at bv bu
  set s2 := addLoop2 cand1 [] (len1 - len2) len2 (addLoop2 cand1 cand2 len2 0 0 ret).1
    (addLoop2 cand1 cand2 len2 0 0 ret).2 with hs2
  have hnilv : ∀ n, valN ([] : List Nat) n = 0 := fun n => by
    simpa using valN_replicate 0 n
  refine ⟨by simp [bl, al], bb (ab hb), ?_, s2.1, bc, ?_⟩
  · intro j hj
    rw [bu j (Or.inr hj), au j (Or.inr (by omega))]
  · simp only [hnilv, valN, zero_add, Nat.zero_mul, Nat.add_zero, pow_zero] at av bv
    linarith

theorem valN_lt_of_top_zero {a : List Nat} (hb : Bytes a) (n : Nat) (hn : 1 ≤ n)
    (ht : a.getD (n - 1) 0 = 0) : valN a n = valN a (n - 1) ∧ valN a n < 256 ^ (n - 1) := by
  have h := valN_pred a n hn
  rw [ht, Nat.zero_mul, Nat.add_zero] at h
  exact ⟨h, by rw [h]; exact valN_lt hb _⟩

theorem top_zero_of_valN_zero (a : List Nat) (n : Nat) (hn : 1 ≤ n) (h0 : valN a n = 0) :
    a.getD (n - 1) 0 = 0 :=
  (valN_eq_zero_iff_getD a n).mp h0 (n - 1) (by omega)

/-- The overflow handling after adding one to a well-formed magnitude. -/
theorem BigInt.carryOut_spec {x : BigInt} (hx : x.WF) (hn : x.numLen ≠ 0) :
    (x.carryOut (byteWiseAdditionNoCopy x.number x.numLen [1] 1 x.number x.numLen)).WF ∧
    (x.carryOut (byteWiseAdditionNoCopy x.number x.numLen [1] 1 x.number x.numLen)).mag
      = x.mag + 1 ∧
    (x.carryOut (byteWiseAdditionNoCopy x.number x.numLen [1] 1 x.number x.numLen)).isNegative
      = x.isNegative := by
  obtain ⟨hl, hb, hle, ht⟩ := hx
  have h1 : Bytes [1] := by intro y hy; simp at hy; omega
  obtain ⟨al, ab, _, carry, hc, av⟩ := byteWiseAdditionNoCopy_trunc hb h1 x.numLen 1 x.number
    (by omega) (by omega) hb
  rw [valN_singleton_one] at av
  set nb := byteWiseAdditionNoCopy x.number x.numLen [1] 1 x.number x.numLen with hnb
  have hpos : 0 < x.numLen := by omega
  have hge := valN_ge_of_top x.numLen hpos (ht hpos)
  have hlt := valN_lt hb x.numLen
  have hnlt := valN_lt ab x.numLen
  have hmag : x.mag = valN x.number x.numLen := rfl
  unfold BigInt.carryOut
  by_cases htop : nb.getD (x.numLen - 1) 0 = 0
  · rw [if_pos htop]
    obtain ⟨_, hsmall⟩ := valN_lt_of_top_zero ab x.numLen hpos htop
    have hc1 : carry = 1 := by
      rcases Nat.le_one_iff_eq_zero_or_eq_one.mp hc with h | h
      · rw [h] at av; omega
      · exact h
    rw [hc1, Nat.one_mul] at av
    have hpw : 256 ^ x.numLen = 256 * 256 ^ (x.numLen - 1) := by
      rw [← pow_succ']; congr 1; omega
    have hz : valN nb x.numLen = 0 := by omega
    have hfull : valN x.number x.numLen + 1 = 256 ^ x.numLen := by omega
    by_cases hcap : x.byteLen > x.numLen
    · rw [if_pos hcap]
      refine ⟨⟨?_, ab.set _ (by decide), ?_, ?_⟩, ?_, rfl⟩
      · show (nb.set x.numLen 1).length = x.byteLen
        rw [List.length_set, al, hl]
      · show x.numLen + 1 ≤ x.byteLen
        omega
      · intro _
        show (nb.set x.numLen 1).getD (x.numLen + 1 - 1) 0 ≠ 0
        rw [Nat.add_sub_cancel, getD_set_eq _ _ _ (by rw [al, hl]; omega)]
        decide
      · show valN (nb.set x.numLen 1) (x.numLen + 1) = x.mag + 1
        simp only [valN]
        rw [valN_set_ge _ _ _ _ (le_refl _), getD_set_eq _ _ _ (by rw [al, hl]; omega), hz, hmag]
        omega
    · rw [if_neg hcap]
      have hmc : memcpy (allocZerosMem (x.numLen + 1)) nb x.numLen = nb.take x.numLen ++ [0] := by
        simp [memcpy, allocZerosMem, List.drop_replicate]
      have hlen : (nb.take x.numLen ++ [0]).length = x.numLen + 1 := by
        simp only [List.length_append, List.length_take, List.length_singleton, al]
        omega
      have hbt : Bytes (nb.take x.numLen ++ [0]) :=
        (ab.take _).append (by intro y hy; simp at hy; omega)
      refine ⟨⟨?_, ?_, ?_, ?_⟩, ?_, rfl⟩
      · show ((memcpy (allocZerosMem (x.numLen + 1)) nb x.numLen).set x.numLen 1).length
          = x.numLen + 1
        rw [hmc, List.length_set, hlen]
      · show Bytes ((memcpy (allocZerosMem (x.numLen + 1)) nb x.numLen).set x.numLen 1)
        rw [hmc]; exact hbt.set _ (by decide)
      · exact le_refl _
      · intro _
        show ((memcpy (allocZerosMem (x.numLen + 1)) nb x.numLen).set x.numLen 1).getD
          (x.numLen + 1 - 1) 0 ≠ 0
        rw [hmc, Nat.add_sub_cancel, getD_set_eq _ _ _ (by rw [hlen]; omega)]
        decide
      · show valN ((memcpy (allocZerosMem (x.numLen + 1)) nb x.numLen).set x.numLen 1)
          (x.numLen + 1) = x.mag + 1
        rw [hmc]
        simp only [valN]
        rw [valN_set_ge _ _ _ _ (le_refl _), getD_set_eq _ _ _ (by rw [hlen]; omega),
          valN_append_left _ _ _ (by simp only [List.length_take, al]; omega),
          valN_take _ _ _ (le_refl _), hz, hmag]
        omega
  · rw [if_neg htop]
    have hc0 : carry = 0 := by
      rcases Nat.le_one_iff_eq_zero_or_eq_one.mp hc with h | h
      · exact h
      · rw [h, Nat.one_mul] at av
        have hz : valN nb x.numLen = 0 := by omega
        exact absurd (top_zero_of_valN_zero nb x.numLen hpos hz) htop
    rw [hc0, Nat.zero_mul, Nat.add_zero] at av
    refine ⟨⟨?_, ab, hle, fun _ => htop⟩, av, rfl⟩
    show nb.length = x.byteLen
    rw [al, hl]

/-- The borrow handling after subtracting one from a well-formed non-zero
magnitude. -/
theorem BigInt.borrowOut_spec {x : BigInt} (hx : x.WF) (hn : x.numLen ≠ 0) :
    (x.borrowOut (byteWiseNegationNoCopy x.number x.numLen [1] 1 x.number x.numLen)).WF ∧
    (x.borrowOut (byteWiseNegationNoCopy x.number x.numLen [1] 1 x.number x.numLen)).mag + 1
      = x.mag ∧
    (x.borrowOut (byteWiseNegationNoCopy x.number x.numLen [1] 1 x.number x.numLen)).isNegative
      = x.isNegative := by
  obtain ⟨hl, hb, hle, ht⟩ := hx
  have h1 : Bytes [1] := by intro y hy; simp at hy; omega
  have hpos : 0 < x.numLen := by omega
  have hge := valN_ge_of_top x.numLen hpos (ht hpos)
  have hp1 : 1 ≤ 256 ^ (x.numLen - 1) := Nat.pow_pos (by decide)
  obtain ⟨al, ab, _, _⟩ := byteWiseNegationNoCopy_spec hb h1 x.numLen 1 x.number x.numLen
    (by omega) (by omega)
  have av := byteWiseNegationNoCopy_val hb h1 x.numLen 1 x.number x.numLen (by omega) (by omega)
    hb (by rw [valN_singleton_one]; omega)
  rw [valN_singleton_one] at av
  set nb := byteWiseNegationNoCopy x.number x.numLen [1] 1 x.number x.numLen with hnb
  have hnbb : Bytes nb := ab hb
  have hmag : x.mag = valN x.number x.numLen := rfl
  unfold BigInt.borrowOut
  by_cases htop : nb.getD (x.numLen - 1) 0 = 0
  · rw [if_pos htop]
    obtain ⟨heq, hsmall⟩ := valN_lt_of_top_zero hnbb x.numLen hpos htop
    refine ⟨⟨?_, hnbb, ?_, ?_⟩, ?_, rfl⟩
    · show nb.length = x.byteLen
      rw [al, hl]
    · show x.numLen - 1 ≤ x.byteLen
      omega
    · intro hp
      have hp' : 0 < x.numLen - 1 := hp
      show nb.getD (x.numLen - 1 - 1) 0 ≠ 0
      intro hz
      obtain ⟨_, hs2⟩ := valN_lt_of_top_zero hnbb (x.numLen - 1) (by omega) hz
      have hpw : 256 ^ (x.numLen - 1) = 256 * 256 ^ (x.numLen - 1 - 1) := by
        rw [← pow_succ']; congr 1; omega
      have hp2 : 1 ≤ 256 ^ (x.numLen - 1 - 1) := Nat.pow_pos (by decide)
      omega
    · show valN nb (x.numLen - 1) + 1 = x.mag
      rw [← heq, hmag]; exact av
  · rw [if_neg htop]
    refine ⟨⟨?_, hnbb, hle, fun _ => htop⟩, av, rfl⟩
    show nb.length = x.byteLen
    rw [al, hl]

/-- Prefix `++` on a well-formed value: the result is well-formed and denotes
the successor. -/
theorem BigInt.preInc_spec {x : BigInt} (hx : x.WF) :
    x.preInc.WF ∧ x.preInc.toInt = x.toInt + 1 := by
  unfold BigInt.preInc
  by_cases h0 : x.numLen = 0
  · rw [if_pos h0, BigInt.toInt_of_numLen_zero h0]
    exact ⟨by decide, by decide⟩
  rw [if_neg h0]
  cases hneg : x.isNegative with
  | true =>
    simp only [if_true]
    obtain ⟨hw, hm, hs⟩ := BigInt.borrowOut_spec hx h0
    refine ⟨hw, ?_⟩
    unfold BigInt.toInt
    rw [hs, hneg, ← hm]
    simp only [if_true]
    push_cast
    ring
  | false =>
    simp only [Bool.false_eq_true, if_false]
    obtain ⟨hw, hm, hs⟩ := BigInt.carryOut_spec hx h0
    refine ⟨hw, ?_⟩
    unfold BigInt.toInt
    rw [hs, hneg, hm]
    simp

/-- Prefix `--` on a well-formed value: the result is well-formed and denotes
the predecessor. -/
theorem BigInt.preDec_spec {x : BigInt} (hx : x.WF) :
    x.preDec.WF ∧ x.preDec.toInt = x.toInt - 1 := by
  unfold BigInt.preDec
  by_cases h0 : x.numLen = 0
  · rw [if_pos h0, BigInt.toInt_of_numLen_zero h0]
    exact ⟨by decide, by decide⟩
  rw [if_neg h0]
  cases hneg : x.isNegative with
  | true =>
    simp only [if_true]
    obtain ⟨hw, hm, hs⟩ := BigInt.carryOut_spec hx h0
    refine ⟨hw, ?_⟩
    unfold BigInt.toInt
    rw [hs, hneg, hm]
    simp only [if_true]
    push_cast
    ring
  | false =>
    simp only [Bool.false_eq_true, if_false]
    obtain ⟨hw, hm, hs⟩ := BigInt.borrowOut_spec hx h0
    refine ⟨hw, ?_⟩
    unfold BigInt.toInt
    rw [hs, hneg, ← hm]
    simp

/-! ## `getHexString` -/

theorem digits_getD (d : Nat) (h : d < 16) : digits.getD d 0 = hexChar d := by
  interval_cases d <;> rfl

/-- Byte `i` of a buffer read off its little-endian value. -/
theorem valN_byte {a : List Nat} (hb : Bytes a) (n i : Nat) (hi : i < n) :
    valN a n / 256 ^ i % 256 = a.getD i 0 := by
  induction n with
  | zero => omega
  | succ n ih =>
    simp only [valN]
    have hp : 0 < 256 ^ i := Nat.pow_pos (by decide)
    by_cases h : i = n
    · subst h
      rw [Nat.add_mul_div_right _ _ hp, Nat.div_eq_of_lt (valN_lt hb i), Nat.zero_add]
      exact Nat.mod_eq_of_lt (hb.getD_lt i)
    · have hlt : i < n := by omega
      have e : a.getD n 0 * 256 ^ n = 256 ^ i * (a.getD n 0 * 256 ^ (n - i - 1) * 256) := by
        have : 256 ^ n = 256 ^ i * 256 ^ (n - i - 1) * 256 := by
          rw [← pow_add, ← pow_succ]; congr 1; omega
        rw [this]; ring
      rw [e, Nat.add_mul_div_left _ _ hp, Nat.add_mul_mod_self_right]
      exact ih hlt

theorem nibble_lo (M j : Nat) : M / 256 ^ j % 256 % 16 = M / 16 ^ (2 * j) % 16 := by
  have : (256 : Nat) ^ j = 16 ^ (2 * j) := by
    rw [pow_mul]; rfl
  rw [this]
  omega

theorem nibble_hi (M j : Nat) : M / 256 ^ j % 256 / 16 = M / 16 ^ (2 * j + 1) % 16 := by
  have : (256 : Nat) ^ j = 16 ^ (2 * j) := by
    rw [pow_mul]; rfl
  rw [this, pow_succ, ← Nat.div_div_eq_div_mul]
  omega

theorem hexLoop_spec (number : List Nat) (L k i : Nat) (ret : List Nat) (hL : ret.length = L)
    (hcap : 2 * (i + k) + 1 ≤ L) :
    (hexLoop number L k i ret).length = L ∧
    (∀ p, p + 2 * (i + k) + 1 < L ∨ L ≤ p + 2 * i + 1 →
      (hexLoop number L k i ret).getD p 0 = ret.getD p 0) ∧
    (∀ j, i ≤ j → j < i + k →
      (hexLoop number L k i ret).getD (L - 2 * j - 2) 0 = digits.getD (number.getD j 0 % 16) 0 ∧
      (hexLoop number L k i ret).getD (L - 2 * j - 3) 0 = digits.getD (number.getD j 0 / 16) 0) := by
  induction k generalizing i ret with
  | zero =>
    refine ⟨hL, fun _ _ => rfl, ?_⟩
    intro j h1 h2; omega
  | succ k ih =>
    simp only [hexLoop]
    set r2 := (ret.set (L - 2 * i - 2) (digits.getD (number.getD i 0 % 16) 0)).set
      (L - 2 * i - 3) (digits.getD (number.getD i 0 / 16) 0) with hr2
    have hl2 : r2.length = L := by simp [hr2, hL]
    obtain ⟨il, iu, iv⟩ := ih (i + 1) r2 hl2 (by omega)
    refine ⟨il, ?_, ?_⟩
    · intro p hp
      rw [iu p (by omega), hr2, getD_set_ne _ _ _ _ (by omega), getD_set_ne _ _ _ _ (by omega)]
    · intro j h1 h2
      by_cases hj : j = i
      · subst hj
        constructor
        · rw [iu _ (by omega), hr2, getD_set_ne _ _ _ _ (by omega),
            getD_set_eq _ _ _ (by omega)]
        · rw [iu _ (by omega), hr2, getD_set_eq _ _ _ (by simp [hL]; omega)]
      · exact iv j (by omega) (by omega)

theorem list_ext_getD (l1 l2 : List Nat) (hlen : l1.length = l2.length)
    (h : ∀ p, p < l1.length → l1.getD p 0 = l2.getD p 0) : l1 = l2 := by
  apply List.ext_getElem hlen
  intro p h1 h2
  have := h p h1
  rwa [List.getD_eq_getElem _ _ h1, List.getD_eq_getElem _ _ h2] at this

theorem getD_range_reverse_map (f : Nat → Nat) (m q : Nat) (hq : q < m) :
    ((List.range m).reverse.map f).getD q 0 = f (m - 1 - q) := by
  rw [List.getD_eq_getElem _ _ (by simp; exact hq)]
  simp

/-- The digits `v / b ^ k % b`, `k < m`, least significant first, have value
`v % b ^ m`. -/
theorem ofDigits_range (b v m : Nat) :
    Nat.ofDigits b ((List.range m).map fun k => v / b ^ k % b) = v % b ^ m := by
  induction m with
  | zero => simp [Nat.mod_one]
  | succ m ih =>
    rw [List.range_succ, List.map_append, Nat.ofDigits_append, ih]
    simp only [List.length_map, List.length_range, List.map_cons, List.map_nil,
      Nat.ofDigits_singleton]
    rw [Nat.mod_pow_succ]

/-- `getHexString` on a well-formed non-zero value: the sign, then the
`2 * numLen` hexadecimal digits of the magnitude, most significant first. -/
theorem BigInt.getHexString_spec {x : BigInt} (hx : x.WF) (hn : x.numLen ≠ 0) :
    x.getHexString = (if x.isNegative then [45] else [])
      ++ (List.range (2 * x.numLen)).reverse.map fun k => hexChar (x.mag / 16 ^ k % 16) := by
  obtain ⟨hl, hb, hle, ht⟩ := hx
  unfold BigInt.getHexString
  rw [if_neg hn]
  simp only
  set s : Nat := if x.isNegative then 1 else 0 with hs
  have hs1 : s ≤ 1 := by rw [hs]; split <;> omega
  set L := x.numLen * 2 + s + 1 with hLdef
  set ret0 := (allocZerosMem L).set (L - 1) 0 with hret0
  have hl0 : ret0.length = L := by simp [hret0, allocZerosMem]
  obtain ⟨rl, _, rv⟩ := hexLoop_spec x.number L x.numLen 0 ret0 hl0 (by omega)
  set r1 := hexLoop x.number L x.numLen 0 ret0 with hr1
  have hbyte : ∀ j, j < x.numLen → x.number.getD j 0 = x.mag / 256 ^ j % 256 := fun j hj =>
    (valN_byte hb x.numLen j hj).symm
  have hchar : ∀ q, q < 2 * x.numLen →
      r1.getD (s + q) 0 = hexChar (x.mag / 16 ^ (2 * x.numLen - 1 - q) % 16) := by
    intro q hq
    set k := 2 * x.numLen - 1 - q with hk
    obtain ⟨h1, h2⟩ := rv (k / 2) (by omega) (by omega)
    have hbl := hb.getD_lt (k / 2)
    rcases Nat.mod_two_eq_zero_or_one k with he | ho
    · have ep : s + q = L - 2 * (k / 2) - 2 := by omega
      have ek : 2 * (k / 2) = k := by omega
      rw [ep, h1, digits_getD _ (by omega), hbyte _ (by omega), nibble_lo, ek]
    · have ep : s + q = L - 2 * (k / 2) - 3 := by omega
      have ek : 2 * (k / 2) + 1 = k := by omega
      rw [ep, h2, digits_getD _ (by omega), hbyte _ (by omega), nibble_hi, ek]
  apply list_ext_getD
  · cases hneg : x.isNegative <;> simp [hneg, rl, hs] <;> omega
  · intro p hp
    have hpL : p < L - 1 := by
      have : (List.take (L - 1) (if x.isNegative then r1.set 0 45 else r1)).length ≤ L - 1 :=
        List.length_take_le _ _
      omega
    rw [getD_take _ _ _ hpL]
    cases hneg : x.isNegative with
    | true =>
      have hs' : s = 1 := by rw [hs, hneg]; rfl
      simp only [if_true]
      by_cases hp0 : p = 0
      · subst hp0
        rw [getD_set_eq _ _ _ (by rw [rl]; omega)]
        rfl
      · rw [getD_set_ne _ _ _ _ (by omega), getD_append_right _ _ _ (by simp; omega)]
        simp only [List.length_singleton]
        rw [getD_range_reverse_map _ _ _ (by omega)]
        have := hchar (p - 1) (by omega)
        rw [hs', show 1 + (p - 1) = p by omega] at this
        exact this
    | false =>
      have hs' : s = 0 := by rw [hs, hneg]; rfl
      simp only [Bool.false_eq_true, if_false, List.nil_append]
      rw [getD_range_reverse_map _ _ _ (by omega)]
      have := hchar p (by omega)
      rw [hs', Nat.zero_add] at this
      exact this

/-- The hexadecimal digits printed by `getHexString` have the magnitude as
their base-16 value. -/
theorem BigInt.hex_digits_value {x : BigInt} (hx : x.WF) :
    Nat.ofDigits 16 ((List.range (2 * x.numLen)).reverse.map
      fun k => x.mag / 16 ^ k % 16).reverse = x.mag := by
  rw [← List.map_reverse, List.reverse_reverse, ofDigits_range]
  apply Nat.mod_eq_of_lt
  have := hx.mag_lt
  have e : (16 : Nat) ^ (2 * x.numLen) = 256 ^ x.numLen := by rw [pow_mul]; rfl
  rw [e]; exact this

/-! ## The `int` constructor -/

theorem valN_four (a b c d : Nat) :
    valN [a, b, c, d] 4 = a + b * 256 + c * 65536 + d * 16777216 := by
  simp [valN]

/-- `BigInt(const int&)` on a 32-bit value: a well-formed four-byte buffer
holding `|n|`, little-endian, with the sign of `n`. -/
theorem BigInt.ofInt32_spec (n : Int) (h1 : -2147483648 ≤ n) (h2 : n < 2147483648) :
    (BigInt.ofInt32 n).WF ∧ (BigInt.ofInt32 n).toInt = n ∧
    (BigInt.ofInt32 n).isNegative = decide (n < 0) ∧
    (BigInt.ofInt32 n).byteLen = 4 ∧
    (BigInt.ofInt32 n).number
      = [n.natAbs % 256, n.natAbs / 256 % 256, n.natAbs / 65536 % 256,
          n.natAbs / 16777216 % 256] ∧
    (BigInt.ofInt32 n).numLen = trimLen (BigInt.ofInt32 n).number 4 ∧
    (BigInt.ofInt32 n).mag = n.natAbs := by
  have hv : (n + 2 ^ 31) % 2 ^ 32 - 2 ^ 31 = n := by norm_num; omega
  have hw : ((if decide (n < 0) = true then -n else n) % 2 ^ 32).toNat = n.natAbs := by
    by_cases hneg : n < 0
    · simp only [hneg, decide_True, if_true]; norm_num; omega
    · simp only [hneg, decide_False, Bool.false_eq_true, if_false]; norm_num; omega
  have hnum : (BigInt.ofInt32 n).number
      = [n.natAbs % 256, n.natAbs / 256 % 256, n.natAbs / 65536 % 256,
          n.natAbs / 16777216 % 256] := by
    simp only [BigInt.ofInt32, hv, hw]
  have hneg : (BigInt.ofInt32 n).isNegative = decide (n < 0) := by
    simp only [BigInt.ofInt32, hv]
  have hlen : (BigInt.ofInt32 n).numLen = trimLen (BigInt.ofInt32 n).number 4 := rfl
  have hbl : (BigInt.ofInt32 n).byteLen = 4 := rfl
  have hbytes : Bytes (BigInt.ofInt32 n).number := by
    rw [hnum]
    intro y hy
    simp only [List.mem_cons, List.mem_singleton, List.not_mem_nil, or_false] at hy
    rcases hy with rfl | rfl | rfl | rfl <;> exact Nat.mod_lt _ (by decide)
  have hwf : (BigInt.ofInt32 n).WF := by
    refine ⟨by rw [hnum, hbl]; rfl, hbytes, by rw [hlen, hbl]; exact trimLen_le _ _, ?_⟩
    intro hp
    rw [hlen] at hp ⊢
    exact trimLen_top _ _ hp
  have hmag : (BigInt.ofInt32 n).mag = n.natAbs := by
    unfold BigInt.mag
    rw [hlen, valN_trimLen, hnum, valN_four]
    omega
  refine ⟨hwf, ?_, hneg, hbl, hnum, hlen, hmag⟩
  unfold BigInt.toInt
  rw [hmag, hneg]
  by_cases hn0 : n < 0
  · simp only [hn0, decide_True, if_true]; omega
  · simp only [hn0, decide_False, Bool.false_eq_true, if_false]; omega

/-! ## `operator[]` -/

/-- The `while` loop of `operator[]` returns digit `index - indexCount` of the
value in `cache`, or -1 when the value has no such digit. -/
theorem indexWhile_spec (N index fuel : Nat) (q c : List Nat) (qLen cnt : Nat)
    (hql : q.length = N + 1) (hqz : ∀ m, q.getD m 0 = 0)
    (hcl : c.length = N + 1) (hcb : Bytes c) (hqN : qLen ≤ N)
    (hcz : ∀ m, qLen ≤ m → c.getD m 0 = 0)
    (hct : 0 < qLen → c.getD (qLen - 1) 0 ≠ 0)
    (hf : (Nat.digits 10 (valN c (N + 1))).length ≤ fuel) (hcnt : cnt ≤ index) :
    indexWhile (index : Int) fuel q c qLen (cnt : Int) =
      some (if index - cnt < (Nat.digits 10 (valN c (N + 1))).length
        then ((valN c (N + 1) / 10 ^ (index - cnt) % 10 : Nat) : Int) else -1) := by
  induction fuel generalizing q c qLen cnt with
  | zero =>
    have hd : Nat.digits 10 (valN c (N + 1)) = [] := List.length_eq_zero.mp (by omega)
    have hq0 : qLen = 0 := by
      by_contra hne
      have := valN_pos_of_top c qLen (N + 1) (by omega) (by omega) (hct (by omega))
      rw [Nat.digits_def' (by decide) this] at hd
      cases hd
    subst hq0
    simp [indexWhile, hd]
  | succ fuel ih =>
    rw [indexWhile]
    by_cases hq0 : qLen = 0
    · subst hq0
      have hV : valN c (N + 1) = 0 := (valN_eq_zero_iff_getD c _).mpr fun j _ => hcz j (by omega)
      simp [hV]
    · have hpos : 0 < qLen := by omega
      rw [if_pos hpos]
      have hVpos := valN_pos_of_top c qLen (N + 1) hpos (by omega) (hct hpos)
      have hdig := Nat.digits_def' (b := 10) (by decide) hVpos
      obtain ⟨r1, r2, r3, r4, r5, r6, r7, r8, r9⟩ := decRound_spec N q c qLen hql hqz hcl hcb hqN hcz
      set r := decBytes qLen ({ quotient := q, cache := c, leadingZero := true }, qLen) with hr
      rw [hdig] at hf ⊢
      simp only [List.length_cons] at hf ⊢
      by_cases heq : cnt = index
      · subst heq
        rw [if_pos rfl, r6]
        simp
      · have hne : ¬ ((cnt : Int) = (index : Int)) := by omega
        rw [if_neg hne]
        have hzq : ∀ m, (r.1.cache.set 0 0).getD m 0 = 0 := by
          intro m
          by_cases hm : m = 0
          · subst hm
            rw [getD_set_eq _ _ _ (by rw [r3]; omega)]
          · rw [getD_set_ne _ _ _ _ (by omega)]
            exact r4 m (by omega)
        have hnext : (cnt : Int) + 1 = ((cnt + 1 : Nat) : Int) := by omega
        rw [hnext, ih (r.1.cache.set 0 0) r.1.quotient r.2 (cnt + 1) (by simp [r3]) hzq r1 r2 r7
          r9 r8 (by rw [r5]; omega) (by omega), r5]
        have e1 : index - cnt = (index - (cnt + 1)) + 1 := by omega
        have e2 : valN c (N + 1) / 10 ^ (index - cnt)
            = valN c (N + 1) / 10 / 10 ^ (index - (cnt + 1)) := by
          rw [e1, pow_succ, Nat.div_div_eq_div_mul, Nat.mul_comm]
        rw [e2]
        by_cases hlt : index - (cnt + 1) < (Nat.digits 10 (valN c (N + 1) / 10)).length
        · rw [if_pos hlt, if_pos (by omega)]
        · rw [if_neg hlt, if_neg (by omega)]

/-- The copy of the magnitude with one byte of headroom that
`getDecimalString` and `operator[]` divide by ten. -/
theorem headroom_facts {x : BigInt} (hx : x.WF) :
    (x.number.take x.numLen ++ [0]).length = x.numLen + 1 ∧
    Bytes (x.number.take x.numLen ++ [0]) ∧
    valN (x.number.take x.numLen ++ [0]) (x.numLen + 1) = x.mag ∧
    (∀ m, x.numLen ≤ m → (x.number.take x.numLen ++ [0]).getD m 0 = 0) ∧
    (0 < x.numLen → (x.number.take x.numLen ++ [0]).getD (x.numLen - 1) 0 ≠ 0) := by
  obtain ⟨hl, hb, hn, ht⟩ := hx
  have hal : x.numLen ≤ x.number.length := hl ▸ hn
  refine ⟨?_, ?_, ?_, ?_, ?_⟩
  · simp; omega
  · exact (hb.take _).append (by intro y hy; simp at hy; omega)
  · simp only [valN]
    rw [valN_append_left _ _ _ (by simp; omega), valN_take _ _ _ (le_refl _),
      getD_append_right _ _ _ (by simp)]
    simp [Nat.min_eq_left hal, BigInt.mag]
  · intro m hm
    rw [getD_append_right _ _ _ (by simp only [List.length_take]; omega)]
    simp only [List.length_take, Nat.min_eq_left hal]
    by_cases hmN : m = x.numLen
    · rw [hmN]; simp
    · exact getD_ge _ _ (by simp only [List.length_singleton]; omega)
  · intro hpos
    rw [getD_append_left _ _ _ (by simp; omega), getD_take _ _ _ (by omega)]
    exact ht hpos

/-- `operator[]` on a well-formed value: the decimal digit of the magnitude at
`index`, counted from the least significant, and -1 outside the digits that
`Nat.digits` lists (none for a zero magnitude). -/
theorem BigInt.index_spec {x : BigInt} (hx : x.WF) (i : Int) :
    x.index i = some (if 0 ≤ i ∧ i.toNat < (Nat.digits 10 x.mag).length
      then ((x.mag / 10 ^ i.toNat % 10 : Nat) : Int) else -1) := by
  have hlen := digits_length_le_decLenBound x.numLen x.mag (valN_lt hx.bytes x.numLen)
  unfold BigInt.index
  simp only
  by_cases hout : i > ((decLenBound x.numLen + 1 : Nat) : Int) ∨ i < 0
  · rw [if_pos hout, if_neg (by omega)]
  · rw [if_neg hout, copy_with_headroom]
    obtain ⟨f1, f2, f3, f4, f5⟩ := headroom_facts hx
    have hi : i = ((i.toNat : Nat) : Int) := by omega
    have h := indexWhile_spec x.numLen i.toNat (decLenBound x.numLen + 2)
      (allocZerosMem (x.numLen + 1)) (x.number.take x.numLen ++ [0]) x.numLen 0
      (by simp [allocZerosMem]) (fun m => getD_replicate _ _) f1 f2 (le_refl _) f4 f5
      (by rw [f3]; omega) (Nat.zero_le _)
    rw [f3, ← hi] at h
    simp only [Nat.cast_zero, Nat.sub_zero] at h
    rw [h]
    by_cases hlt : i.toNat < (Nat.digits 10 x.mag).length
    · rw [if_pos hlt, if_pos ⟨by omega, hlt⟩]
    · rw [if_neg hlt, if_neg (fun h => hlt h.2)]

/-! ## Compound assignment -/

theorem BigInt.setValues_WF (self : BigInt) {buf : List Nat} (s : Bool) {len : Nat}
    (hl : buf.length = len) (hb : Bytes buf) : (self.setValues buf len s).WF :=
  ⟨hl, hb, trimLen_le _ _, trimLen_top _ _⟩

theorem BigInt.WF.addAssign {a b : BigInt} (ha : a.WF) (hb : b.WF) : (a.addAssign b).WF := by
  unfold BigInt.addAssign
  have hg := BigInt.absGreater_spec ha hb
  split
  · exact hb.copy
  split
  · exact ha
  split
  · split
    · rename_i hgt
      rw [hg] at hgt
      have hgt' : a.mag > b.mag := by simpa using hgt
      obtain ⟨e2, l, b', _⟩ := byteWiseNegation_spec ha.bytes hb.bytes a.numLen b.numLen
        (hb.numLen_le_of_mag_le ha (le_of_lt hgt')) (le_of_lt hgt')
      exact BigInt.setValues_WF _ _ (by rw [l, e2]) b'
    · rename_i hgt
      rw [hg] at hgt
      have hgt' : a.mag ≤ b.mag := by simpa using hgt
      obtain ⟨e2, l, b', _⟩ := byteWiseNegation_spec hb.bytes ha.bytes b.numLen a.numLen
        (ha.numLen_le_of_mag_le hb hgt') hgt'
      exact BigInt.setValues_WF _ _ (by rw [l, e2]) b'
  · obtain ⟨e2, l, b', _⟩ := byteWiseAddition_spec ha.bytes hb.bytes a.numLen b.numLen
    exact BigInt.setValues_WF _ _ (by rw [l, e2]) b'

theorem BigInt.WF.subAssign {a b : BigInt} (ha : a.WF) (hb : b.WF) : (a.subAssign b).WF := by
  unfold BigInt.subAssign
  have hg := BigInt.absGreater_spec ha hb
  split
  · exact hb.copy
  split
  · exact ha
  split
  · obtain ⟨e2, l, b', _⟩ := byteWiseAddition_spec ha.bytes hb.bytes a.numLen b.numLen
    exact BigInt.setValues_WF _ _ (by rw [l, e2]) b'
  · split
    · rename_i hgt
      rw [hg] at hgt
      have hgt' : a.mag > b.mag := by simpa using hgt
      obtain ⟨e2, l, b', _⟩ := byteWiseNegation_spec ha.bytes hb.bytes a.numLen b.numLen
        (hb.numLen_le_of_mag_le ha (le_of_lt hgt')) (le_of_lt hgt')
      exact BigInt.setValues_WF _ _ (by rw [l, e2]) b'
    · rename_i hgt
      rw [hg] at hgt
      have hgt' : a.mag ≤ b.mag := by simpa using hgt
      obtain ⟨e2, l, b', _⟩ := byteWiseNegation_spec hb.bytes ha.bytes b.numLen a.numLen
        (ha.numLen_le_of_mag_le hb hgt') hgt'
      exact BigInt.setValues_WF _ _ (by rw [l, e2]) b'

theorem BigInt.WF.mulAssign {a b : BigInt} (ha : a.WF) (hb : b.WF) : (a.mulAssign b).WF := by
  unfold BigInt.mulAssign
  split
  · exact ha
  split
  · exact ⟨rfl, by intro y hy; simp at hy, le_refl _, fun h => absurd h (Nat.lt_irrefl 0)⟩
  · obtain ⟨e2, l, b', _⟩ := multiplicationUtil_spec ha.bytes hb.bytes a.numLen b.numLen
    exact BigInt.setValues_WF _ _ (by rw [l, e2]) b'

/-- `operator/=` for a non-zero divisor: the object left behind is well-formed
and holds the truncated quotient. -/
theorem BigInt.divAssign_spec {a b : BigInt} (ha : a.WF) (hb : b.WF) (hb0 : b.mag ≠ 0) :
    ∃ q, a.divAssign b = some q ∧ q.WF ∧ q.mag = a.mag / b.mag ∧
      q.isNegative = xor a.isNegative b.isNegative := by
  obtain ⟨buf, len, e, l, bb, v⟩ := BigInt.divisionUtil_member_spec ha hb hb0 true
  refine ⟨a.setValues buf len (xor a.isNegative b.isNegative), ?_,
    BigInt.setValues_WF _ _ l bb, ?_, rfl⟩
  · simp [BigInt.divAssign, e]
  · show valN buf (trimLen buf len) = _
    rw [valN_trimLen, v]; rfl

/-- `operator%=` for a non-zero divisor: the object left behind is well-formed
and holds the remainder of the magnitudes under the sign of the dividend. -/
theorem BigInt.modAssign_spec {a b : BigInt} (ha : a.WF) (hb : b.WF) (hb0 : b.mag ≠ 0) :
    ∃ r, a.modAssign b = some r ∧ r.WF ∧ r.mag = a.mag % b.mag ∧
      r.isNegative = a.isNegative := by
  obtain ⟨buf, len, e, l, bb, v⟩ := BigInt.divisionUtil_member_spec ha hb hb0 false
  refine ⟨a.setValues buf len a.isNegative, ?_, BigInt.setValues_WF _ _ l bb, ?_, rfl⟩
  · simp [BigInt.modAssign, e]
  · show valN buf (trimLen buf len) = _
    rw [valN_trimLen, v]; rfl

/-- The four dividing operators on a zero divisor return nothing. -/
theorem BigInt.div_family_zero (a : BigInt) {b : BigInt} (hb : b.WF) (hb0 : b.mag = 0) :
    a.div b = none ∧ a.mod b = none ∧ a.divAssign b = none ∧ a.modAssign b = none := by
  have hn : b.numLen = 0 := hb.mag_eq_zero_iff.mp hb0
  have h1 := BigInt.divisionUtil_of_numLen_zero a b hn true
  have h2 := BigInt.divisionUtil_of_numLen_zero a b hn false
  refine ⟨?_, ?_, ?_, ?_⟩
  · unfold BigInt.div; rw [h1]; rfl
  · unfold BigInt.mod; rw [h2]; rfl
  · unfold BigInt.divAssign; rw [h1]; rfl
  · unfold BigInt.modAssign; rw [h2]; rfl

/-! ## Zero as an operand -/

theorem BigInt.mul_zero_right (a : BigInt) : a.mul BigInt.zero = BigInt.zero := by
  have hz : BigInt.zero.numLen = 0 := rfl
  unfold BigInt.mul
  rw [if_pos (Or.inr hz)]

theorem BigInt.mul_zero_left (a : BigInt) : BigInt.zero.mul a = BigInt.zero := by
  have hz : BigInt.zero.numLen = 0 := rfl
  unfold BigInt.mul
  rw [if_pos (Or.inl hz)]

theorem BigInt.copy_eq_self {a : BigInt} : a.copy.eq a = true := by
  rw [BigInt.eq_iff]
  refine ⟨rfl, rfl, ?_⟩
  intro j hj
  rw [BigInt.copy_number]
  exact getD_take _ _ _ hj

/-- `0 + a == a` for every `a`, and `a + 0 == a` unless `a` is a negative zero. -/
theorem BigInt.add_zero_eq (a : BigInt) :
    (BigInt.zero.add a).eq a = true ∧
    ((a.numLen = 0 → a.isNegative = false) → (a.add BigInt.zero).eq a = true) := by
  have hz : BigInt.zero.numLen = 0 := rfl
  constructor
  · have : BigInt.zero.add a = a.copy := by
      unfold BigInt.add
      rw [if_pos hz]
    rw [this]; exact BigInt.copy_eq_self
  · intro h
    by_cases h0 : a.numLen = 0
    · have e : a.add BigInt.zero = BigInt.zero.copy := by
        unfold BigInt.add
        rw [if_pos h0]
      rw [e, BigInt.eq_iff]
      refine ⟨h0.symm, (h h0).symm, ?_⟩
      intro j hj
      exact absurd hj (Nat.not_lt_zero j)
    · have e : a.add BigInt.zero = a.copy := by
        unfold BigInt.add
        rw [if_neg h0, if_pos hz]
      rw [e]; exact BigInt.copy_eq_self

/-! ## Exact trimming -/

theorem trimLen_zero_above (num : List Nat) (m j : Nat) (h1 : trimLen num m ≤ j) (h2 : j < m) :
    num.getD j 0 = 0 := by
  induction m with
  | zero => omega
  | succ m ih =>
    simp only [trimLen] at h1
    by_cases hm : num.getD m 0 ≠ 0
    · rw [if_pos hm] at h1; omega
    · rw [if_neg hm] at h1
      by_cases hj : j = m
      · subst hj; simpa using hm
      · exact ih h1 (by omega)

theorem trimLen_eq_of_zero_above (num : List Nat) (n m : Nat) (hnm : n ≤ m)
    (ht : 0 < n → num.getD (n - 1) 0 ≠ 0)
    (hz : ∀ j, n ≤ j → j < m → num.getD j 0 = 0) : trimLen num m = n := by
  induction m with
  | zero => simp [trimLen]; omega
  | succ m ih =>
    by_cases hn : n = m + 1
    · subst hn; exact trimLen_eq_self _ _ ht
    · simp only [trimLen]
      rw [if_neg (by simpa using hz m (by omega) (by omega))]
      exact ih (by omega) (fun j h1 h2 => hz j h1 (by omega))

theorem BigInt.Trimmed.zero_above {a : BigInt} (h : a.Trimmed) (j : Nat) (h1 : a.numLen ≤ j)
    (h2 : j < a.byteLen) : a.number.getD j 0 = 0 :=
  trimLen_zero_above a.number a.byteLen j (by rw [← h]; exact h1) h2

theorem BigInt.WF.trimmed_of_zero_above {a : BigInt} (h : a.WF)
    (hz : ∀ j, a.numLen ≤ j → j < a.byteLen → a.number.getD j 0 = 0) : a.Trimmed :=
  (trimLen_eq_of_zero_above a.number a.numLen a.byteLen h.2.2.1 h.top hz).symm

theorem BigInt.WF.copy_trimmed {a : BigInt} (h : a.WF) : a.copy.Trimmed :=
  h.copy.trimmed_of_zero_above fun j h1 h2 => by
    have h1' : a.numLen ≤ j := h1
    have h2' : j < a.numLen := h2
    omega

theorem BigInt.setValues_trimmed (self : BigInt) (buf : List Nat) (len : Nat) (s : Bool) :
    (self.setValues buf len s).Trimmed := rfl

theorem BigInt.ofBuffer_trimmed (buf : List Nat) (s : Bool) (len : Nat) :
    (BigInt.ofBuffer buf s len).Trimmed := rfl

theorem BigInt.add_trimmed {a b : BigInt} (ha : a.WF) (hb : b.WF) : (a.add b).Trimmed := by
  unfold BigInt.add
  split
  · exact hb.copy_trimmed
  split
  · exact ha.copy_trimmed
  split
  · split <;> rfl
  · rfl

theorem BigInt.sub_trimmed {a b : BigInt} (ha : a.WF) (hb : b.WF) : (a.sub b).Trimmed := by
  unfold BigInt.sub
  split
  · exact hb.copy_trimmed
  split
  · exact ha.copy_trimmed
  split
  · rfl
  · split <;> rfl

theorem BigInt.mul_trimmed (a b : BigInt) : (a.mul b).Trimmed := by
  unfold BigInt.mul
  split <;> rfl

theorem BigInt.addAssign_trimmed {a b : BigInt} (ha : a.Trimmed) (hb : b.WF) :
    (a.addAssign b).Trimmed := by
  unfold BigInt.addAssign
  split
  · exact hb.copy_trimmed
  split
  · exact ha
  split
  · split <;> rfl
  · rfl

theorem BigInt.subAssign_trimmed {a b : BigInt} (ha : a.Trimmed) (hb : b.WF) :
    (a.subAssign b).Trimmed := by
  unfold BigInt.subAssign
  split
  · exact hb.copy_trimmed
  split
  · exact ha
  split
  · rfl
  · split <;> rfl

theorem BigInt.mulAssign_trimmed {a : BigInt} (ha : a.Trimmed) (b : BigInt) :
    (a.mulAssign b).Trimmed := by
  unfold BigInt.mulAssign
  split
  · exact ha
  split <;> rfl

theorem BigInt.carryOut_trimmed {x : BigInt} (hx : x.WF) (ht : x.Trimmed) (hn : x.numLen ≠ 0) :
    (x.carryOut (byteWiseAdditionNoCopy x.number x.numLen [1] 1 x.number x.numLen)).Trimmed := by
  obtain ⟨hw, _, _⟩ := BigInt.carryOut_spec hx hn
  apply hw.trimmed_of_zero_above
  have h1 : Bytes [1] := by intro y hy; simp at hy; omega
  obtain ⟨al, _, au, _⟩ := byteWiseAdditionNoCopy_trunc hx.bytes h1 x.numLen 1 x.number
    (by omega) (by rw [hx.1]; exact hx.2.2.1) hx.bytes
  revert hw
  unfold BigInt.carryOut
  set nb := byteWiseAdditionNoCopy x.number x.numLen [1] 1 x.number x.numLen with hnb
  by_cases htop : nb.getD (x.numLen - 1) 0 = 0
  · rw [if_pos htop]
    by_cases hcap : x.byteLen > x.numLen
    · rw [if_pos hcap]
      intro _ j hj1 hj2
      have hj1' : x.numLen + 1 ≤ j := hj1
      have hj2' : j < x.byteLen := hj2
      show (nb.set x.numLen 1).getD j 0 = 0
      rw [getD_set_ne _ _ _ _ (by omega), au j (by omega)]
      exact ht.zero_above j (by omega) hj2'
    · rw [if_neg hcap]
      intro _ j hj1 hj2
      have hj1' : x.numLen + 1 ≤ j := hj1
      have hj2' : j < x.numLen + 1 := hj2
      omega
  · rw [if_neg htop]
    intro _ j hj1 hj2
    have hj1' : x.numLen ≤ j := hj1
    have hj2' : j < x.byteLen := hj2
    show nb.getD j 0 = 0
    rw [au j hj1']
    exact ht.zero_above j hj1' hj2'

theorem BigInt.borrowOut_trimmed {x : BigInt} (hx : x.WF) (ht : x.Trimmed) (hn : x.numLen ≠ 0) :
    (x.borrowOut (byteWiseNegationNoCopy x.number x.numLen [1] 1 x.number x.numLen)).Trimmed := by
  obtain ⟨hw, _, _⟩ := BigInt.borrowOut_spec hx hn
  apply hw.trimmed_of_zero_above
  have h1 : Bytes [1] := by intro y hy; simp at hy; omega
  obtain ⟨al, _, au, _⟩ := byteWiseNegationNoCopy_spec hx.bytes h1 x.numLen 1 x.number x.numLen
    (by omega) (by rw [hx.1]; exact hx.2.2.1)
  revert hw
  unfold BigInt.borrowOut
  set nb := byteWiseNegationNoCopy x.number x.numLen [1] 1 x.number x.numLen with hnb
  by_cases htop : nb.getD (x.numLen - 1) 0 = 0
  · rw [if_pos htop]
    intro _ j hj1 hj2
    have hj1' : x.numLen - 1 ≤ j := hj1
    have hj2' : j < x.byteLen := hj2
    show nb.getD j 0 = 0
    by_cases hj : j = x.numLen - 1
    · rw [hj]; exact htop
    · rw [au j (by omega)]
      exact ht.zero_above j (by omega) hj2'
  · rw [if_neg htop]
    intro _ j hj1 hj2
    have hj1' : x.numLen ≤ j := hj1
    have hj2' : j < x.byteLen := hj2
    show nb.getD j 0 = 0
    rw [au j hj1']
    exact ht.zero_above j hj1' hj2'

theorem BigInt.preInc_trimmed {x : BigInt} (hx : x.WF) (ht : x.Trimmed) : x.preInc.Trimmed := by
  unfold BigInt.preInc
  by_cases h0 : x.numLen = 0
  · rw [if_pos h0]; decide
  rw [if_neg h0]
  split
  · exact BigInt.borrowOut_trimmed hx ht h0
  · exact BigInt.carryOut_trimmed hx ht h0

theorem BigInt.preDec_trimmed {x : BigInt} (hx : x.WF) (ht : x.Trimmed) : x.preDec.Trimmed := by
  unfold BigInt.preDec
  by_cases h0 : x.numLen = 0
  · rw [if_pos h0]; decide
  rw [if_neg h0]
  split
  · exact BigInt.carryOut_trimmed hx ht h0
  · exact BigInt.borrowOut_trimmed hx ht h0

theorem BigInt.div_trimmed {a b q : BigInt} (h : a.div b = some q) : q.Trimmed := by
  unfold BigInt.div at h
  cases hd : a.divisionUtil b true with
  | none => rw [hd] at h; cases h
  | some r =>
    rw [hd] at h
    simp only [Option.map_some', Option.some.injEq] at h
    rw [← h]; rfl

theorem BigInt.mod_trimmed {a b q : BigInt} (h : a.mod b = some q) : q.Trimmed := by
  unfold BigInt.mod at h
  cases hd : a.divisionUtil b false with
  | none => rw [hd] at h; cases h
  | some r =>
    rw [hd] at h
    simp only [Option.map_some', Option.some.injEq] at h
    rw [← h]; rfl

theorem BigInt.divAssign_trimmed {a b q : BigInt} (h : a.divAssign b = some q) : q.Trimmed := by
  unfold BigInt.divAssign at h
  cases hd : a.divisionUtil b true with
  | none => rw [hd] at h; cases h
  | some r =>
    rw [hd] at h
    simp only [Option.map_some', Option.some.injEq] at h
    rw [← h]; rfl

theorem BigInt.modAssign_trimmed {a b q : BigInt} (h : a.modAssign b = some q) : q.Trimmed := by
  unfold BigInt.modAssign at h
  cases hd : a.divisionUtil b false with
  | none => rw [hd] at h; cases h
  | some r =>
    rw [hd] at h
    simp only [Option.map_some', Option.some.injEq] at h
    rw [← h]; rfl

/-! ## Shifts, increment, hexadecimal string, indexing, construction, zero
operands and well-formedness: the claims -/

/-- Claim C21: for every well-formed `x` and every bit count `n ≥ 0`, `x << n`
denotes the integer `x` denotes times `2 ^ n`: same sign flag, magnitude
`|x| * 2 ^ n`, and the result is well-formed. -/
theorem BigInt.shl_denotes (x : BigInt) (n : Nat) (hx : x.WF) :
    (x.shl (n : Int)).toInt = x.toInt * 2 ^ n ∧ (x.shl (n : Int)).mag = x.mag * 2 ^ n ∧
    (x.shl (n : Int)).isNegative = x.isNegative ∧ (x.shl (n : Int)).WF := by
  obtain ⟨hw, hm, hs⟩ := BigInt.shl_spec hx n
  exact ⟨BigInt.shl_toInt hx n, hm, hs, hw⟩

/-- Witness for C21: `-300 << 9` is `-153600`. -/
theorem BigInt.shl_denotes_witness :
    (BigInt.ofInt32 (-300)).WF ∧ (BigInt.ofInt32 (-300)).toInt = -300 ∧
    ((BigInt.ofInt32 (-300)).shl ((9 : Nat) : Int)).toInt = (BigInt.ofInt32 (-300)).toInt * 2 ^ 9 :=
  ⟨by decide, by decide, (BigInt.shl_denotes _ 9 (by decide)).1⟩

/-- Claim C22: for every well-formed `x` and every bit count `n < 8 * numLen`
(so `numLen ≥ 1`), `x >> n` returns a well-formed value of magnitude
`⌊|x| / 2 ^ n⌋` with the sign flag of `x`. -/
theorem BigInt.shr_denotes (x : BigInt) (n : Nat) (hx : x.WF) (hn : n < 8 * x.numLen) :
    ∃ r, x.shr (n : Int) = some r ∧ r.mag = x.mag / 2 ^ n ∧ r.isNegative = x.isNegative ∧
      r.WF := by
  obtain ⟨r, hr, hw, hm, hs⟩ := BigInt.shr_spec hx n hn
  exact ⟨r, hr, hm, hs, hw⟩

/-- Witness for C22: `-300 >> 3` has magnitude `37`. -/
theorem BigInt.shr_denotes_witness :
    (BigInt.ofInt32 (-300)).WF ∧ 1 ≤ (BigInt.ofInt32 (-300)).numLen ∧
    3 < 8 * (BigInt.ofInt32 (-300)).numLen ∧ (BigInt.ofInt32 (-300)).mag / 2 ^ 3 = 37 ∧
    ∃ r, (BigInt.ofInt32 (-300)).shr ((3 : Nat) : Int) = some r ∧
      r.mag = (BigInt.ofInt32 (-300)).mag / 2 ^ 3 ∧
      r.isNegative = (BigInt.ofInt32 (-300)).isNegative ∧ r.WF :=
  ⟨by decide, by decide, by decide, by decide,
    BigInt.shr_denotes _ 3 (by decide) (by decide)⟩

/-- Claim C23: for every well-formed `x`, prefix `++x` leaves (and returns) a
well-formed value denoting the integer `x` denoted plus one. -/
theorem BigInt.preInc_denotes (x : BigInt) (hx : x.WF) :
    x.preInc.toInt = x.toInt + 1 ∧ x.preInc.WF :=
  ⟨(BigInt.preInc_spec hx).2, (BigInt.preInc_spec hx).1⟩

/-- Witness for C23: `++` on `-1`, which gives a zero magnitude. -/
theorem BigInt.preInc_denotes_witness :
    (BigInt.ofInt32 (-1)).WF ∧ (BigInt.ofInt32 (-1)).toInt = -1 ∧
    (BigInt.ofInt32 (-1)).preInc.toInt = (BigInt.ofInt32 (-1)).toInt + 1 ∧
    (BigInt.ofInt32 (-1)).preInc.WF :=
  ⟨by decide, by decide, BigInt.preInc_denotes _ (by decide)⟩

/-- Claim C24: for every well-formed `x`, prefix `--x` leaves (and returns) a
well-formed value denoting the integer `x` denoted minus one. -/
theorem BigInt.preDec_denotes (x : BigInt) (hx : x.WF) :
    x.preDec.toInt = x.toInt - 1 ∧ x.preDec.WF :=
  ⟨(BigInt.preDec_spec hx).2, (BigInt.preDec_spec hx).1⟩

/-- Witness for C24: `--` on `-65535` held in two bytes, which needs a new buffer. -/
theorem BigInt.preDec_denotes_witness :
    (BigInt.ofInt32 (-65535)).copy.WF ∧ (BigInt.ofInt32 (-65535)).copy.toInt = -65535 ∧
    (BigInt.ofInt32 (-65535)).copy.preDec.toInt = (BigInt.ofInt32 (-65535)).copy.toInt - 1 ∧
    (BigInt.ofInt32 (-65535)).copy.preDec.WF :=
  ⟨by decide, by decide, BigInt.preDec_denotes _ (by decide)⟩

/-- Claim C25: for every well-formed `x`, `getHexString x` is `"00"` when the
magnitude is zero, and otherwise a `-` exactly when `isNegative`, followed by
`2 * numLen` uppercase hexadecimal digits, most significant first, whose
base-16 value is the magnitude. -/
theorem BigInt.getHexString_format (x : BigInt) (hx : x.WF) :
    if x.mag = 0 then x.getHexString = [48, 48]
    else ∃ ds : List Nat, ds.length = 2 * x.numLen ∧ (∀ d ∈ ds, d < 16) ∧
      Nat.ofDigits 16 ds.reverse = x.mag ∧
      x.getHexString = (if x.isNegative then [45] else []) ++ ds.map hexChar := by
  by_cases h0 : x.mag = 0
  · rw [if_pos h0]
    have hn : x.numLen = 0 := hx.mag_eq_zero_iff.mp h0
    unfold BigInt.getHexString
    rw [if_pos hn]
  · rw [if_neg h0]
    have hn : x.numLen ≠ 0 := fun h => h0 (BigInt.mag_of_numLen_zero h)
    refine ⟨(List.range (2 * x.numLen)).reverse.map fun k => x.mag / 16 ^ k % 16, by simp, ?_,
      BigInt.hex_digits_value hx, ?_⟩
    · intro d hd
      simp only [List.mem_map, List.mem_reverse, List.mem_range] at hd
      obtain ⟨k, _, rfl⟩ := hd
      exact Nat.mod_lt _ (by decide)
    · rw [BigInt.getHexString_spec hx hn, List.map_map]
      rfl

/-- Witness for C25: `-300` prints as `"-012C"`. -/
theorem BigInt.getHexString_format_witness :
    (BigInt.ofInt32 (-300)).WF ∧ (BigInt.ofInt32 (-300)).getHexString = [45, 48, 49, 50, 67] ∧
    (if (BigInt.ofInt32 (-300)).mag = 0 then (BigInt.ofInt32 (-300)).getHexString = [48, 48]
    else ∃ ds : List Nat, ds.length = 2 * (BigInt.ofInt32 (-300)).numLen ∧ (∀ d ∈ ds, d < 16) ∧
      Nat.ofDigits 16 ds.reverse = (BigInt.ofInt32 (-300)).mag ∧
      (BigInt.ofInt32 (-300)).getHexString
        = (if (BigInt.ofInt32 (-300)).isNegative then [45] else []) ++ ds.map hexChar) :=
  ⟨by decide, by decide, BigInt.getHexString_format _ (by decide)⟩

/-- Claim C26 (fails on the code): the decimal representation of zero is the
single digit `0` (`getDecimalString` returns `"0"`), and `operator[]` returns
-1 at index 0 of a zero, for `BigInt()` and for `BigInt(0)`. -/
theorem BigInt.index_zero_no_digit :
    BigInt.zero.WF ∧ BigInt.zero.getDecimalString = some [48] ∧
    BigInt.zero.index 0 = some (-1) ∧ (BigInt.ofInt32 0).index 0 = some (-1) := by
  refine ⟨by decide, by decide, by decide, by decide⟩

/-- Claim C27: for every 32-bit signed `n`, `BigInt(n)` is well-formed and
denotes `n`; `isNegative` is `n < 0`, the four bytes are those of `|n|`,
least significant first, `numLen` is the trimmed length, and `BigInt(0)` has
`numLen = 0`, `isNegative = false` and compares equal to `BigInt()`. -/
theorem BigInt.ofInt32_denotes (n : Int) (h1 : -2147483648 ≤ n) (h2 : n < 2147483648) :
    (BigInt.ofInt32 n).WF ∧ (BigInt.ofInt32 n).toInt = n ∧
    (BigInt.ofInt32 n).isNegative = decide (n < 0) ∧
    (BigInt.ofInt32 n).number
      = [n.natAbs % 256, n.natAbs / 256 % 256, n.natAbs / 65536 % 256,
          n.natAbs / 16777216 % 256] ∧
    (BigInt.ofInt32 n).numLen = trimLen (BigInt.ofInt32 n).number 4 ∧
    (BigInt.ofInt32 n).mag = n.natAbs ∧
    (BigInt.ofInt32 0).numLen = 0 ∧ (BigInt.ofInt32 0).isNegative = false ∧
    (BigInt.ofInt32 0).eq BigInt.zero = true := by
  obtain ⟨hw, ht, hs, _, hnum, hlen, hmag⟩ := BigInt.ofInt32_spec n h1 h2
  exact ⟨hw, ht, hs, hnum, hlen, hmag, by decide, by decide, by decide⟩

/-- Witness for C27 at the minimum value `-2147483648`. -/
theorem BigInt.ofInt32_denotes_witness :
    (-2147483648 : Int) ≤ -2147483648 ∧ (-2147483648 : Int) < 2147483648 ∧
    (BigInt.ofInt32 (-2147483648)).number = [0, 0, 0, 128] ∧
    (BigInt.ofInt32 (-2147483648)).toInt = -2147483648 :=
  ⟨by decide, by decide, by decide,
    (BigInt.ofInt32_denotes (-2147483648) (by decide) (by decide)).2.1⟩

/-- Claim C28: for every `a` and every zero `z` (`numLen = 0`, under either
sign flag), `a * z` and `z * a` are the canonical zero: `numLen = 0`,
`isNegative = false`, and `operator==` reports them equal to `BigInt()`. -/
theorem BigInt.mul_zero_canonical (a z : BigInt) (hz : z.numLen = 0) :
    a.mul z = BigInt.zero ∧ z.mul a = BigInt.zero ∧
    (a.mul z).eq BigInt.zero = true ∧ (z.mul a).eq BigInt.zero = true ∧
    (a.mul z).numLen = 0 ∧ (a.mul z).isNegative = false ∧
    (z.mul a).numLen = 0 ∧ (z.mul a).isNegative = false := by
  have e1 : a.mul z = BigInt.zero := by
    unfold BigInt.mul
    rw [if_pos (Or.inr hz)]
  have e2 : z.mul a = BigInt.zero := by
    unfold BigInt.mul
    rw [if_pos (Or.inl hz)]
  rw [e1, e2]
  exact ⟨rfl, rfl, by decide, by decide, rfl, rfl, rfl, rfl⟩

/-- Witness for C28: `-5` times the canonical zero. -/
theorem BigInt.mul_zero_canonical_witness :
    BigInt.zero.numLen = 0 ∧ (BigInt.ofInt32 (-5)).mul BigInt.zero = BigInt.zero ∧
    BigInt.zero.mul (BigInt.ofInt32 (-5)) = BigInt.zero :=
  ⟨rfl, (BigInt.mul_zero_canonical (BigInt.ofInt32 (-5)) BigInt.zero rfl).1,
    (BigInt.mul_zero_canonical (BigInt.ofInt32 (-5)) BigInt.zero rfl).2.1⟩

/-- Claim C29 (fails on the code): `a = 5 - 5` is well-formed and denotes 0
with `isNegative = true`; `a + 0` returns the copy of the canonical zero and
`operator==` reports it different from `a`, while `0 + a` compares equal. -/
theorem BigInt.add_zero_negative_zero :
    ((BigInt.ofInt32 5).sub (BigInt.ofInt32 5)).WF ∧
    ((BigInt.ofInt32 5).sub (BigInt.ofInt32 5)).toInt = 0 ∧
    (((BigInt.ofInt32 5).sub (BigInt.ofInt32 5)).add BigInt.zero).eq
      ((BigInt.ofInt32 5).sub (BigInt.ofInt32 5)) = false ∧
    (BigInt.zero.add ((BigInt.ofInt32 5).sub (BigInt.ofInt32 5))).eq
      ((BigInt.ofInt32 5).sub (BigInt.ofInt32 5)) = true := by
  refine ⟨by decide, by decide, by decide, by decide⟩

/-- Preservation of well-formedness: for well-formed `a` and `b`, the result
of each of `+`, `-`, `*`, `/`, `%`, `+=`, `-=`, `*=`, `/=`, `%=`, prefix `++`
and prefix `--` is well-formed (the dividing operators return nothing exactly
on a zero divisor). The results of the five value-returning operators are
moreover exactly trimmed, and so are the objects left by the in-place
operators when `a` was. -/
theorem BigInt.operators_preserve_WF (a b : BigInt) (ha : a.WF) (hb : b.WF) :
    ((a.add b).WF ∧ (a.add b).Trimmed) ∧ ((a.sub b).WF ∧ (a.sub b).Trimmed) ∧
    ((a.mul b).WF ∧ (a.mul b).Trimmed) ∧
    ((b.mag = 0 ∧ a.div b = none) ∨ ∃ q, a.div b = some q ∧ q.WF ∧ q.Trimmed) ∧
    ((b.mag = 0 ∧ a.mod b = none) ∨ ∃ r, a.mod b = some r ∧ r.WF ∧ r.Trimmed) ∧
    (a.addAssign b).WF ∧ (a.subAssign b).WF ∧ (a.mulAssign b).WF ∧
    ((b.mag = 0 ∧ a.divAssign b = none) ∨ ∃ q, a.divAssign b = some q ∧ q.WF ∧ q.Trimmed) ∧
    ((b.mag = 0 ∧ a.modAssign b = none) ∨ ∃ r, a.modAssign b = some r ∧ r.WF ∧ r.Trimmed) ∧
    a.preInc.WF ∧ a.preDec.WF ∧
    (a.Trimmed → (a.addAssign b).Trimmed ∧ (a.subAssign b).Trimmed ∧ (a.mulAssign b).Trimmed ∧
      a.preInc.Trimmed ∧ a.preDec.Trimmed) := by
  refine ⟨⟨ha.add hb, BigInt.add_trimmed ha hb⟩, ⟨ha.sub hb, BigInt.sub_trimmed ha hb⟩,
    ⟨ha.mul hb, BigInt.mul_trimmed a b⟩, ?_, ?_, ha.addAssign hb, ha.subAssign hb,
    ha.mulAssign hb, ?_, ?_, (BigInt.preInc_spec ha).1, (BigInt.preDec_spec ha).1, ?_⟩
  · by_cases hb0 : b.mag = 0
    · exact Or.inl ⟨hb0, (BigInt.div_family_zero a hb hb0).1⟩
    · obtain ⟨q, hq, hw, _⟩ := BigInt.div_spec ha hb hb0
      exact Or.inr ⟨q, hq, hw, BigInt.div_trimmed hq⟩
  · by_cases hb0 : b.mag = 0
    · exact Or.inl ⟨hb0, (BigInt.div_family_zero a hb hb0).2.1⟩
    · obtain ⟨q, hq, hw, _⟩ := BigInt.mod_spec ha hb hb0
      exact Or.inr ⟨q, hq, hw, BigInt.mod_trimmed hq⟩
  · by_cases hb0 : b.mag = 0
    · exact Or.inl ⟨hb0, (BigInt.div_family_zero a hb hb0).2.2.1⟩
    · obtain ⟨q, hq, hw, _⟩ := BigInt.divAssign_spec ha hb hb0
      exact Or.inr ⟨q, hq, hw, BigInt.divAssign_trimmed hq⟩
  · by_cases hb0 : b.mag = 0
    · exact Or.inl ⟨hb0, (BigInt.div_family_zero a hb hb0).2.2.2⟩
    · obtain ⟨q, hq, hw, _⟩ := BigInt.modAssign_spec ha hb hb0
      exact Or.inr ⟨q, hq, hw, BigInt.modAssign_trimmed hq⟩
  · intro ht
    exact ⟨BigInt.addAssign_trimmed ht hb, BigInt.subAssign_trimmed ht hb,
      BigInt.mulAssign_trimmed ht b, BigInt.preInc_trimmed ha ht, BigInt.preDec_trimmed ha ht⟩

/-- Preservation of well-formedness at `1000` and `-7`. -/
theorem BigInt.operators_preserve_WF_witness :
    (BigInt.ofInt32 1000).WF ∧ (BigInt.ofInt32 (-7)).WF ∧
    ((BigInt.ofInt32 1000).add (BigInt.ofInt32 (-7))).WF ∧
    (BigInt.ofInt32 1000).preInc.WF :=
  ⟨by decide, by decide,
    (BigInt.operators_preserve_WF _ _ (by decide) (by decide)).1.1,
    (BigInt.operators_preserve_WF (BigInt.ofInt32 1000) (BigInt.ofInt32 (-7)) (by decide)
      (by decide)).2.2.2.2.2.2.2.2.2.2.1⟩

/-! ## The raw division and subtraction primitives -/

/-- The contract of the static `divisionUtil` in the terms of its callers: a
divisor with a non-zero top byte and a dividend with a zero byte of headroom. -/
theorem divisionUtil_headroom {divi : List Nat} (hb : Bytes divi) (diviLen : Nat)
    (hl : divi.length = diviLen) (hd1 : 1 ≤ diviLen) (htop : divi.getD (diviLen - 1) 0 ≠ 0)
    (qLen : Nat) (remain : List Nat) (hr : remain.length = diviLen + qLen) (hrb : Bytes remain)
    (hz : remain.getD (diviLen + qLen - 1) 0 = 0) :
    valN (divisionUtil divi diviLen (allocZerosMem qLen) qLen remain).1 qLen * valN divi diviLen
        + valN (divisionUtil divi diviLen (allocZerosMem qLen) qLen remain).2 (diviLen + qLen)
      = valN remain (diviLen + qLen) ∧
    valN (divisionUtil divi diviLen (allocZerosMem qLen) qLen remain).2 (diviLen + qLen)
      < valN divi diviLen ∧
    (divisionUtil divi diviLen (allocZerosMem qLen) qLen remain).1.length = qLen ∧
    (divisionUtil divi diviLen (allocZerosMem qLen) qLen remain).2.length = diviLen + qLen := by
  have hge := valN_ge_of_top diviLen (by omega) htop
  obtain ⟨_, hsmall⟩ := valN_lt_of_top_zero hrb (diviLen + qLen) (by omega) hz
  have hpow : 256 ^ (diviLen + qLen - 1) = 256 ^ (diviLen - 1) * 256 ^ qLen := by
    rw [← pow_add]; congr 1; omega
  have hlt : valN remain (qLen + diviLen) < valN divi diviLen * 256 ^ qLen := by
    rw [Nat.add_comm qLen diviLen]
    calc valN remain (diviLen + qLen) < 256 ^ (diviLen + qLen - 1) := hsmall
      _ = 256 ^ (diviLen - 1) * 256 ^ qLen := hpow
      _ ≤ valN divi diviLen * 256 ^ qLen := Nat.mul_le_mul_right _ hge
  have hD : 0 < valN divi diviLen := lt_of_lt_of_le (Nat.pow_pos (by decide)) hge
  obtain ⟨u1, _, u3, _, u5, u6⟩ := divisionUtil_static_spec hb diviLen (by omega) qLen remain
    (by omega) hrb hlt
  rw [Nat.add_comm qLen diviLen] at u3 u5 u6
  refine ⟨?_, ?_, u1, u3⟩
  · rw [u5, u6]
    exact Nat.div_add_mod' _ _
  · rw [u6]
    exact Nat.mod_lt _ hD

theorem negLoop2_snoc (cand1 cand2 : List Nat) (k i c : Nat) (ret : List Nat) :
    negLoop2 cand1 cand2 (k + 1) i c ret =
      (borrowOf (((cand1.getD (i + k) 0 + 65536 - (negLoop2 cand1 cand2 k i c ret).1) % 65536
          + 65536 - cand2.getD (i + k) 0) % 65536),
        (negLoop2 cand1 cand2 k i c ret).2.set (i + k)
          (((cand1.getD (i + k) 0 + 65536 - (negLoop2 cand1 cand2 k i c ret).1) % 65536
            + 65536 - cand2.getD (i + k) 0) % 65536 % 256)) := by
  induction k generalizing i c ret with
  | zero => simp [negLoop2]
  | succ k ih =>
    rw [negLoop2]
    have e : i + 1 + k = i + (k + 1) := by omega
    rw [ih, e]
    rfl

theorem borrow_step_arith (x y c : Nat) (hx : x < 256) (hy : y < 256) (hc : c ≤ 1) :
    borrowOf (((x + 65536 - c) % 65536 + 65536 - y) % 65536) = if x < y + c then 1 else 0 := by
  unfold borrowOf
  split <;> omega

/-- The borrow that the first loop of `byteWiseNegationNoCopy` carries out of
byte `k` is 1 when `cand1[k] - borrow - cand2[k]` underflows and 0 otherwise. -/
theorem negLoop2_borrow {cand1 cand2 : List Nat} (h1 : Bytes cand1) (h2 : Bytes cand2)
    (k i c : Nat) (ret : List Nat) (hc : c ≤ 1) (hlen : i + k + 1 ≤ ret.length) :
    (negLoop2 cand1 cand2 (k + 1) i c ret).1 =
      if cand1.getD (i + k) 0 < cand2.getD (i + k) 0 + (negLoop2 cand1 cand2 k i c ret).1
      then 1 else 0 := by
  obtain ⟨hb, _⟩ := negLoop2_spec h1 h2 k i c ret hc (by omega)
  rw [negLoop2_snoc]
  exact borrow_step_arith _ _ _ (h1.getD_lt _) (h2.getD_lt _) hb

/-! ## Compound against binary operators -/

/-- `a += b` leaves the significant length, the significant bytes and the sign
flag that `a + b` returns. -/
theorem BigInt.addAssign_agrees (a b : BigInt) :
    (a.addAssign b).numLen = (a.add b).numLen ∧
    (a.addAssign b).isNegative = (a.add b).isNegative ∧
    ∀ j, j < (a.add b).numLen → (a.addAssign b).number.getD j 0 = (a.add b).number.getD j 0 := by
  unfold BigInt.addAssign BigInt.add
  split
  · exact ⟨rfl, rfl, fun _ _ => rfl⟩
  split
  · refine ⟨rfl, rfl, ?_⟩
    intro j hj
    have hj' : j < a.numLen := hj
    rw [BigInt.copy_number, getD_take _ _ _ hj']
  split
  · split <;> exact ⟨rfl, rfl, fun _ _ => rfl⟩
  · exact ⟨rfl, rfl, fun _ _ => rfl⟩

/-- `a *= b` compares equal to `a * b` unless a factor is zero while `a`
carries `isNegative = true`. -/
theorem BigInt.mulAssign_eq_mul (a b : BigInt)
    (h : a.numLen = 0 ∨ b.numLen = 0 → a.isNegative = false) :
    (a.mulAssign b).eq (a.mul b) = true := by
  rw [BigInt.eq_iff]
  unfold BigInt.mulAssign BigInt.mul
  by_cases ha : a.numLen = 0
  · rw [if_pos ha, if_pos (Or.inl ha)]
    exact ⟨ha, h (Or.inl ha), fun j hj => by omega⟩
  by_cases hb : b.numLen = 0
  · rw [if_neg ha, if_pos hb, if_pos (Or.inr hb)]
    exact ⟨rfl, h (Or.inr hb), fun j hj => absurd hj (Nat.not_lt_zero j)⟩
  · rw [if_neg ha, if_neg hb, if_neg (by
      intro h'
      rcases h' with h' | h'
      · exact ha h'
      · exact hb h')]
    exact ⟨rfl, rfl, fun _ _ => rfl⟩

/-- `a + b == b + a` whenever the sum is not zero. -/
theorem BigInt.add_comm_eq {a b : BigInt} (ha : a.WF) (hb : b.WF)
    (hne : a.toInt + b.toInt ≠ 0) : (a.add b).eq (b.add a) = true := by
  apply BigInt.eq_of_toInt_eq (ha.add hb) (hb.add ha)
  · rw [BigInt.add_toInt ha hb, BigInt.add_toInt hb ha, Int.add_comm]
  · intro h0
    exfalso
    apply hne
    rw [← BigInt.add_toInt ha hb]
    unfold BigInt.toInt
    rw [h0]; simp

/-! ## Trichotomy of the comparison operators -/

theorem byteWiseGreater_trichotomy (a b : List Nat) (n : Nat) :
    (byteWiseGreater a b n false = true ∨ byteWiseGreater b a n false = true ∨
      ∀ j, j < n → a.getD j 0 = b.getD j 0) ∧
    ¬ (byteWiseGreater a b n false = true ∧ byteWiseGreater b a n false = true) ∧
    ¬ (byteWiseGreater a b n false = true ∧ ∀ j, j < n → a.getD j 0 = b.getD j 0) ∧
    ¬ (byteWiseGreater b a n false = true ∧ ∀ j, j < n → a.getD j 0 = b.getD j 0) ∧
    (byteWiseGreater a b n true = true ↔
      byteWiseGreater a b n false = true ∨ ∀ j, j < n → a.getD j 0 = b.getD j 0) := by
  induction n with
  | zero =>
    refine ⟨Or.inr (Or.inr fun j hj => absurd hj (Nat.not_lt_zero j)), ?_, ?_, ?_, ?_⟩
    · intro h; exact absurd h.1 (by simp [byteWiseGreater])
    · intro h; exact absurd h.1 (by simp [byteWiseGreater])
    · intro h; exact absurd h.1 (by simp [byteWiseGreater])
    · constructor
      · intro _; exact Or.inr fun j hj => absurd hj (Nat.not_lt_zero j)
      · intro _; rfl
  | succ n ih =>
    obtain ⟨i1, i2, i3, i4, i5⟩ := ih
    rcases Nat.lt_trichotomy (a.getD n 0) (b.getD n 0) with hlt | heq | hgt
    · have hne : ¬ (∀ j, j < n + 1 → a.getD j 0 = b.getD j 0) := fun h => by
        have := h n (by omega); omega
      have g1 : ∀ e, byteWiseGreater a b (n + 1) e = false := by
        intro e
        rw [byteWiseGreater, if_neg (by omega), if_pos hlt]
      have g2 : byteWiseGreater b a (n + 1) false = true := by
        rw [byteWiseGreater, if_pos hlt]
      rw [g1 false, g1 true, g2]
      refine ⟨Or.inr (Or.inl rfl), ?_, ?_, ?_, ?_⟩
      · intro h; cases h.1
      · intro h; cases h.1
      · intro h; exact hne h.2
      · constructor
        · intro h; cases h
        · intro h
          rcases h with h | h
          · cases h
          · exact absurd h hne
    · have hall : (∀ j, j < n + 1 → a.getD j 0 = b.getD j 0)
          ↔ ∀ j, j < n → a.getD j 0 = b.getD j 0 := by
        constructor
        · intro h j hj; exact h j (by omega)
        · intro h j hj
          by_cases hjn : j = n
          · rw [hjn]; exact heq
          · exact h j (by omega)
      have g1 : ∀ e, byteWiseGreater a b (n + 1) e = byteWiseGreater a b n e := by
        intro e
        rw [byteWiseGreater, if_neg (by omega), if_neg (by omega)]
      have g2 : byteWiseGreater b a (n + 1) false = byteWiseGreater b a n false := by
        rw [byteWiseGreater, if_neg (by omega), if_neg (by omega)]
      rw [g1 false, g1 true, g2, hall]
      exact ⟨i1, i2, i3, i4, i5⟩
    · have hne : ¬ (∀ j, j < n + 1 → a.getD j 0 = b.getD j 0) := fun h => by
        have := h n (by omega); omega
      have g1 : ∀ e, byteWiseGreater a b (n + 1) e = true := by
        intro e
        rw [byteWiseGreater, if_pos hgt]
      have g2 : byteWiseGreater b a (n + 1) false = false := by
        rw [byteWiseGreater, if_neg (by omega), if_pos hgt]
      rw [g1 false, g1 true, g2]
      refine ⟨Or.inl rfl, ?_, ?_, ?_, ?_⟩
      · intro h; cases h.2
      · intro h; exact hne h.2
      · intro h; cases h.1
      · constructor
        · intro _; exact Or.inl rfl
        · intro _; rfl

theorem eqLoop_iff_all (a b : List Nat) (n : Nat) :
    eqLoop a b n 0 = true ↔ ∀ j, j < n → a.getD j 0 = b.getD j 0 := by
  rw [eqLoop_spec]
  constructor
  · intro h j hj; exact h j (Nat.zero_le _) (by omega)
  · intro h j _ hj; exact h j (by omega)

/-- The three byte comparisons of equal length, as Booleans. -/
theorem byteWise_bool_trichotomy (a b : List Nat) (n : Nat) :
    ((byteWiseGreater b a n false = true ∧ eqLoop a b n 0 = false
        ∧ byteWiseGreater a b n false = false) ∨
      (byteWiseGreater b a n false = false ∧ eqLoop a b n 0 = true
        ∧ byteWiseGreater a b n false = false) ∨
      (byteWiseGreater b a n false = false ∧ eqLoop a b n 0 = false
        ∧ byteWiseGreater a b n false = true)) ∧
    byteWiseGreater a b n true = (byteWiseGreater a b n false || eqLoop a b n 0) := by
  obtain ⟨t1, t2, t3, t4, t5⟩ := byteWiseGreater_trichotomy a b n
  rw [← eqLoop_iff_all] at t1 t3 t4 t5
  revert t1 t2 t3 t4 t5
  generalize byteWiseGreater a b n false = g
  generalize byteWiseGreater b a n false = l
  generalize byteWiseGreater a b n true = ge
  generalize eqLoop a b n 0 = e
  cases g <;> cases l <;> cases e <;> cases ge <;> simp

theorem eq_guard (a b : List Nat) (n : Nat) :
    (if n = 0 then true else eqLoop a b n 0) = eqLoop a b n 0 := by
  by_cases h : n = 0
  · subst h; rfl
  · rw [if_neg h]

/-- Exactly one of `a < b`, `a == b`, `a > b` returns true, and `a >= b` is
the disjunction of the last two, for arbitrary representations. -/
theorem BigInt.compare_trichotomy (a b : BigInt) :
    ((a.lt b = true ∧ a.eq b = false ∧ a.gt b = false) ∨
      (a.lt b = false ∧ a.eq b = true ∧ a.gt b = false) ∨
      (a.lt b = false ∧ a.eq b = false ∧ a.gt b = true)) ∧
    a.ge b = (a.gt b || a.eq b) := by
  obtain ⟨ba, na, xa, sa⟩ := a
  obtain ⟨bb, nb, xb, sb⟩ := b
  simp only [BigInt.lt, BigInt.gt, BigInt.ge, BigInt.eq]
  by_cases hn : na = nb
  · subst hn
    have hb := byteWise_bool_trichotomy xa xb na
    cases sa <;> cases sb <;>
      simp only [Bool.xor_false, Bool.xor_true, Bool.false_xor, Bool.true_xor,
        Bool.not_false, Bool.not_true, Bool.false_eq_true, if_false, if_true, and_true,
        and_false, Bool.xor_self, Bool.or_false, Bool.true_eq_false, ne_eq,
        not_true_eq_false, true_and, eq_guard, and_self, Bool.or_true, or_true, or_false,
        false_or, reduceCtorEq]
    · exact hb
    · exact hb
  · have hn' : ¬ nb = na := fun h => hn h.symm
    rcases Nat.lt_or_gt_of_ne hn with h | h
    · have e1 : ¬ (na > nb) := by omega
      have e2 : nb > na := h
      cases sa <;> cases sb <;> simp [hn, hn', e1, e2]
    · have e1 : na > nb := h
      have e2 : ¬ (nb > na) := by omega
      cases sa <;> cases sb <;> simp [hn, hn', e1, e2]

/-! ## Over-shifting -/

/-- The right branch of `shiftBits` for an offset of `8 * len1` bits or more:
the computed buffer length is zero or negative and the final store lies at a
negative index. -/
theorem shiftBits_overshift (cand1 : List Nat) (len1 n : Nat) (h1 : 1 ≤ len1)
    (hn : 8 * len1 ≤ n) :
    (shiftBits (-(n : Int)) cand1 len1).2 = (len1 : Int) - ((n / 8 : Nat) : Int) ∧
    (shiftBits (-(n : Int)) cand1 len1).2 ≤ 0 ∧
    shiftBitsLastStore (-(n : Int)) len1 < 0 ∧
    (shiftBits (-(n : Int)) cand1 len1).1 = [] := by
  have hp : ¬ (-(n : Int) > 0) := by omega
  have hneg : -(n : Int) < 0 := by omega
  have e1 : (-(-(n : Int))).toNat = n := by omega
  have e2 : ((len1 : Int) - ((n / 8 : Nat) : Int)).toNat = 0 := by omega
  have e3 : len1 - 1 - n / 8 = 0 := by omega
  refine ⟨?_, ?_, ?_, ?_⟩
  · simp only [shiftBits, hp, hneg, if_true, if_false, e1]
  · simp only [shiftBits, hp, hneg, if_true, if_false, e1]
    omega
  · simp only [shiftBitsLastStore, e1]
    omega
  · simp only [shiftBits, hp, hneg, if_true, if_false, e1, e2, e3]
    rw [if_neg (by omega)]
    rfl

/-! ## Primitives, compound operators, comparison, bounds and parsing: the
claims -/

/-- Claim C31: for the static `divisionUtil`, when `divi` has `diviLen ≥ 1`
bytes with a non-zero top byte, `quotient` is `qLen` zero bytes (`qLen ≥ 1`
in the claim; the proof does not need it) and `remain` holds a dividend `D`
in `diviLen + qLen` bytes with a zero top byte, then on return
`quotient * divi + remain = D` and `remain < divi` as little-endian values
(and the buffers keep their lengths). -/
theorem divisionUtil_contract {divi : List Nat} (hb : Bytes divi) (diviLen : Nat)
    (hl : divi.length = diviLen) (hd1 : 1 ≤ diviLen) (htop : divi.getD (diviLen - 1) 0 ≠ 0)
    (qLen : Nat) (remain : List Nat) (hr : remain.length = diviLen + qLen)
    (hrb : Bytes remain) (hz : remain.getD (diviLen + qLen - 1) 0 = 0) :
    valN (divisionUtil divi diviLen (allocZerosMem qLen) qLen remain).1 qLen * valN divi diviLen
        + valN (divisionUtil divi diviLen (allocZerosMem qLen) qLen remain).2 (diviLen + qLen)
      = valN remain (diviLen + qLen) ∧
    valN (divisionUtil divi diviLen (allocZerosMem qLen) qLen remain).2 (diviLen + qLen)
      < valN divi diviLen ∧
    (divisionUtil divi diviLen (allocZerosMem qLen) qLen remain).1.length = qLen ∧
    (divisionUtil divi diviLen (allocZerosMem qLen) qLen remain).2.length = diviLen + qLen :=
  divisionUtil_headroom hb diviLen hl hd1 htop qLen remain hr hrb hz

/-- Witness for C31: 1000 in three bytes divided by 7, two quotient bytes. -/
theorem divisionUtil_contract_witness :
    valN (divisionUtil [7] 1 (allocZerosMem 2) 2 [232, 3, 0]).1 2 * valN [7] 1
        + valN (divisionUtil [7] 1 (allocZerosMem 2) 2 [232, 3, 0]).2 (1 + 2)
      = valN [232, 3, 0] (1 + 2) ∧
    valN (divisionUtil [7] 1 (allocZerosMem 2) 2 [232, 3, 0]).2 (1 + 2) < valN [7] 1 ∧
    (divisionUtil [7] 1 (allocZerosMem 2) 2 [232, 3, 0]).1.length = 2 ∧
    (divisionUtil [7] 1 (allocZerosMem 2) 2 [232, 3, 0]).2.length = 1 + 2 :=
  @divisionUtil_contract [7] (by decide) 1 (by decide) (by decide) (by decide) 2
    [232, 3, 0] (by decide) (by decide) (by decide)

/-- Claim C32: for `byteWiseNegationNoCopy` on `a` (`len1` bytes) and `b`
(`len2 ≤ len1` bytes) with `value a ≥ value b`, the bytes of `ret` from `len1`
on are untouched, the first `len1` bytes hold `value a - value b`, and the
borrow carried out of each byte position, in the first loop and in the second,
is 1 when that position underflows and 0 otherwise. -/
theorem byteWiseNegationNoCopy_contract {a b : List Nat} (ha : Bytes a) (hb : Bytes b)
    (len1 len2 : Nat) (ret : List Nat) (bLenOut : Nat) (hle : len2 ≤ len1)
    (hlen : len1 ≤ ret.length) (hrb : Bytes ret) (hge : valN b len2 ≤ valN a len1) :
    (byteWiseNegationNoCopy a len1 b len2 ret bLenOut).length = ret.length ∧
    (∀ j, len1 ≤ j → (byteWiseNegationNoCopy a len1 b len2 ret bLenOut).getD j 0 = ret.getD j 0) ∧
    valN (byteWiseNegationNoCopy a len1 b len2 ret bLenOut) len1 = valN a len1 - valN b len2 ∧
    (∀ k, k < len2 →
      (negLoop2 a b (k + 1) 0 0 ret).1
        = if a.getD k 0 < b.getD k 0 + (negLoop2 a b k 0 0 ret).1 then 1 else 0) ∧
    (∀ m, len2 + m < len1 →
      (negLoop1 a (m + 1) len2 (negLoop2 a b len2 0 0 ret).1 (negLoop2 a b len2 0 0 ret).2).1
        = if a.getD (len2 + m) 0
            < (negLoop1 a m len2 (negLoop2 a b len2 0 0 ret).1 (negLoop2 a b len2 0 0 ret).2).1
          then 1 else 0) := by
  obtain ⟨l, _, u, _⟩ := byteWiseNegationNoCopy_spec ha hb len1 len2 ret bLenOut hle hlen
  have v := byteWiseNegationNoCopy_val ha hb len1 len2 ret bLenOut hle hlen hrb hge
  refine ⟨l, u, by omega, ?_, ?_⟩
  · intro k hk
    have := negLoop2_borrow ha hb k 0 0 ret (by omega) (by omega)
    simpa only [Nat.zero_add] using this
  · intro m hm
    obtain ⟨c1, l1, _, _, _⟩ := negLoop2_spec ha hb len2 0 0 ret (by omega) (by omega)
    have hnil : Bytes ([] : List Nat) := by intro x hx; simp at hx
    have := negLoop2_borrow ha hnil m len2 (negLoop2 a b len2 0 0 ret).1
      (negLoop2 a b len2 0 0 ret).2 c1 (by rw [l1]; omega)
    rw [negLoop1_eq_negLoop2, negLoop1_eq_negLoop2, this]
    simp

/-- Witness for C32: `256 - 1` over two bytes. -/
theorem byteWiseNegationNoCopy_contract_witness :
    valN (byteWiseNegationNoCopy [0, 1] 2 [1] 1 [0, 0] 2) 2 = valN [0, 1] 2 - valN [1] 1 ∧
    byteWiseNegationNoCopy [0, 1] 2 [1] 1 [0, 0] 2 = [255, 0] ∧
    (negLoop2 [0, 1] [1] 1 0 0 [0, 0]).1 = 1 :=
  ⟨(@byteWiseNegationNoCopy_contract [0, 1] [1] (by decide) (by decide) 2 1 [0, 0] 2
      (by decide) (by decide) (by decide) (by decide)).2.2.1, by decide, by decide⟩

/-- Claim C33: for every `a` and `b` (well-formed or not), the object left by
`a += b` has the significant length, the sign flag and the significant bytes
of the value `a + b` returns, so `operator==` reports them equal. -/
theorem BigInt.addAssign_matches_add (a b : BigInt) :
    (a.addAssign b).numLen = (a.add b).numLen ∧
    (a.addAssign b).isNegative = (a.add b).isNegative ∧
    (∀ j, j < (a.add b).numLen →
      (a.addAssign b).number.getD j 0 = (a.add b).number.getD j 0) ∧
    (a.addAssign b).eq (a.add b) = true := by
  obtain ⟨h1, h2, h3⟩ := BigInt.addAssign_agrees a b
  refine ⟨h1, h2, h3, ?_⟩
  rw [BigInt.eq_iff]
  exact ⟨h1, h2, fun j hj => h3 j (by rw [← h1]; exact hj)⟩

/-- Claim C34 (fails on the code): for `a = -5` and `b = 0`, `a *= b` leaves a
zero with `isNegative = true`, `a * b` is the canonical zero, and `operator==`
reports the two unequal. -/
theorem BigInt.mulAssign_keeps_sign :
    (BigInt.ofInt32 (-5)).WF ∧ (BigInt.ofInt32 0).WF ∧
    ((BigInt.ofInt32 (-5)).mulAssign (BigInt.ofInt32 0)).numLen = 0 ∧
    ((BigInt.ofInt32 (-5)).mulAssign (BigInt.ofInt32 0)).isNegative = true ∧
    (BigInt.ofInt32 (-5)).mul (BigInt.ofInt32 0) = BigInt.zero ∧
    ((BigInt.ofInt32 (-5)).mulAssign (BigInt.ofInt32 0)).eq
      ((BigInt.ofInt32 (-5)).mul (BigInt.ofInt32 0)) = false := by
  refine ⟨by decide, by decide, by decide, by decide, by decide, by decide⟩

/-- Claim C35 (fails on the code): `5` and `-5` are well-formed and non-zero;
`5 + (-5)` is a zero with `isNegative = true`, `(-5) + 5` a zero with
`isNegative = false`, and `operator==` reports the two sums unequal. -/
theorem BigInt.add_comm_opposite :
    (BigInt.ofInt32 5).WF ∧ (BigInt.ofInt32 (-5)).WF ∧
    ((BigInt.ofInt32 5).add (BigInt.ofInt32 (-5))).isNegative = true ∧
    ((BigInt.ofInt32 (-5)).add (BigInt.ofInt32 5)).isNegative = false ∧
    ((BigInt.ofInt32 5).add (BigInt.ofInt32 (-5))).toInt = 0 ∧
    ((BigInt.ofInt32 5).add (BigInt.ofInt32 (-5))).eq
      ((BigInt.ofInt32 (-5)).add (BigInt.ofInt32 5)) = false := by
  refine ⟨by decide, by decide, by decide, by decide, by decide, by decide⟩

/-- Claim C36: for every pair of BigInts `a` and `b`, whatever their
representation, exactly one of `a < b`, `a == b` and `a > b` returns true, and
`a >= b` returns true exactly when `a > b` or `a == b` does. -/
theorem BigInt.comparison_trichotomy (a b : BigInt) :
    ((a.lt b = true ∧ a.eq b = false ∧ a.gt b = false) ∨
      (a.lt b = false ∧ a.eq b = true ∧ a.gt b = false) ∨
      (a.lt b = false ∧ a.eq b = false ∧ a.gt b = true)) ∧
    a.ge b = (a.gt b || a.eq b) :=
  BigInt.compare_trichotomy a b

/-- Claim C37 (fails on the code): for `x = 144` (`numLen = 1`,
`sqrtHexLen = 1`, a `sqrtCache` of two bytes) the multiplication loop of the
first trial runs over `j = 0, 1, 2` and its third product byte is eight times
the byte read at `sqrtCache[2]`; for `x = 2147483647` the value `sqrt` returns
changes with that byte. -/
theorem BigInt.sqrt_stray_read :
    sqrtMul [8, 0] 8 0 0 3 0 0 [0, 0, 0] = [64, 0, 0] ∧
    sqrtMul [8, 0] 8 0 1 3 0 0 [0, 0, 0] = [64, 0, 8] ∧
    (sqrtTrial 1 1 0 0 3
      { copy := [144, 0], sqrtCache := [0, 0], multCache := [0, 0, 0], retVal := [0] }).multCache
      = [64, 0, 0] ∧
    (sqrtTrial 1 1 1 0 3
      { copy := [144, 0], sqrtCache := [0, 0], multCache := [0, 0, 0], retVal := [0] }).multCache
      = [64, 0, 8] ∧
    (BigInt.ofInt32 2147483647).WF ∧
    ((BigInt.ofInt32 2147483647).sqrt false 0).toInt = 46340 ∧
    ((BigInt.ofInt32 2147483647).sqrt false 255).toInt = 46336 := by
  refine ⟨by decide, by decide, by decide, by decide, by decide, by decide, by decide⟩

/-- Claim C38 (fails on the code): for `x = 5` (`numLen = 1`), `x >> 8` makes
`shiftBits` allocate zero bytes and store at index -1, and `x >> 16` makes it
ask for -1 bytes, so `operator>>` has no buffer to return. -/
theorem BigInt.shr_overshift_unsafe :
    (BigInt.ofInt32 5).WF ∧ (BigInt.ofInt32 5).numLen = 1 ∧
    (shiftBits (-8) (BigInt.ofInt32 5).number (BigInt.ofInt32 5).numLen).2 = 0 ∧
    shiftBitsLastStore (-8) (BigInt.ofInt32 5).numLen = -1 ∧
    (shiftBits (-16) (BigInt.ofInt32 5).number (BigInt.ofInt32 5).numLen).2 = -1 ∧
    shiftBitsLastStore (-16) (BigInt.ofInt32 5).numLen = -2 ∧
    (BigInt.ofInt32 5).shr 16 = none := by
  refine ⟨by decide, by decide, by decide, by decide, by decide, by decide, by decide⟩

/-- Claim C39 (fails on the code): `"-0"`, `"-000"` and `"-"` parse to a zero
magnitude with `isNegative = true`, and `operator==` reports
`createFromDecimal("-0")` different from `createFromDecimal("0")`. -/
theorem BigInt.createFromDecimal_negative_zero :
    (BigInt.createFromDecimal [45, 48]).mag = 0 ∧
    (BigInt.createFromDecimal [45, 48]).isNegative = true ∧
    (BigInt.createFromDecimal [45, 48, 48, 48]).mag = 0 ∧
    (BigInt.createFromDecimal [45, 48, 48, 48]).isNegative = true ∧
    (BigInt.createFromDecimal [45]).mag = 0 ∧
    (BigInt.createFromDecimal [45]).isNegative = true ∧
    (BigInt.createFromDecimal [45, 48]).eq (BigInt.createFromDecimal [48]) = false := by
  refine ⟨by decide, by decide, by decide, by decide, by decide, by decide, by decide⟩

/-! ## Primality and the sign flag -/

/-- The loop of `isPrime` reads the bytes and the length of the tested
number, never its sign flag. -/
theorem isPrimeLoop_sign_irrelevant (n : BigInt) (b : Bool) (bi : BigInt) (junk : Nat) :
    ∀ (fuel : Nat) (cache : List Nat) (cacheLen : Nat) (qLen : Int) (ignored : List Nat),
      isPrimeLoop { n with isNegative := b } bi junk fuel cache cacheLen qLen ignored =
      isPrimeLoop n bi junk fuel cache cacheLen qLen ignored := by
  intro fuel
  induction fuel with
  | zero => intros; rfl
  | succ k ih =>
    intro cache cacheLen qLen ignored
    simp only [isPrimeLoop, ih]

/-- `isPrime` returns the same answer whatever the sign flag is set to: a
negative number is tested by its magnitude. -/
theorem BigInt.isPrime_sign_irrelevant (n : BigInt) (b : Bool) (junk fuel : Nat) :
    ({ n with isNegative := b } : BigInt).isPrime junk fuel = n.isPrime junk fuel := by
  have hs : ({ n with isNegative := b } : BigInt).sqrt true junk = n.sqrt true junk := by
    simp only [BigInt.sqrt, Bool.not_true, Bool.false_and]
  simp only [BigInt.isPrime, hs, isPrimeLoop_sign_irrelevant]

/-! ## Consequences of a stale `numLen`

`operator=` leaves `numLen` as it was when the capacity of the target equals
the significant length of the source. The objects it produces that way are
what the theorems below are about. -/

/-- Claim C14 (fails on the code): after `x = BigInt(5); x = BigInt(16777216)`
the object `x` has `numLen = 1` over the bytes `00 00 00 01`, so its magnitude
is zero. Dividing by it does not reach the division-by-zero branch:
`BigInt(5) / x` returns 255 and `BigInt(5) % x` returns 5, and `BigInt() / x`
takes the `divi > *this` short-circuit and returns zero. Division by the
zero of `BigInt()` does reach the branch. -/
theorem BigInt.div_by_stale_zero :
    (BigInt.ofInt32 5).WF ∧ (BigInt.ofInt32 16777216).WF ∧
    (BigInt.ofInt32 5).assign (BigInt.ofInt32 16777216) =
      { byteLen := 4, numLen := 1, number := [0, 0, 0, 1], isNegative := false } ∧
    ((BigInt.ofInt32 5).assign (BigInt.ofInt32 16777216)).mag = 0 ∧
    (BigInt.ofInt32 5).div ((BigInt.ofInt32 5).assign (BigInt.ofInt32 16777216)) =
      some { byteLen := 1, numLen := 1, number := [255], isNegative := false } ∧
    ((BigInt.ofInt32 5).div ((BigInt.ofInt32 5).assign (BigInt.ofInt32 16777216))).map
      BigInt.toInt = some 255 ∧
    ((BigInt.ofInt32 5).mod ((BigInt.ofInt32 5).assign (BigInt.ofInt32 16777216))).map
      BigInt.toInt = some 5 ∧
    ((BigInt.ofInt32 5).assign (BigInt.ofInt32 16777216)).absGreater BigInt.zero = true ∧
    BigInt.zero.div ((BigInt.ofInt32 5).assign (BigInt.ofInt32 16777216)) =
      some BigInt.zero ∧
    (BigInt.ofInt32 5).div BigInt.zero = none ∧ (BigInt.ofInt32 5).mod BigInt.zero = none := by
  refine ⟨by decide, by decide, by decide, by decide, by decide, by decide, by decide,
    by decide, by decide, by decide, by decide⟩

/-- Claim C30 (fails on the code): after `x = BigInt(5); x = BigInt(16777221)`
the object `x` holds the bytes `05 00 00 01` with `numLen = 1`. It is
well-formed (`numLen <= byteLen`, top significant byte non-zero) and denotes
5, and `x += 0`, `x -= 0`, `++x` and `--x` leave it well-formed with
`numLen = 1` while the highest non-zero byte of the buffer has index 3. The
same holds for `z *= 3` where `z` comes from `z = BigInt(0); z = BigInt(16777221)`.
`x += 1`, which goes through `setValues`, leaves an exactly trimmed object. -/
theorem BigInt.inplace_keeps_stale_bytes :
    (BigInt.ofInt32 5).assign (BigInt.ofInt32 16777221) =
      { byteLen := 4, numLen := 1, number := [5, 0, 0, 1], isNegative := false } ∧
    ((BigInt.ofInt32 5).assign (BigInt.ofInt32 16777221)).WF ∧
    ((BigInt.ofInt32 5).assign (BigInt.ofInt32 16777221)).toInt = 5 ∧
    (((BigInt.ofInt32 5).assign (BigInt.ofInt32 16777221)).addAssign BigInt.zero =
      { byteLen := 4, numLen := 1, number := [5, 0, 0, 1], isNegative := false } ∧
     (((BigInt.ofInt32 5).assign (BigInt.ofInt32 16777221)).addAssign BigInt.zero).WF ∧
     ¬ (((BigInt.ofInt32 5).assign (BigInt.ofInt32 16777221)).addAssign BigInt.zero).Trimmed) ∧
    (((BigInt.ofInt32 5).assign (BigInt.ofInt32 16777221)).subAssign BigInt.zero =
      { byteLen := 4, numLen := 1, number := [5, 0, 0, 1], isNegative := false } ∧
     (((BigInt.ofInt32 5).assign (BigInt.ofInt32 16777221)).subAssign BigInt.zero).WF ∧
     ¬ (((BigInt.ofInt32 5).assign (BigInt.ofInt32 16777221)).subAssign BigInt.zero).Trimmed) ∧
    (((BigInt.ofInt32 5).assign (BigInt.ofInt32 16777221)).preInc =
      { byteLen := 4, numLen := 1, number := [6, 0, 0, 1], isNegative := false } ∧
     ((BigInt.ofInt32 5).assign (BigInt.ofInt32 16777221)).preInc.WF ∧
     ¬ ((BigInt.ofInt32 5).assign (BigInt.ofInt32 16777221)).preInc.Trimmed ∧
     trimLen [6, 0, 0, 1] 4 = 4) ∧
    (((BigInt.ofInt32 5).assign (BigInt.ofInt32 16777221)).preDec =
      { byteLen := 4, numLen := 1, number := [4, 0, 0, 1], isNegative := false } ∧
     ((BigInt.ofInt32 5).assign (BigInt.ofInt32 16777221)).preDec.WF ∧
     ¬ ((BigInt.ofInt32 5).assign (BigInt.ofInt32 16777221)).preDec.Trimmed) ∧
    (((BigInt.ofInt32 0).assign (BigInt.ofInt32 16777221)).WF ∧
     ((BigInt.ofInt32 0).assign (BigInt.ofInt32 16777221)).mulAssign (BigInt.ofInt32 3) =
      { byteLen := 4, numLen := 0, number := [5, 0, 0, 1], isNegative := false } ∧
     (((BigInt.ofInt32 0).assign (BigInt.ofInt32 16777221)).mulAssign (BigInt.ofInt32 3)).WF ∧
     ¬ (((BigInt.ofInt32 0).assign (BigInt.ofInt32 16777221)).mulAssign
        (BigInt.ofInt32 3)).Trimmed) ∧
    (((BigInt.ofInt32 5).assign (BigInt.ofInt32 16777221)).addAssign (BigInt.ofInt32 1) =
      { byteLen := 2, numLen := 1, number := [6, 0], isNegative := false } ∧
     (((BigInt.ofInt32 5).assign (BigInt.ofInt32 16777221)).addAssign
        (BigInt.ofInt32 1)).Trimmed) := by
  refine ⟨by decide, by decide, by decide, ⟨by decide, by decide, by decide⟩,
    ⟨by decide, by decide, by decide⟩, ⟨by decide, by decide, by decide, by decide⟩,
    ⟨by decide, by decide, by decide⟩, ⟨by decide, by decide, by decide, by decide⟩,
    ⟨by decide, by decide⟩⟩

end BigIntHomework
